import Mathlib

/-!
# Verification of the keyper in-memory entity store

Shallow embedding of the core of `keyper` (src/collection.ts, src/query.ts,
src/uniqueIndex.ts, src/utils.ts, src/view.ts) and proofs of the spec claims.

JavaScript runtime values are modelled by the inductive type `Value`.
Numbers are modelled as `Int` (the claims under verification do not involve
fractional values; the `NaN` arising from coercions is modelled by `none` in
`toNumOpt`).  Object property maps are association lists in
property-creation order, matching JS `for..in` enumeration order for the
string-keyed records the library builds.  Reference identity of composite
values cannot be observed in a pure embedding; `strictEq` (JS `===`)
therefore answers `false` on any pair of composite values, which models the
behaviour on values that are not the very same reference (the only
situation the verified code paths rely on: `isEqual` falls through to its
structural recursion, and `cmp` is only applied to primitive sort keys in
the verified claims).

The recursive object-walking functions of the source (`isEqual`,
`Criteria.test`, `String(value)`) recurse through association-list lookups
and array elements; they are embedded as structurally recursive functions
on an explicit depth budget (`fuel`) so that they compute by kernel
reduction.  The budget passed by the un-fuelled wrappers
(`sizeOf`-derived) covers every recursion the source performs on the same
input; running out of budget is reported as `false`/an error and never
occurs on the inputs appearing in this development (all evaluations below
are closed by `decide`, which would fail otherwise).
-/

instance {ε α} [DecidableEq ε] [DecidableEq α] : DecidableEq (Except ε α) :=
  fun a b =>
    match a, b with
    | .ok x, .ok y =>
        if h : x = y then .isTrue (by simp [h]) else .isFalse (by simp [h])
    | .error x, .error y =>
        if h : x = y then .isTrue (by simp [h]) else .isFalse (by simp [h])
    | .ok _, .error _ => .isFalse (by simp)
    | .error _, .ok _ => .isFalse (by simp)

namespace Keyper

/-- A JavaScript runtime value. -/
inductive Value where
  | vNull
  | vUndef
  | vBool (b : Bool)
  | vNum (n : Int)
  | vStr (s : String)
  | vArr (elems : List Value)
  | vObj (fields : List (String × Value))
deriving Repr

mutual

def Value.beq : Value → Value → Bool
  | .vNull, .vNull => true
  | .vUndef, .vUndef => true
  | .vBool a, .vBool b => a == b
  | .vNum a, .vNum b => a == b
  | .vStr a, .vStr b => a == b
  | .vArr a, .vArr b => Value.beqList a b
  | .vObj a, .vObj b => Value.beqFields a b
  | _, _ => false

def Value.beqList : List Value → List Value → Bool
  | [], [] => true
  | a :: as, b :: bs => Value.beq a b && Value.beqList as bs
  | _, _ => false

def Value.beqFields : List (String × Value) → List (String × Value) → Bool
  | [], [] => true
  | (k, v) :: as, (k', v') :: bs => k == k' && Value.beq v v' && Value.beqFields as bs
  | _, _ => false

end

mutual

theorem Value.beq_iff : ∀ x y : Value, Value.beq x y = true ↔ x = y
  | .vNull, y => by cases y <;> simp [Value.beq]
  | .vUndef, y => by cases y <;> simp [Value.beq]
  | .vBool a, y => by cases y <;> simp [Value.beq]
  | .vNum a, y => by cases y <;> simp [Value.beq]
  | .vStr a, y => by cases y <;> simp [Value.beq]
  | .vArr a, y => by
      cases y <;> simp [Value.beq]
      exact Value.beqList_iff a _
  | .vObj a, y => by
      cases y <;> simp [Value.beq]
      exact Value.beqFields_iff a _

theorem Value.beqList_iff : ∀ x y : List Value, Value.beqList x y = true ↔ x = y
  | [], y => by cases y <;> simp [Value.beqList]
  | a :: as, y => by
      cases y with
      | nil => simp [Value.beqList]
      | cons b bs =>
          simp [Value.beqList, Value.beq_iff a b, Value.beqList_iff as bs]

theorem Value.beqFields_iff :
    ∀ x y : List (String × Value), Value.beqFields x y = true ↔ x = y
  | [], y => by cases y <;> simp [Value.beqFields]
  | (k, v) :: as, y => by
      cases y with
      | nil => simp [Value.beqFields]
      | cons b bs =>
          cases b with
          | mk k' v' =>
              simp [Value.beqFields, Value.beq_iff v v', Value.beqFields_iff as bs,
                and_assoc]

end

instance : DecidableEq Value := fun x y =>
  decidable_of_iff (Value.beq x y = true) (Value.beq_iff x y)

/-! Computable size of a `Value`, used as the depth budget for the fuelled
recursions below (every recursive call of those functions strictly
decreases the combined size of its arguments). -/

mutual

def Value.vsize : Value → Nat
  | .vNull => 1
  | .vUndef => 1
  | .vBool _ => 1
  | .vNum _ => 1
  | .vStr _ => 1
  | .vArr xs => 1 + Value.lsize xs
  | .vObj fs => 1 + Value.fsize fs

def Value.lsize : List Value → Nat
  | [] => 1
  | v :: rest => 1 + Value.vsize v + Value.lsize rest

def Value.fsize : List (String × Value) → Nat
  | [] => 1
  | (_, v) :: rest => 1 + Value.vsize v + Value.fsize rest

end

/-! ## Character-level string helpers

The JS string operations used by the source (`<` comparison of strings,
`toLowerCase`, `split('.')`, numeric parsing, `startsWith`/`endsWith`/
`indexOf`) are modelled directly on the character lists underlying
`String`, so that they compute by kernel reduction.  JS compares strings by
UTF-16 code units; the embedding compares unicode scalar values, which
agrees on the basic-plane strings handled here. -/

/-- Lexicographic `<` on character lists (JS string `<`). -/
def charListLt : List Char → List Char → Bool
  | [], [] => false
  | [], _ :: _ => true
  | _ :: _, [] => false
  | a :: as, b :: bs => if a < b then true else if a = b then charListLt as bs else false

def strLt (a b : String) : Bool := charListLt a.data b.data

/-- JS string `<=` is `<` or equal (both strings are compared
lexicographically, so `a <= b ↔ ¬(b < a)`). -/
def strLe (a b : String) : Bool := strLt a b || a = b

def toLowerStr (s : String) : String := String.mk (s.data.map Char.toLower)

/-- `field.split('.')`. -/
def splitOnDotAux : List Char → List Char → List String
  | [], acc => [String.mk acc.reverse]
  | c :: cs, acc =>
      if c = '.' then String.mk acc.reverse :: splitOnDotAux cs []
      else splitOnDotAux cs (c :: acc)

def splitOnDot (s : String) : List String := splitOnDotAux s.data []

def digitsVal (cs : List Char) : Nat :=
  cs.foldl (fun acc c => acc * 10 + (c.toNat - '0'.toNat)) 0

/-- JS ToNumber on a string: the empty string converts to 0, an optional
sign followed by digits to the corresponding integer; other strings convert
to NaN, modelled as `none` (fractional and exotic numeric literals do not
occur in the verified claims). -/
def strToNumOpt (s : String) : Option Int :=
  match s.data with
  | [] => some 0
  | '-' :: rest =>
      if rest ≠ [] ∧ rest.all Char.isDigit then some (-(digitsVal rest : Int))
      else none
  | cs => if cs.all Char.isDigit then some (digitsVal cs : Int) else none

/-! ## JS primitive semantics -/

/-- JS strict equality `===` (composite pairs: see module comment). -/
def strictEq : Value → Value → Bool
  | .vNull, .vNull => true
  | .vUndef, .vUndef => true
  | .vBool a, .vBool b => a == b
  | .vNum a, .vNum b => a == b
  | .vStr a, .vStr b => a == b
  | _, _ => false

/-- JS loose `x == null` (true for `null` and `undefined`). -/
def isNullish : Value → Bool
  | .vNull => true
  | .vUndef => true
  | _ => false

/-- `typeof v === 'object'` (true for objects, arrays and `null`). -/
def isObjectType : Value → Bool
  | .vObj _ => true
  | .vArr _ => true
  | .vNull => true
  | _ => false

/-- `v instanceof Object` (true for objects and arrays, false for `null`
and all primitives). -/
def isJsObject : Value → Bool
  | .vObj _ => true
  | .vArr _ => true
  | _ => false

/-- `v instanceof Array`. -/
def isJsArray : Value → Bool
  | .vArr _ => true
  | _ => false

/-- JS ToNumber; `none` models NaN.  Conversion of arrays and objects (which
goes through ToPrimitive/string coercion in JS) is approximated as NaN: the
verified code never compares composite values numerically. -/
def toNumOpt : Value → Option Int
  | .vNull => some 0
  | .vUndef => none
  | .vBool b => some (if b then 1 else 0)
  | .vNum n => some n
  | .vStr s => strToNumOpt s
  | .vArr _ => none
  | .vObj _ => none

/-- Numeric comparison after ToNumber: any NaN operand compares false. -/
def numLtOpt : Option Int → Option Int → Bool
  | some m, some n => decide (m < n)
  | _, _ => false

def numLeOpt : Option Int → Option Int → Bool
  | some m, some n => decide (m ≤ n)
  | _, _ => false

/-- JS `<`: if both operands are strings, compare lexicographically,
otherwise convert both to numbers (any NaN makes the comparison false). -/
def ltJs (a b : Value) : Bool :=
  match a, b with
  | .vStr x, .vStr y => strLt x y
  | _, _ => numLtOpt (toNumOpt a) (toNumOpt b)

/-- JS `<=`, with the same conventions as `ltJs`. -/
def leJs (a b : Value) : Bool :=
  match a, b with
  | .vStr x, .vStr y => strLe x y
  | _, _ => numLeOpt (toNumOpt a) (toNumOpt b)

/-- Decimal rendering of an integer, on the character level (the recursion
on successive divisions by 10 is bounded by the number itself). -/
def natDigitsF : Nat → Nat → List Char
  | 0, _ => []
  | fuel + 1, n =>
    if n < 10 then [Char.ofNat ('0'.toNat + n)]
    else natDigitsF fuel (n / 10) ++ [Char.ofNat ('0'.toNat + n % 10)]

def natDigits (n : Nat) : List Char := natDigitsF (n + 1) n

def intToStr (n : Int) : String :=
  if n < 0 then String.mk ('-' :: natDigits n.natAbs)
  else String.mk (natDigits n.natAbs)

mutual

/-- JS `String(v)` for use as a computed property key (`pk.toString()`,
`fk.toString()`, `index[query[field]]`).  An array converts to its
comma-joined elements; plain objects to `"[object Object]"`. -/
def propKeyStrF : Nat → Value → String
  | 0, _ => ""
  | _ + 1, .vNull => "null"
  | _ + 1, .vUndef => "undefined"
  | _ + 1, .vBool b => if b then "true" else "false"
  | _ + 1, .vNum n => intToStr n
  | _ + 1, .vStr s => s
  | fuel + 1, .vArr elems => propKeyListF fuel elems
  | _ + 1, .vObj _ => "[object Object]"
termination_by structural fuel _ => fuel

def propKeyListF : Nat → List Value → String
  | 0, _ => ""
  | _ + 1, [] => ""
  | fuel + 1, [e] => propKeyStrF fuel e
  | fuel + 1, e :: rest => propKeyStrF fuel e ++ "," ++ propKeyListF fuel rest
termination_by structural fuel _ => fuel

end

def propKeyStr (v : Value) : String := propKeyStrF (v.vsize) v

/-- First binding of key `k` in a JS object's field list. -/
def lookupField : List (String × Value) → String → Option Value
  | [], _ => none
  | (k, v) :: rest, key => if k = key then some v else lookupField rest key

/-- JS property read `v[k]`: `undefined` on primitives and missing keys;
arrays expose `length`. -/
def jsGet (v : Value) (k : String) : Value :=
  match v with
  | .vObj fs => (lookupField fs k).getD .vUndef
  | .vArr xs => if k = "length" then .vNum xs.length else .vUndef
  | _ => (.vUndef)

/-- `utils.fieldGetter`: dot-separated field chain; traversal through a
nullish value yields `undefined`, the final value is returned as-is. -/
def fieldGetterChain : List String → Value → Value
  | [], v => v
  | k :: ks, v => if isNullish v then .vUndef else fieldGetterChain ks (jsGet v k)

def fieldGetter (field : String) (v : Value) : Value :=
  fieldGetterChain (splitOnDot field) v

/-! ## utils.ts — isEqual

`utils.isEqual`: structural equality over own enumerable properties.
`isEqualFieldsSubF fx fy` models the first loop of the source (every
property of `x` present and equal in `y`), `keysSubset` the second (no
extra property in `y`).  The source's `typeof(x[p]) !== "object"` early-out
is behaviourally equal to the recursive call (a primitive mismatch also
fails the recursion) and is folded into it.  Arrays enumerate their indices,
so two arrays compare by length and element-wise recursion; values of
different constructors fail the `x.constructor !== y.constructor` check. -/

def keysSubset (fy fx : List (String × Value)) : Bool :=
  fy.all (fun p => (lookupField fx p.1).isSome)

mutual

def isEqualF : Nat → Value → Value → Bool
  | 0, _, _ => false
  | fuel + 1, x, y =>
    match x, y with
    | .vArr ax, .vArr ay => ax.length == ay.length && isEqualElemsF fuel ax ay
    | .vObj fx, .vObj fy => isEqualFieldsSubF fuel fx fy && keysSubset fy fx
    | x, y => strictEq x y
termination_by structural fuel _ _ => fuel

def isEqualElemsF : Nat → List Value → List Value → Bool
  | 0, _, _ => false
  | _ + 1, [], _ => true
  | _ + 1, _ :: _, [] => true
  | fuel + 1, a :: as, b :: bs => isEqualF fuel a b && isEqualElemsF fuel as bs
termination_by structural fuel _ _ => fuel

def isEqualFieldsSubF : Nat → List (String × Value) → List (String × Value) → Bool
  | 0, _, _ => false
  | _ + 1, [], _ => true
  | fuel + 1, (k, v) :: rest, fy =>
    (match lookupField fy k with
     | none => false
     | some w => isEqualF fuel v w) && isEqualFieldsSubF fuel rest fy
termination_by structural fuel _ _ => fuel

end

def isEqual (x y : Value) : Bool := isEqualF (x.vsize + y.vsize) x y

/-! ## query.ts — Criteria -/

namespace Criteria

/-- `key in operators` for the operator table of `Criteria`. -/
def isOpKey (k : String) : Bool :=
  k ∈ ["$eq", "$ne", "$lt", "$lte", "$gt", "$gte", "$like", "$in", "$nin",
       "$any", "$all", "$length", "$and", "$or", "$nor", "$not"]

/-- Substring test (JS `String.prototype.indexOf(sub) !== -1`). -/
def charListContains (s sub : List Char) : Bool :=
  sub.isEmpty || (List.range (s.length + 1)).any
    (fun i => (s.drop i).take sub.length = sub)

/-- The `$like` operator.  A pattern with neither a leading nor a trailing
`%` throws.  Non-string receivers/patterns (which hit missing-method
TypeErrors in JS) are modelled as errors. -/
def opLike (what arg : Value) : Except String Bool :=
  match what, arg with
  | .vStr w, .vStr p =>
      match p.data with
      | [] => .error "Invalid $like operator parameter: "
      | c :: rest =>
        if c = '%' then
          -- pattern starts with '%'
          match rest.getLast? with
          | some '%' =>
            -- `p.substr(1, p.length - 2)` (for the pattern "%" this is "")
            .ok (charListContains w.data (rest.dropLast))
          | _ =>
            if rest = [] then
              -- pattern "%": charAt(len-1) is also '%', substring is ""
              .ok true
            else .ok (rest.isSuffixOf w.data)
        else
          match (c :: rest).getLast? with
          | some '%' => .ok (List.isPrefixOf ((c :: rest).dropLast) w.data)
          | _ => .error ("Invalid $like operator parameter: " ++ p)
  | _, _ => .error "Invalid $like operands"

/-- `what.length` as read by `$length`. -/
def jsLength (what : Value) : Value :=
  match what with
  | .vArr xs => .vNum xs.length
  | .vStr s => .vNum s.length
  | .vObj fs => (lookupField fs "length").getD .vUndef
  | _ => (.vUndef)

/-- Elements scanned by the `for (i = 0; i < what.length; i++)` loops of
`$any`/`$all`.  Strings iterate their characters; other non-arrays have an
undefined `length` so the loop body never runs. -/
def whatElems : Value → List Value
  | .vArr xs => xs
  | .vStr s => s.data.map (fun c => .vStr (String.mk [c]))
  | _ => []

mutual

/-- `Criteria.test(what, criteria)`.  A non-object criteria enumerates no
own properties, so it vacuously passes (string/array criteria, whose
indices would be enumerated, do not occur in the library). -/
def testF : Nat → Value → Value → Except String Bool
  | 0, _, _ => .error "insufficient fuel"
  | fuel + 1, what, criteria =>
    match criteria with
    | .vObj entries => testEntriesF fuel what entries
    | _ => .ok true
termination_by structural fuel _ _ => fuel

def testEntriesF : Nat → Value → List (String × Value) → Except String Bool
  | 0, _, _ => .error "insufficient fuel"
  | fuel + 1, what, entries =>
    match entries with
    | [] => .ok true
    | (key, value) :: rest =>
      -- undefined arguments are skipped
      if value = .vUndef then testEntriesF fuel what rest
      else if isOpKey key then
        match applyOpF fuel key what value with
        | .error e => .error e
        | .ok false => .ok false
        | .ok true => testEntriesF fuel what rest
      else if isJsObject value then
        match testF fuel (fieldGetter key what) value with
        | .error e => .error e
        | .ok false => .ok false
        | .ok true => testEntriesF fuel what rest
      else
        -- bare sub-criteria promoted to {$eq: value}
        if strictEq (fieldGetter key what) value then testEntriesF fuel what rest
        else .ok false
termination_by structural fuel _ _ => fuel

def applyOpF : Nat → String → Value → Value → Except String Bool
  | 0, _, _, _ => .error "insufficient fuel"
  | fuel + 1, op, what, arg =>
    if op = "$eq" then .ok (strictEq what arg)
    else if op = "$ne" then .ok (!strictEq what arg)
    else if op = "$lt" then .ok (ltJs what arg)
    else if op = "$lte" then .ok (leJs what arg)
    else if op = "$gt" then .ok (ltJs arg what)
    else if op = "$gte" then .ok (leJs arg what)
    else if op = "$like" then opLike what arg
    else if op = "$in" then
      match arg with
      | .vArr vs => .ok (vs.any (fun v => strictEq v what))
      | _ => .error "$in argument must be an array"
    else if op = "$nin" then
      match arg with
      | .vArr vs => .ok (!vs.any (fun v => strictEq v what))
      | _ => .error "$nin argument must be an array"
    else if op = "$any" then testAnyListF fuel (whatElems what) arg
    else if op = "$all" then testAllListF fuel (whatElems what) arg
    else if op = "$length" then
      if isJsObject arg then testF fuel (jsLength what) arg
      else .ok (strictEq (jsLength what) arg)
    -- for `$and`/`$or`/`$nor` a non-array argument has an undefined
    -- `length`, so the `for (i = 0; i < values.length; i++)` loop body
    -- never runs
    else if op = "$and" then
      match arg with
      | .vArr cs => testConjListF fuel what cs
      | _ => .ok true
    else if op = "$or" then
      match arg with
      | .vArr cs => testDisjListF fuel what cs
      | _ => .ok false
    else if op = "$nor" then
      match arg with
      | .vArr cs =>
        (match testDisjListF fuel what cs with
         | .error e => .error e
         | .ok b => .ok (!b))
      | _ => .ok true
    else if op = "$not" then
      match testF fuel what arg with
      | .error e => .error e
      | .ok b => .ok (!b)
    else .ok true
termination_by structural fuel _ _ _ => fuel

def testAnyListF : Nat → List Value → Value → Except String Bool
  | 0, _, _ => .error "insufficient fuel"
  | _ + 1, [], _ => .ok false
  | fuel + 1, e :: rest, arg =>
    match testF fuel e arg with
    | .error err => .error err
    | .ok true => .ok true
    | .ok false => testAnyListF fuel rest arg
termination_by structural fuel _ _ => fuel

def testAllListF : Nat → List Value → Value → Except String Bool
  | 0, _, _ => .error "insufficient fuel"
  | _ + 1, [], _ => .ok true
  | fuel + 1, e :: rest, arg =>
    match testF fuel e arg with
    | .error err => .error err
    | .ok false => .ok false
    | .ok true => testAllListF fuel rest arg
termination_by structural fuel _ _ => fuel

def testConjListF : Nat → Value → List Value → Except String Bool
  | 0, _, _ => .error "insufficient fuel"
  | _ + 1, _, [] => .ok true
  | fuel + 1, what, c :: rest =>
    match testF fuel what c with
    | .error err => .error err
    | .ok false => .ok false
    | .ok true => testConjListF fuel what rest
termination_by structural fuel _ _ => fuel

def testDisjListF : Nat → Value → List Value → Except String Bool
  | 0, _, _ => .error "insufficient fuel"
  | _ + 1, _, [] => .ok false
  | fuel + 1, what, c :: rest =>
    match testF fuel what c with
    | .error err => .error err
    | .ok true => .ok true
    | .ok false => testDisjListF fuel what rest
termination_by structural fuel _ _ => fuel

end

/-- Depth budget that covers every recursion `Criteria.test` performs:
each recursive call strictly decreases `what.vsize * criteria.vsize`-style
products; the generous bound below dominates them. -/
def testFuel (what criteria : Value) : Nat :=
  (what.vsize + criteria.vsize + 2) * (criteria.vsize + 2)

/-- `Criteria.test(what, criteria)` (see `testF`). -/
def test (what criteria : Value) : Except String Bool :=
  testF (testFuel what criteria) what criteria

/-- `Criteria.tester(criteria)` returns the one-argument closure. -/
def tester (criteria : Value) : Value → Except String Bool :=
  fun what => test what criteria

end Criteria

/-! ## query.ts — Ordering -/

namespace Ordering

/-- The three-way comparison at the heart of `Ordering`:
`-1` when `a < b`, `0` when `a === b`, `1` otherwise (JS `<` and `===`). -/
def cmp (a b : Value) : Int :=
  if ltJs a b then -1 else if strictEq a b then 0 else 1

/-- The regex `^(.*?)([+-]?)$`: an optional trailing `+`/`-` selects the
direction, the rest is the field path. -/
def parseOrderKey (expr : String) : String × Bool :=
  match expr.data.getLast? with
  | some '+' => (String.mk expr.data.dropLast, false)
  | some '-' => (String.mk expr.data.dropLast, true)
  | _ => (expr, false)

/-- `calcField`: resolve the field and lowercase string values. -/
def calcField (field : String) (o : Value) : Value :=
  match fieldGetter field o with
  | .vStr s => .vStr (toLowerStr s)
  | v => v

/-- `Ordering.fieldComparator`. -/
def fieldComparator (expr : String) : Value → Value → Int :=
  let p := parseOrderKey expr
  if p.2 then fun a b => cmp (calcField p.1 b) (calcField p.1 a)
  else fun a b => cmp (calcField p.1 a) (calcField p.1 b)

/-- `Ordering.compoundComparator`: apply in sequence, return the first
non-zero result, else 0. -/
def compoundComparator (cs : List (Value → Value → Int)) (a b : Value) : Int :=
  match cs with
  | [] => 0
  | c :: rest =>
    if c a b ≠ 0 then c a b else compoundComparator rest a b

/-- `orderBy` arguments are a field expression or a sequence of them. -/
inductive OrderBy where
  | single (s : String)
  | multi (l : List String)
deriving DecidableEq, Repr

/-- `Ordering.comparator`. -/
def comparator : OrderBy → Value → Value → Int
  | .single s => fieldComparator s
  | .multi l => compoundComparator (l.map fieldComparator)

end Ordering

/-! ## utils.ts — sortedIndex, and a model of Array.prototype.sort -/

/-- `utils.sortedIndex`: binary search for the lowest insertion point.
The loop runs at most `high - low` rounds; the wrapper passes that budget.
`l.getD mid item` is `array[mid]` (`mid` is always in bounds when
`high ≤ l.length`; the default is never used then). -/
def sortedIndexF {α : Type} : Nat → (α → α → Int) → List α → α → Nat → Nat → Nat
  | 0, _, _, _, _, high => high
  | fuel + 1, c, l, item, low, high =>
    if low < high then
      let mid := (low + high) / 2
      if c (l.getD mid item) item < 0 then sortedIndexF fuel c l item (mid + 1) high
      else sortedIndexF fuel c l item low mid
    else high

def sortedIndex {α : Type} (c : α → α → Int) (l : List α) (item : α) : Nat :=
  sortedIndexF (l.length + 1) c l item 0 l.length

/-- `items.sort(comparator)` is modelled as insertion sort (the claims
only rely on the result being a sorted permutation; JS sort order on ties
is not relied upon). -/
def insertSorted {α : Type} (c : α → α → Int) (x : α) : List α → List α
  | [] => [x]
  | y :: ys => if c y x ≤ 0 then y :: insertSorted c x ys else x :: y :: ys

def sortByCmp {α : Type} (c : α → α → Int) : List α → List α
  | [] => []
  | x :: xs => insertSorted c x (sortByCmp c xs)

/-! ## Entities

A cache entity is an attribute map plus the `pk` attribute installed by
`createInstance` via `Object.defineProperty` (non-enumerable, hence
invisible to `for..in`-based code such as `isEqual` and `deepFreeze`, but
readable as a property).  `asValue` exposes the property view (with `pk`
readable), `entityEq` the enumerable view used by `isEqual`. -/

structure Entity where
  pkVal : Value
  fields : List (String × Value)
deriving DecidableEq, Repr

/-- The entity as seen by property reads (`item[field]`, `item.pk`). -/
def Entity.asValue (e : Entity) : Value := .vObj (("pk", e.pkVal) :: e.fields)

/-- `isEqual(e1, e2)` on cache entities compares own enumerable
properties; the non-enumerable `pk` is not among them. -/
def entityEq (e₁ e₂ : Entity) : Bool :=
  isEqual (.vObj e₁.fields) (.vObj e₂.fields)

/-- `pk.toString()` / `fk.toString()` — the string form used as a map or
bucket key. -/
def keyStr (v : Value) : String := propKeyStr v

/-- `uniqueIndex.ts`'s module-level `pkComparator = Ordering.comparator('pk')`,
applied to entities. -/
def pkCmpE (a b : Entity) : Int :=
  Ordering.fieldComparator "pk" a.asValue b.asValue

/-! ## uniqueIndex.ts — UniqueIndex

A `UniqueIndex` is an array of entities sorted by `pkComparator` together
with a pk-string-keyed hash (`_items`) and a frozen flag.  The hash is kept
in sync with the array by the source; it is modelled as the derived map
`fun k => items.find? (keyStr ·.pkVal = k)`.  On a frozen index every
mutating operation copies first and freezes the copy; on a mutable index it
mutates in place.  The pure embedding returns the resulting index either
way; the `frozen` flag records which behaviour call sites observe (a frozen
index discards in-place mutation, see `addInPlace`). -/

structure UIdx where
  frozen : Bool
  items : List Entity
deriving DecidableEq, Repr

namespace UIdx

/-- `UniqueIndex(mutable = false)`: a fresh index, frozen unless `mutable`. -/
def mkNew (mutable : Bool) : UIdx := { frozen := !mutable, items := [] }

/-- `_items[k]` for a string key `k`. -/
def getStr (u : UIdx) (k : String) : Option Entity :=
  u.items.find? (fun e => keyStr e.pkVal = k)

/-- `index.get(pk)`: throws on a nullish pk, else the hash lookup
(`undefined` → `none` when absent). -/
def get (u : UIdx) (pk : Value) : Except String (Option Entity) :=
  if isNullish pk then .error "Missing pk"
  else .ok (u.getStr (keyStr pk))

/-- `index.has(pk)`. -/
def hasStr (u : UIdx) (k : String) : Bool := (u.getStr k).isSome

def has (u : UIdx) (pk : Value) : Bool := u.hasStr (keyStr pk)

/-- `copy(freeze = false)`: an independent copy, mutable unless `freeze`. -/
def copy (u : UIdx) (freeze : Bool := false) : UIdx :=
  { frozen := freeze, items := u.items }

/-- One step of `add`: `splice(idx, replace ? 1 : 0, item)` at the sorted
position. -/
def addOne (items : List Entity) (item : Entity) : List Entity :=
  let replace := (items.find? (fun e => keyStr e.pkVal = keyStr item.pkVal)).isSome
  let idx := sortedIndex pkCmpE items item
  items.take idx ++ item :: items.drop (idx + (if replace then 1 else 0))

/-- `add(...items)`: on a frozen receiver, copy, insert, re-freeze; on a
mutable receiver, insert in place. -/
def add (u : UIdx) (toAdd : List Entity) : UIdx :=
  { frozen := u.frozen, items := toAdd.foldl addOne u.items }

/-- One step of `remove`: splice out the found position if present. -/
def removeOne (items : List Entity) (pk : Value) : List Entity :=
  if (items.find? (fun e => keyStr e.pkVal = keyStr pk)).isSome then
    let idx := sortedIndex pkCmpE items { pkVal := pk, fields := [] }
    items.take idx ++ items.drop (idx + 1)
  else items

/-- `remove(...pks)`. -/
def remove (u : UIdx) (pks : List Value) : UIdx :=
  { frozen := u.frozen, items := pks.foldl removeOne u.items }

/-- The result a caller keeps after writing `u.add([item])` and discarding
the return value: a frozen receiver is unchanged (the mutation happened on
a discarded copy), a mutable receiver now holds the new item. -/
def addInPlace (u : UIdx) (item : Entity) : UIdx :=
  if u.frozen then u else u.add [item]

def length (u : UIdx) : Nat := u.items.length

end UIdx

/-! ## collection.ts — Collection

The state of one collection: the main index, the per-field non-unique
indexes (`Map` in insertion order, modelled as an association list), and
the query cache.  The query-cache `Map` is keyed by the
`json-stable-stringify` of the fetch params; none of the verified claims
depends on key collisions, so the cache is carried as the list of its
entries (iteration order = insertion order, exactly what the `for .. of
this.queries.values()` loops observe).

The collections modelled here have no forward relations, so the
embedded-relation loop of `insert` has nothing to do; the back-reference
cascade (a collection with one back-reference) is modelled separately by
`insertWithBackRef`. -/

/-- A non-unique index: stringified foreign key → bucket. -/
abbrev NUIdx := List (String × UIdx)

def lookupNU : NUIdx → String → Option UIdx
  | [], _ => none
  | (k, v) :: rest, key => if k = key then some v else lookupNU rest key

/-- `index[k] = bucket` (replace the binding, or create it). -/
def setNU : NUIdx → String → UIdx → NUIdx
  | [], key, b => [(key, b)]
  | (k, v) :: rest, key, b =>
      if k = key then (k, b) :: rest else (k, v) :: setNU rest key b

/-- `delete index[k]`. -/
def removeNU : NUIdx → String → NUIdx
  | [], _ => []
  | (k, v) :: rest, key => if k = key then rest else (k, v) :: removeNU rest key

structure CachedQuery where
  whereC : Value
  items : UIdx
deriving DecidableEq, Repr

structure CollState where
  index : UIdx
  indexes : List (String × NUIdx)
  queries : List CachedQuery
deriving DecidableEq, Repr

/-- The per-collection configuration the verified operations consult: the
(single-field) primary key and the `beforeInsert` transform. -/
structure Config where
  primaryKey : String
  beforeInsert : Value → Value

/-- Signals dispatched during a mutation. -/
inductive Ev where
  | inserted (item : Entity) (previous : Option Entity)
  | removed (item : Entity)
deriving DecidableEq, Repr

namespace Collection

/-- `getPk` for a single-field primary key: `item[primaryKey]`. -/
def getPkOf (cfg : Config) (item : Value) : Value :=
  jsGet item cfg.primaryKey

/-- The own enumerable fields `deepAssign` copies from a payload. -/
def valueFields : Value → List (String × Value)
  | .vObj fs => fs
  | _ => []

/-- `createInstance(item)`: clone the payload over a fresh object carrying
the item prototype, then install the read-only `pk` property computed from
the instance.  `Object.defineProperty` replaces the value of any
payload-supplied `pk` field; the installed property shadows it for reads. -/
def createInstance (cfg : Config) (fields : List (String × Value)) : Entity :=
  let pkVal := (lookupField fields cfg.primaryKey).getD .vUndef
  { pkVal := pkVal
    fields := fields.map (fun p => if p.1 = "pk" then (p.1, pkVal) else p) }

/-- The foreign-key value the index-maintenance loops read
(`item[field]`). -/
def fkOf (e : Entity) (field : String) : Value := jsGet e.asValue field

/-- `Collection.remove(item, notify)`. -/
def removeEnt (s : CollState) (item : Entity) (notify : Bool) :
    Except String (CollState × List Ev) :=
  let pk := item.pkVal
  if isNullish pk then .error "Missing primary key"
  else
    let index' := s.index.remove [pk]
    let indexes' := s.indexes.map (fun fi =>
      let fk := fkOf item fi.1
      if isNullish fk then fi
      else
        let strFk := keyStr fk
        match lookupNU fi.2 strFk with
        | none => fi
        | some bucket =>
          let items' := bucket.remove [pk]
          if items'.length = 0 then (fi.1, removeNU fi.2 strFk)
          else (fi.1, setNU fi.2 strFk items'))
    -- invalidate every cached query whose items contained this pk
    let queries' := s.queries.filter (fun q => ¬ q.items.has pk)
    .ok ({ index := index', indexes := indexes', queries := queries' },
         if notify then [.removed item] else [])

/-- The query-cache update of `insert`: add the new item to every cached
query it matches (`cached.items.add(cacheItem)`, return value discarded —
an in-place add on the mutable stored index). -/
def updateQueries (cacheItem : Entity) :
    List CachedQuery → Except String (List CachedQuery)
  | [] => .ok []
  | q :: rest =>
    match Criteria.test cacheItem.asValue q.whereC with
    | .error e => .error e
    | .ok b =>
      match updateQueries cacheItem rest with
      | .error e => .error e
      | .ok rest' =>
        .ok ((if b then { q with items := q.items.addInPlace cacheItem } else q)
              :: rest')

/-- The unconditional tail of `insert` (after the identity-stability
check): freeze the new entity, add it to the main index and every
per-field bucket, update the cached queries, dispatch `inserted`. -/
def insertNew (s : CollState) (cacheItem : Entity) (previous : Option Entity) :
    Except String (CollState × Entity × List Ev) :=
  let index' := s.index.add [cacheItem]
  let indexes' := s.indexes.map (fun fi =>
    let fk := fkOf cacheItem fi.1
    if isNullish fk then fi
    else
      let strFk := keyStr fk
      let bucket := (lookupNU fi.2 strFk).getD (UIdx.mkNew false)
      (fi.1, setNU fi.2 strFk (bucket.add [cacheItem])))
  match updateQueries cacheItem s.queries with
  | .error e => .error e
  | .ok queries' =>
    .ok ({ index := index', indexes := indexes', queries := queries' },
         cacheItem, [.inserted cacheItem previous])

/-- Steps 4-7 of `insert` (`// create cached item` onwards), for a payload
whose embedded-relation processing is already done; `pk` is the primary key
computed at the top of `insert`. -/
def insertCore (cfg : Config) (s : CollState) (fields : List (String × Value))
    (pk : Value) : Except String (CollState × Entity × List Ev) :=
  let cacheItem := createInstance cfg fields
  match s.index.getStr (keyStr pk) with
  | some previous =>
    if entityEq previous cacheItem then
      -- identity stability: return the previous entity, change nothing
      .ok (s, previous, [])
    else
      match removeEnt s previous false with
      | .error e => .error e
      | .ok (s', _) => insertNew s' cacheItem previous
  | none => insertNew s cacheItem none

/-- `Collection.insert(item)` for a collection with no relations and no
back-references (both per-field loops have nothing to match). -/
def insert (cfg : Config) (s : CollState) (raw : Value) :
    Except String (CollState × Entity × List Ev) :=
  let item := cfg.beforeInsert raw
  let pk := getPkOf cfg item
  if isNullish pk then .error "Missing primary key"
  else insertCore cfg s (valueFields item) pk

/-- `insertArray`: insert in order, keeping results positionally. -/
def insertArray (cfg : Config) (s : CollState) :
    List Value → Except String (CollState × List Entity)
  | [] => .ok (s, [])
  | raw :: rest =>
    match insert cfg s raw with
    | .error e => .error e
    | .ok (s', e, _) =>
      match insertArray cfg s' rest with
      | .error err => .error err
      | .ok (s'', es) => .ok (s'', e :: es)

/-! ### filter -/

structure FilterParams where
  whereC : Option Value
  orderBy : Option Ordering.OrderBy
  offset : Option Nat
  limit : Option Nat
deriving Repr

/-- A `SliceArray`: result items plus the `total` annotation. -/
structure SliceArray where
  items : List Entity
  total : Nat
deriving DecidableEq, Repr

/-- The candidate-set selection loop of `filter`: for every secondary index
whose field appears in the query as a bare (non-object-typed) term, look up
the bucket under the stringified term value; an absent bucket short-circuits
the whole filter to an empty result (`none`); otherwise the smallest
candidate wins.  (`field in query` on a primitive `where` throws in JS,
which can only happen when at least one secondary index exists.) -/
def chooseBest (q : Value) (idxs : List (String × NUIdx)) (best : UIdx) :
    Except String (Option UIdx) :=
  match idxs with
  | [] => .ok (some best)
  | (field, nui) :: rest =>
    match q with
    | .vObj qf =>
      match lookupField qf field with
      | some v =>
        if isObjectType v then chooseBest q rest best
        else
          match lookupNU nui (propKeyStr v) with
          | none => .ok none
          | some bucket =>
            chooseBest q rest (if bucket.length < best.length then bucket else best)
      | none => chooseBest q rest best
    | _ => .error "Cannot use the in operator on a non-object where"

/-- The candidate-evaluation loop of `filter`. -/
def filterTest (q : Value) : List Entity → Except String (List Entity)
  | [] => .ok []
  | e :: rest =>
    match Criteria.test e.asValue q with
    | .error err => .error err
    | .ok b =>
      match filterTest q rest with
      | .error err => .error err
      | .ok rest' => .ok (if b then e :: rest' else rest')

/-- `Collection.filter(params)`. -/
def filter (s : CollState) (params : FilterParams) : Except String SliceArray :=
  let afterScan : Except String (Option (List Entity)) :=
    match params.whereC with
    | none => .ok (some s.index.items)
    | some q =>
      match chooseBest q s.indexes s.index with
      | .error e => .error e
      | .ok none => .ok none
      | .ok (some best) =>
        match filterTest q best.items with
        | .error e => .error e
        | .ok l => .ok (some l)
  match afterScan with
  | .error e => .error e
  | .ok none => .ok { items := [], total := 0 }   -- short-circuit, before orderBy/offset/limit
  | .ok (some scanned) =>
    let total := scanned.length
    let sorted :=
      match params.orderBy with
      | some ob => sortByCmp (fun a b => Ordering.comparator ob a.asValue b.asValue) scanned
      | none => scanned
    match params.offset, params.orderBy with
    | some _, none => .error "Cannot use offset without orderBy"
    | _, _ =>
      match params.limit, params.orderBy with
      | some _, none => .error "Cannot use limit without orderBy"
      | _, _ =>
        let afterOffset :=
          match params.offset with
          | some off => sorted.drop off
          | none => sorted
        let afterLimit :=
          match params.limit with
          | some lim => afterOffset.take lim
          | none => afterOffset
        .ok { items := afterLimit, total := total }

/-! ### fetch — query-cache promotion -/

/-- The cache-promotion continuation of `fetch` (source lines 895-905): a
`UniqueIndex(true)` (mutable, never frozen) filled with the inserted
results and stored in the query cache under the request's cache key
(`Map.set`; the serialized key is immaterial to the claims, see above). -/
def promoteQuery (s : CollState) (whereC : Value) (items : List Entity) : CollState :=
  let cachedQueryItems := (UIdx.mkNew true).add items
  { s with queries := s.queries ++ [{ whereC := whereC, items := cachedQueryItems }] }

/-- The resolution path of a `fetch` that issued `source.find`: insert the
response, then — when neither `limit` nor `offset` was set, so a cache key
exists — promote the result into the query cache.  `params.where` was
normalized to `{}` at the top of `fetch`. -/
def fetchResolve (cfg : Config) (s : CollState) (params : FilterParams)
    (resp : List Value) : Except String (CollState × List Entity) :=
  match insertArray cfg s resp with
  | .error e => .error e
  | .ok (s', items) =>
    if params.limit = none ∧ params.offset = none then
      .ok (promoteQuery s' (params.whereC.getD (.vObj [])) items, items)
    else .ok (s', items)

/-- `Collection.get(pk)`: the cached snapshot, or a "Could not find" error. -/
def get (name : String) (s : CollState) (pk : Value) : Except String Entity :=
  match s.index.get pk with
  | .error e => .error e
  | .ok none => .error ("Could not find " ++ name ++ " item with pk=" ++ propKeyStr pk)
  | .ok (some item) => .ok item

end Collection

/-! ## collection.ts — insert with an embedded back-reference array

`insertWithBackRef` models `Collection.insert` on a collection `B` with a
single back-reference field `F` (config `{collection: A, foreignKey: fk}`)
and no forward relations; `A` is the declaring collection (which holds the
foreign key and the non-unique index on it) with no relations of its own.
When the `F` slot of the payload is non-null it must be an array; its
elements are inserted into `A`, and every entity of the previous back-ref
bucket for the inserted pk whose pk was not just (re)inserted is removed
from `A` (cascade-delete on back-ref replacement). -/

namespace Collection

/-- `delete item[F]`. -/
def deleteField (fields : List (String × Value)) (f : String) :
    List (String × Value) :=
  fields.filter (fun p => p.1 ≠ f)

/-- The element loop of the back-ref block: insert each embedded item into
`A`, removing each inserted pk from the old bucket
(`oldBackRef.remove(inserted.pk)`, return value discarded — in place on the
mutable copy, a no-op on the frozen empty index of the missing-bucket
case). -/
def insertEmbedded (cfgA : Config) (sA : CollState) (old : UIdx) :
    List Value → Except String (CollState × UIdx × List Ev)
  | [] => .ok (sA, old, [])
  | x :: rest =>
    match insert cfgA sA x with
    | .error e => .error e
    | .ok (sA', ins, ev) =>
      match insertEmbedded cfgA sA'
          (if old.frozen then old else old.remove [ins.pkVal]) rest with
      | .error e => .error e
      | .ok (sA'', old', evs) => .ok (sA'', old', ev ++ evs)

/-- The cascade loop: `for (missingItem of oldBackRef) A.remove(missingItem)`
(with the default `notify = true`). -/
def removeMissing (sA : CollState) :
    List Entity → Except String (CollState × List Ev)
  | [] => .ok (sA, [])
  | m :: rest =>
    match removeEnt sA m true with
    | .error e => .error e
    | .ok (sA', ev) =>
      match removeMissing sA' rest with
      | .error e => .error e
      | .ok (sA'', evs) => .ok (sA'', ev ++ evs)

/-- `B.insert(raw)` with the back-reference processing against `A`.
Returns `(B state, A state, entity, B events, A events)`. -/
def insertWithBackRef (cfgB cfgA : Config) (F fk : String)
    (sB sA : CollState) (raw : Value) :
    Except String (CollState × CollState × Entity × List Ev × List Ev) :=
  let item := cfgB.beforeInsert raw
  let pk := getPkOf cfgB item
  if isNullish pk then .error "Missing primary key"
  else
    let fields := valueFields item
    match lookupField fields F with
    | some fv =>
      if isNullish fv then
        -- `item[field] != null` fails: back-ref block skipped
        match insertCore cfgB sB fields pk with
        | .error e => .error e
        | .ok (sB', ent, evB) => .ok (sB', sA, ent, evB, [])
      else if ¬ isJsArray fv then
        .error ("BackRef field " ++ F ++ " can only contain array")
      else
        match fv with
        | .vArr embeddedItems =>
          let fields' := deleteField fields F
          -- `A.indexes.get(fk)` exists: `addRelation` ran `addIndex(fk)` on A
          match sA.indexes.find? (fun p => p.1 = fk) with
          | none => .error "back-ref foreign-key index missing"
          | some (_, nui) =>
            let oldBackRef :=
              match lookupNU nui (keyStr pk) with
              | none => UIdx.mkNew false       -- `UniqueIndex()` (frozen empty)
              | some b => b.copy               -- `.copy()` (mutable copy)
            match insertEmbedded cfgA sA oldBackRef embeddedItems with
            | .error e => .error e
            | .ok (sA', old', evA₁) =>
              match removeMissing sA' old'.items with
              | .error e => .error e
              | .ok (sA'', evA₂) =>
                match insertCore cfgB sB fields' pk with
                | .error e => .error e
                | .ok (sB', ent, evB) => .ok (sB', sA'', ent, evB, evA₁ ++ evA₂)
        | _ => .error "unreachable: isJsArray"
    | none =>
      match insertCore cfgB sB fields pk with
      | .error e => .error e
      | .ok (sB', ent, evB) => .ok (sB', sA, ent, evB, [])

end Collection

/-! ## collection.ts — fetch coalescing (fetchOne / fetchAll)

The event-loop semantics of the request layer: all code between two
`await`-points runs atomically, so the synchronous prefix of `fetchOne` /
`fetchAll` (cache probe, pending-map probe, request registration) is one
state transition, and a Data Source resolution (the `.then` continuation)
is another.  `pendingItemRequests` is a `Map` keyed by the pk value;
`sourceFindOneCalls` counts `source.findOne` invocations. -/

structure FetchSys where
  st : CollState
  pendingItem : List Value
  sourceFindOneCalls : Nat
  sourceFindAllCalls : Nat
deriving DecidableEq, Repr

namespace FetchSys

/-- How a `fetchOne` call proceeded. -/
inductive StartKind where
  | cached     -- resolved synchronously from the index
  | chained    -- chained onto the pending request for this pk
  | issued     -- issued `source.findOne` and registered the pending entry
deriving DecidableEq, Repr

/-- The synchronous prefix of `fetchOne(pk, options)`. -/
def fetchOneStart (sys : FetchSys) (pk : Value) (forceLoad : Bool) :
    Except String (FetchSys × StartKind) :=
  let miss : Except String (FetchSys × StartKind) :=
    if pk ∈ sys.pendingItem then .ok (sys, .chained)
    else
      .ok ({ sys with
               pendingItem := pk :: sys.pendingItem
               sourceFindOneCalls := sys.sourceFindOneCalls + 1 }, .issued)
  if forceLoad then miss
  else
    match sys.st.index.get pk with
    | .error e => .error e
    | .ok (some _) => .ok (sys, .cached)
    | .ok none => miss

/-- Iterated `fetchOneStart` for the same pk (N callers entering before any
response arrives), collecting the start kinds. -/
def fetchOneStartN (sys : FetchSys) (pk : Value) (forceLoad : Bool) :
    Nat → Except String (FetchSys × List StartKind)
  | 0 => .ok (sys, [])
  | n + 1 =>
    match fetchOneStart sys pk forceLoad with
    | .error e => .error e
    | .ok (sys', k) =>
      match fetchOneStartN sys' pk forceLoad n with
      | .error e => .error e
      | .ok (sys'', ks) => .ok (sys'', k :: ks)

/-- The resolution of the issued request: `source.findOne` resolved with
`respItem`, the `.then` inserts it, and the `always` callback clears the
pending entry.  Returns the snapshot the issuing caller resolves with. -/
def fetchOneResolve (cfg : Config) (sys : FetchSys) (pk : Value)
    (respItem : Value) : Except String (FetchSys × Entity) :=
  match Collection.insert cfg sys.st respItem with
  | .error e => .error e
  | .ok (st', ent, _) =>
    .ok ({ sys with st := st', pendingItem := sys.pendingItem.erase pk }, ent)

/-- What a chained caller resolves with after the pending promise settles:
`promise.then(() => this.get(pk))` re-reads the collection. -/
def chainedResult (name : String) (sys : FetchSys) (pk : Value) :
    Except String Entity :=
  Collection.get name sys.st pk

/-- The synchronous prefix of `fetchAll(pks, options)`: partition the pks
(cached unless `forceLoad` / already pending / to load), register every
to-load pk under the batch request, count one `source.findAll` call if the
batch is non-empty.  Returns the registered pks.  (`index.has` on a nullish
pk, which throws in JS, is modelled via its string form; nullish pks do not
occur in the verified claims.) -/
def fetchAllStart (sys : FetchSys) (pks : List Value) (forceLoad : Bool) :
    FetchSys × List Value :=
  let pksToLoad := pks.filter (fun pk =>
    ¬ (¬ forceLoad ∧ sys.st.index.has pk) ∧ pk ∉ sys.pendingItem)
  if pksToLoad.isEmpty then (sys, [])
  else
    ({ sys with
         pendingItem := pksToLoad ++ sys.pendingItem
         sourceFindAllCalls := sys.sourceFindAllCalls + 1 }, pksToLoad)

/-- The resolution of a `fetchAll` batch: insert every response item and
clear the batch's pending entries. -/
def fetchAllResolve (cfg : Config) (sys : FetchSys) (pksLoaded : List Value)
    (respItems : List Value) : Except String FetchSys :=
  match Collection.insertArray cfg sys.st respItems with
  | .error e => .error e
  | .ok (st', _) =>
    .ok { sys with
            st := st'
            pendingItem := sys.pendingItem.filter (fun pk => pk ∉ pksLoaded) }

end FetchSys

/-! ## view.ts — CollectionView

The view state after construction: `query`, `orderBy` (defaulted to the
collection's primary key by `setOrderBy(null)`), the sorted `items` array
and the `_pks` set (a JS `Set`, insertion-ordered and duplicate-free,
modelled as such a list).  `orderingCmp` is always
`Ordering.comparator(orderBy)` applied to the entity property views. -/

structure ViewState where
  query : Value
  orderBy : Ordering.OrderBy
  items : List Entity
  pks : List Value
deriving DecidableEq, Repr

namespace ViewState

def orderingCmp (v : ViewState) (a b : Entity) : Int :=
  Ordering.comparator v.orderBy a.asValue b.asValue

/-- `Set` insertion (`Set.prototype.add`): append if absent. -/
def setAdd (l : List Value) (x : Value) : List Value :=
  if x ∈ l then l else l ++ [x]

/-- `onFetched(items)`: replace `items` with a copy of the fetched array
and rebuild `_pks` from it. -/
def onFetched (v : ViewState) (fetched : List Entity) : ViewState :=
  { v with
      items := fetched
      pks := fetched.foldl (fun acc e => setAdd acc e.pkVal) [] }

/-- `isFiltered(item)`: `Criteria.test(item, this.query)`. -/
def isFiltered (v : ViewState) (item : Entity) : Except String Bool :=
  Criteria.test item.asValue v.query

/-- `addItem(item)` (after the per-item relation-loading promise resolves;
the collections verified here have no relations, so the continuation runs
with the same item): guard against duplicates, insert at the sorted
position, record the pk. -/
def addItem (v : ViewState) (item : Entity) : Except String ViewState :=
  if item.pkVal ∈ v.pks then
    .error ("Duplicate item with pk=" ++ propKeyStr item.pkVal)
  else
    let idx := sortedIndex v.orderingCmp v.items item
    .ok { v with
            items := v.items.take idx ++ item :: v.items.drop idx
            pks := v.pks ++ [item.pkVal] }

/-- `removeItem(item)`: when the pk is tracked, `splice(indexOf(item), 1)`
(an `indexOf` miss yields `splice(-1, 1)`, which removes the LAST element)
and delete the pk from the set. -/
def removeItem (v : ViewState) (item : Entity) : ViewState :=
  if item.pkVal ∈ v.pks then
    let items' :=
      match v.items.findIdx? (fun e => e = item) with
      | some i => v.items.take i ++ v.items.drop (i + 1)
      | none => v.items.dropLast
    { v with items := items', pks := v.pks.erase item.pkVal }
  else v

/-- `onInjected(item, previous)`: drop the replaced snapshot, then add the
new one when it matches the query. -/
def onInjected (v : ViewState) (item : Entity) (previous : Option Entity) :
    Except String ViewState :=
  let v₁ := match previous with
    | some prev => v.removeItem prev
    | none => v
  match v₁.isFiltered item with
  | .error e => .error e
  | .ok true => v₁.addItem item
  | .ok false => .ok v₁

end ViewState

/-! ## Proof infrastructure

### Decimal rendering is injective

The hash keys of `UniqueIndex` and the bucket keys of the non-unique
indexes are `pk.toString()`.  For the (numeric-pk) states the claims are
verified over, distinct pks have distinct keys. -/

theorem digitChar_toNat {d : Nat} (h : d < 10) :
    (Char.ofNat (48 + d)).toNat = 48 + d := by
  interval_cases d <;> decide

theorem digitChar_isDigit {d : Nat} (h : d < 10) :
    (Char.ofNat (48 + d)).isDigit = true := by
  interval_cases d <;> decide

theorem zero_toNat_eq : '0'.toNat = 48 := by decide

theorem digitsVal_append (xs : List Char) (c : Char) :
    digitsVal (xs ++ [c]) = digitsVal xs * 10 + (c.toNat - '0'.toNat) := by
  simp [digitsVal, List.foldl_append]

theorem natDigitsF_roundtrip :
    ∀ fuel n, n < fuel → digitsVal (natDigitsF fuel n) = n := by
  intro fuel
  induction fuel with
  | zero => omega
  | succ fuel ih =>
      intro n hn
      by_cases h : n < 10
      · simp [natDigitsF, h, digitsVal, zero_toNat_eq, digitChar_toNat h]
      · have hdiv : n / 10 < fuel := by omega
        have h10 : (Char.ofNat (48 + n % 10)).toNat = 48 + n % 10 :=
          digitChar_toNat (Nat.mod_lt _ (by omega))
        simp [natDigitsF, h, digitsVal_append, ih _ hdiv, zero_toNat_eq, h10]
        omega

theorem natDigits_roundtrip (n : Nat) : digitsVal (natDigits n) = n :=
  natDigitsF_roundtrip _ n (Nat.lt_succ_self n)

theorem natDigits_ne_nil (n : Nat) : natDigits n ≠ [] := by
  unfold natDigits natDigitsF
  by_cases h : n < 10 <;> simp [h]

theorem natDigitsF_head_digit :
    ∀ fuel n c rest, natDigitsF fuel n = c :: rest → c.isDigit = true := by
  intro fuel
  induction fuel with
  | zero => intro n c rest h; simp [natDigitsF] at h
  | succ fuel ih =>
      intro n c rest h
      by_cases hn : n < 10
      · simp [natDigitsF, hn, zero_toNat_eq] at h
        exact h.1 ▸ digitChar_isDigit hn
      · simp only [natDigitsF, if_neg hn, zero_toNat_eq] at h
        rcases hd : natDigitsF fuel (n / 10) with _ | ⟨c', rest'⟩
        · rw [hd] at h
          simp at h
          rw [← h.1]
          exact digitChar_isDigit (Nat.mod_lt _ (by omega))
        · rw [hd] at h
          simp at h
          exact h.1 ▸ ih _ _ _ hd

theorem natDigits_inj {m n : Nat} (h : natDigits m = natDigits n) : m = n := by
  have := natDigits_roundtrip m
  rw [h, natDigits_roundtrip] at this
  omega

theorem intToStr_inj {m n : Int} (h : intToStr m = intToStr n) : m = n := by
  unfold intToStr at h
  by_cases hm : m < 0 <;> by_cases hn : n < 0 <;> simp [hm, hn] at h <;>
    have hdata := congrArg String.data h
  · simp at hdata
    have := natDigits_inj hdata
    omega
  · -- '-' heads a negative rendering, a digit heads a non-negative one
    rcases hd : natDigits n.natAbs with _ | ⟨c, rest⟩
    · exact absurd hd (natDigits_ne_nil _)
    · rw [hd] at hdata
      simp at hdata
      have hc : c.isDigit = true := natDigitsF_head_digit _ _ _ _ hd
      rw [← hdata.1] at hc
      simp [Char.isDigit] at hc
  · rcases hd : natDigits m.natAbs with _ | ⟨c, rest⟩
    · exact absurd hd (natDigits_ne_nil _)
    · rw [hd] at hdata
      simp at hdata
      have hc : c.isDigit = true := natDigitsF_head_digit _ _ _ _ hd
      rw [hdata.1] at hc
      simp [Char.isDigit] at hc
  · simp at hdata
    have := natDigits_inj hdata
    omega

/-! ### Numeric primary keys

The verified collection states carry numeric primary keys (`vNum`); `ekey`
extracts the integer, `numPk` states the shape.  On such entities the
module-level `pkComparator` is integer comparison, and the string hash keys
are injective images of the integers. -/

def intCmp (m n : Int) : Int := if m < n then -1 else if m = n then 0 else 1

theorem intCmp_neg_iff {m n : Int} : intCmp m n < 0 ↔ m < n := by
  unfold intCmp
  split <;> rename_i h
  · simp [h]
  · split <;> rename_i h' <;> simp <;> omega

theorem intCmp_nonneg_iff {m n : Int} : 0 ≤ intCmp m n ↔ n ≤ m := by
  unfold intCmp
  split <;> rename_i h
  · simp; omega
  · split <;> rename_i h' <;> simp <;> omega

theorem intCmp_eq_zero_iff {m n : Int} : intCmp m n = 0 ↔ m = n := by
  unfold intCmp
  split <;> rename_i h
  · simp; omega
  · split <;> rename_i h' <;> simp [h']

def numPk (e : Entity) : Prop := ∃ n : Int, e.pkVal = .vNum n

def ekey (e : Entity) : Int := match e.pkVal with | .vNum n => n | _ => 0

theorem fieldGetter_pk (e : Entity) : fieldGetter "pk" e.asValue = e.pkVal := rfl

theorem keyStr_vNum (n : Int) : keyStr (.vNum n) = intToStr n := rfl

theorem cmp_vNum (m n : Int) :
    Ordering.cmp (.vNum m) (.vNum n) = intCmp m n := by
  simp only [Ordering.cmp, ltJs, numLtOpt, toNumOpt, strictEq, intCmp]
  by_cases h : m < n
  · simp [h]
  · by_cases h' : m = n <;> simp [h, h']

theorem pkCmpE_num {a b : Entity} (ha : numPk a) (hb : numPk b) :
    pkCmpE a b = intCmp (ekey a) (ekey b) := by
  obtain ⟨m, hm⟩ := ha
  obtain ⟨n, hn⟩ := hb
  obtain ⟨pa, fa⟩ := a
  obtain ⟨pb, fb⟩ := b
  simp only at hm hn
  subst hm hn
  simp only [ekey]
  rw [← cmp_vNum]
  rfl

theorem keyStr_eq_iff {a b : Entity} (ha : numPk a) (hb : numPk b) :
    keyStr a.pkVal = keyStr b.pkVal ↔ ekey a = ekey b := by
  obtain ⟨m, hm⟩ := ha
  obtain ⟨n, hn⟩ := hb
  simp only [hm, hn, keyStr_vNum, ekey]
  constructor
  · exact intToStr_inj
  · intro h; rw [h]

/-! ### Binary-search specification

`sortedIndex` returns the boundary between the prefix comparing below the
probe and the suffix comparing at-or-above it, whenever non-negativity of
the comparison is upward-closed along the array (which holds on sorted
arrays for the comparators in use). -/

theorem sortedIndexF_spec {α : Type} (c : α → α → Int) (l : List α) (item : α)
    (mono : ∀ i j (_ : i < l.length) (hj : j < l.length), i ≤ j →
      0 ≤ c (l[i]) item → 0 ≤ c (l[j]) item) :
    ∀ fuel low high, low ≤ high → high ≤ l.length → high - low < fuel →
    (∀ i (h : i < l.length), i < low → c (l[i]) item < 0) →
    (∀ i (h : i < l.length), high ≤ i → 0 ≤ c (l[i]) item) →
    low ≤ sortedIndexF fuel c l item low high ∧
    sortedIndexF fuel c l item low high ≤ high ∧
    (∀ i (h : i < l.length), i < sortedIndexF fuel c l item low high →
      c (l[i]) item < 0) ∧
    (∀ i (h : i < l.length), sortedIndexF fuel c l item low high ≤ i →
      0 ≤ c (l[i]) item) := by
  intro fuel
  induction fuel with
  | zero => omega
  | succ fuel ih =>
      intro low high hlh hhl hfuel hplow hphigh
      by_cases hlt : low < high
      · have hmidlen : (low + high) / 2 < l.length := by omega
        rw [show sortedIndexF (fuel + 1) c l item low high =
              (if c (l.getD ((low + high) / 2) item) item < 0 then
                sortedIndexF fuel c l item ((low + high) / 2 + 1) high
               else sortedIndexF fuel c l item low ((low + high) / 2)) by
              simp [sortedIndexF, hlt]]
        rw [List.getD_eq_getElem l item hmidlen]
        by_cases hc : c (l[(low + high) / 2]) item < 0
        · rw [if_pos hc]
          refine (ih ((low + high) / 2 + 1) high (by omega) hhl (by omega) ?_ hphigh).imp
            (fun h => by omega) (fun h => h)
          intro i h hi
          by_cases hil : i < low
          · exact hplow i h hil
          · -- low ≤ i ≤ mid: non-negativity at i would propagate to mid
            by_contra hge
            push_neg at hge
            exact absurd (mono i ((low + high) / 2) h hmidlen (by omega) hge) (by omega)
        · rw [if_neg hc]
          refine (ih low ((low + high) / 2) (by omega) (by omega) (by omega) hplow ?_).imp
            (fun h => h) (fun h => h.imp (fun h' => by omega) (fun h' => h'))
          intro i h hi
          exact mono ((low + high) / 2) i hmidlen h hi (by omega)
      · have : sortedIndexF (fuel + 1) c l item low high = high := by
          simp [sortedIndexF, hlt]
        rw [this]
        refine ⟨by omega, le_refl _, ?_, hphigh⟩
        intro i h hi
        exact hplow i h (by omega)

theorem sortedIndex_spec {α : Type} (c : α → α → Int) (l : List α) (item : α)
    (mono : ∀ i j (_ : i < l.length) (hj : j < l.length), i ≤ j →
      0 ≤ c (l[i]) item → 0 ≤ c (l[j]) item) :
    sortedIndex c l item ≤ l.length ∧
    (∀ i (h : i < l.length), i < sortedIndex c l item → c (l[i]) item < 0) ∧
    (∀ i (h : i < l.length), sortedIndex c l item ≤ i → 0 ≤ c (l[i]) item) := by
  have := sortedIndexF_spec c l item mono (l.length + 1) 0 l.length
    (by omega) (le_refl _) (by omega) (by omega) (by omega)
  exact ⟨this.2.1, this.2.2.1, this.2.2.2⟩

/-! ### Sorted insertion and replacement, position-wise -/

theorem mem_insertAt {α : Type} {l : List α} {x y : α} {n : Nat} :
    y ∈ l.take n ++ x :: l.drop n ↔ y ∈ l ∨ y = x := by
  constructor
  · intro h
    rcases List.mem_append.mp h with h | h
    · exact Or.inl (List.mem_of_mem_take h)
    · rcases List.mem_cons.mp h with h | h
      · exact Or.inr h
      · exact Or.inl (List.mem_of_mem_drop h)
  · intro h
    rcases h with h | h
    · rw [← List.take_append_drop n l] at h
      rcases List.mem_append.mp h with h | h
      · exact List.mem_append.mpr (Or.inl h)
      · exact List.mem_append.mpr (Or.inr (List.mem_cons_of_mem _ h))
    · subst h
      exact List.mem_append.mpr (Or.inr (List.mem_cons_self _ _))

theorem mem_take_iff_getElem {α : Type} {l : List α} {y : α} {n : Nat} :
    y ∈ l.take n ↔ ∃ i, ∃ (h : i < l.length), i < n ∧ (l[i]) = y := by
  constructor
  · intro h
    obtain ⟨i, hi, hig⟩ := List.mem_iff_getElem.mp h
    have hlen : i < l.length := by
      have := List.length_take n l
      omega
    refine ⟨i, hlen, by have := List.length_take n l; omega, ?_⟩
    rw [← hig, List.getElem_take]
  · rintro ⟨i, h, hin, rfl⟩
    have hlen : i < (l.take n).length := by
      have := List.length_take n l
      omega
    have := List.getElem_take (L := l) (j := n) (i := i) (h := hlen)
    rw [← this]
    exact List.getElem_mem hlen

theorem mem_drop_iff_getElem {α : Type} {l : List α} {y : α} {n : Nat} :
    y ∈ l.drop n ↔ ∃ i, ∃ (h : i < l.length), n ≤ i ∧ (l[i]) = y := by
  constructor
  · intro h
    obtain ⟨j, hj, hjg⟩ := List.mem_iff_getElem.mp h
    have hlen : n + j < l.length := by
      have := List.length_drop n l
      omega
    refine ⟨n + j, hlen, by omega, ?_⟩
    rw [← hjg, List.getElem_drop]
  · rintro ⟨i, h, hin, rfl⟩
    have hlen : i - n < (l.drop n).length := by
      have := List.length_drop n l
      omega
    refine List.mem_iff_getElem.mpr ⟨i - n, hlen, ?_⟩
    rw [List.getElem_drop]
    congr 1
    omega

theorem pairwise_insertAt {α : Type} {S : α → α → Prop} {l : List α} {x : α}
    {n : Nat}
    (hl : l.Pairwise S)
    (hbefore : ∀ i (h : i < l.length), i < n → S (l[i]) x)
    (hafter : ∀ i (h : i < l.length), n ≤ i → S x (l[i])) :
    (l.take n ++ x :: l.drop n).Pairwise S := by
  have hdecomp : l.Pairwise S := hl
  rw [← List.take_append_drop n l] at hdecomp
  obtain ⟨htake, hdrop, hcross⟩ := List.pairwise_append.mp hdecomp
  refine List.pairwise_append.mpr ⟨htake, ?_, ?_⟩
  · refine List.pairwise_cons.mpr ⟨?_, hdrop⟩
    intro b hb
    obtain ⟨i, h, hin, rfl⟩ := mem_drop_iff_getElem.mp hb
    exact hafter i h hin
  · intro a ha b hb
    rcases List.mem_cons.mp hb with rfl | hb
    · obtain ⟨i, h, hin, rfl⟩ := mem_take_iff_getElem.mp ha
      exact hbefore i h hin
    · exact hcross a ha b hb

theorem mem_replaceAt {α : Type} {l : List α} {x y : α} {n : Nat}
    (hn : n < l.length) :
    y ∈ l.take n ++ x :: l.drop (n + 1) ↔
      (∃ i, ∃ (h : i < l.length), i ≠ n ∧ (l[i]) = y) ∨ y = x := by
  constructor
  · intro h
    rcases List.mem_append.mp h with h | h
    · obtain ⟨i, hi, hin, rfl⟩ := mem_take_iff_getElem.mp h
      exact Or.inl ⟨i, hi, by omega, rfl⟩
    · rcases List.mem_cons.mp h with rfl | h
      · exact Or.inr rfl
      · obtain ⟨i, hi, hin, rfl⟩ := mem_drop_iff_getElem.mp h
        exact Or.inl ⟨i, hi, by omega, rfl⟩
  · rintro (⟨i, hi, hne, rfl⟩ | rfl)
    · rcases Nat.lt_or_ge i n with hlt | hge
      · exact List.mem_append.mpr (Or.inl (mem_take_iff_getElem.mpr ⟨i, hi, hlt, rfl⟩))
      · have : n + 1 ≤ i := by omega
        exact List.mem_append.mpr (Or.inr (List.mem_cons_of_mem _
          (mem_drop_iff_getElem.mpr ⟨i, hi, this, rfl⟩)))
    · exact List.mem_append.mpr (Or.inr (List.mem_cons_self _ _))

theorem pairwise_replaceAt {α : Type} {S : α → α → Prop} {l : List α} {x : α}
    {n : Nat} (hn : n < l.length)
    (hl : l.Pairwise S)
    (hbefore : ∀ i (h : i < l.length), i < n → S (l[i]) x)
    (hafter : ∀ i (h : i < l.length), n < i → S x (l[i])) :
    (l.take n ++ x :: l.drop (n + 1)).Pairwise S := by
  have hdecomp : l.Pairwise S := hl
  rw [← List.take_append_drop n l] at hdecomp
  obtain ⟨htake, hdrop, hcross⟩ := List.pairwise_append.mp hdecomp
  rw [List.drop_eq_getElem_cons hn] at hdrop
  obtain ⟨-, hdrop'⟩ := List.pairwise_cons.mp hdrop
  refine List.pairwise_append.mpr ⟨htake, ?_, ?_⟩
  · refine List.pairwise_cons.mpr ⟨?_, hdrop'⟩
    intro b hb
    obtain ⟨i, h, hin, rfl⟩ := mem_drop_iff_getElem.mp hb
    exact hafter i h (by omega)
  · intro a ha b hb
    rcases List.mem_cons.mp hb with rfl | hb
    · obtain ⟨i, h, hin, rfl⟩ := mem_take_iff_getElem.mp ha
      exact hbefore i h hin
    · have hb' : b ∈ l.drop n := by
        rw [List.drop_eq_getElem_cons hn]
        exact List.mem_cons_of_mem _ hb
      exact hcross a ha b hb'

/-! ### UniqueIndex specifications (numeric-pk states) -/

/-- Well-formed numeric-pk entity sequence: strictly ascending integer
keys (this is exactly "sorted by `pkComparator` with one entry per
stringified pk"). -/
def EntsWF (l : List Entity) : Prop :=
  (∀ e ∈ l, numPk e) ∧ l.Pairwise (fun a b => ekey a < ekey b)

def UIdx.WFn (u : UIdx) : Prop := EntsWF u.items

theorem EntsWF.nil : EntsWF [] := ⟨by simp, by simp⟩

theorem mem_unique_key {l : List Entity} (hw : EntsWF l) {e e' : Entity}
    (he : e ∈ l) (he' : e' ∈ l) (hk : ekey e = ekey e') : e = e' := by
  obtain ⟨i, hi, rfl⟩ := List.mem_iff_getElem.mp he
  obtain ⟨j, hj, rfl⟩ := List.mem_iff_getElem.mp he'
  have hpair := List.pairwise_iff_get.mp hw.2
  rcases Nat.lt_trichotomy i j with h | h | h
  · have := hpair ⟨i, hi⟩ ⟨j, hj⟩ h
    simp [List.get_eq_getElem] at this
    omega
  · subst h
    rfl
  · have := hpair ⟨j, hj⟩ ⟨i, hi⟩ h
    simp [List.get_eq_getElem] at this
    omega

/-- `_items` lookup: under well-formedness, `getStr` finds exactly the
member with the given stringified pk. -/
theorem getStr_some_iff {u : UIdx} (hw : u.WFn) {k : String} {e : Entity} :
    u.getStr k = some e ↔ e ∈ u.items ∧ keyStr e.pkVal = k := by
  constructor
  · intro h
    refine ⟨List.mem_of_find?_eq_some h, ?_⟩
    have := List.find?_some h
    simpa using this
  · rintro ⟨hmem, rfl⟩
    rcases hfind : u.getStr (keyStr e.pkVal) with _ | e'
    · rw [UIdx.getStr, List.find?_eq_none] at hfind
      exact absurd (by simp) (hfind e hmem)
    · have he' : e' ∈ u.items := List.mem_of_find?_eq_some hfind
      have hk : keyStr e'.pkVal = keyStr e.pkVal := by
        have := List.find?_some hfind
        simpa using this
      have : ekey e' = ekey e :=
        (keyStr_eq_iff (hw.1 e' he') (hw.1 e hmem)).mp hk
      rw [mem_unique_key hw he' hmem this]

theorem getStr_none_iff {u : UIdx} {k : String} :
    u.getStr k = none ↔ ∀ e ∈ u.items, keyStr e.pkVal ≠ k := by
  rw [UIdx.getStr, List.find?_eq_none]
  constructor
  · intro h e he
    have := h e he
    simpa using this
  · intro h e he
    simp [h e he]

theorem hasStr_iff {u : UIdx} :
    u.hasStr k = true ↔ ∃ e ∈ u.items, keyStr e.pkVal = k := by
  rw [UIdx.hasStr, Option.isSome_iff_exists]
  constructor
  · rintro ⟨e, he⟩
    refine ⟨e, List.mem_of_find?_eq_some he, ?_⟩
    have := List.find?_some he
    simpa using this
  · rintro ⟨e, he, hk⟩
    rcases hfind : u.getStr k with _ | e'
    · rw [UIdx.getStr, List.find?_eq_none] at hfind
      exact absurd (by simp [hk]) (hfind e he)
    · exact ⟨e', rfl⟩

/-- The `mono` hypothesis of `sortedIndex_spec` for `pkComparator` on a
well-formed entity list and a numeric probe. -/
theorem pkMono {l : List Entity} (hw : EntsWF l) {item : Entity}
    (hitem : numPk item) :
    ∀ i j (_ : i < l.length) (hj : j < l.length), i ≤ j →
      0 ≤ pkCmpE (l[i]) item → 0 ≤ pkCmpE (l[j]) item := by
  intro i j hi hj hij hc
  have hni := hw.1 _ (List.getElem_mem hi)
  have hnj := hw.1 _ (List.getElem_mem hj)
  rw [pkCmpE_num hni hitem] at hc
  rw [pkCmpE_num hnj hitem]
  rw [intCmp_nonneg_iff] at *
  rcases Nat.lt_or_ge i j with hlt | hge
  · have := List.pairwise_iff_get.mp hw.2 ⟨i, hi⟩ ⟨j, hj⟩ hlt
    simp [List.get_eq_getElem] at this
    omega
  · have : i = j := by omega
    subst this
    exact hc

/-- Specification of one `add` step on a well-formed entity list with a
numeric-pk item: the result replaces the entity with the same key (if any),
keeps everything else, and stays well-formed. -/
theorem addOne_spec {l : List Entity} (hw : EntsWF l) {item : Entity}
    (hitem : numPk item) :
    (∀ x, x ∈ UIdx.addOne l item ↔
      (x ∈ l ∧ ekey x ≠ ekey item) ∨ x = item) ∧
    EntsWF (UIdx.addOne l item) := by
  obtain ⟨hidxlen, hbefore, hafter⟩ := sortedIndex_spec pkCmpE l item (pkMono hw hitem)
  set idx := sortedIndex pkCmpE l item with hidx
  have hbeforeK : ∀ i (h : i < l.length), i < idx → ekey (l[i]) < ekey item := by
    intro i h hi
    have := hbefore i h hi
    rwa [pkCmpE_num (hw.1 _ (List.getElem_mem h)) hitem, intCmp_neg_iff] at this
  have hafterK : ∀ i (h : i < l.length), idx ≤ i → ekey item ≤ ekey (l[i]) := by
    intro i h hi
    have := hafter i h hi
    rwa [pkCmpE_num (hw.1 _ (List.getElem_mem h)) hitem, intCmp_nonneg_iff] at this
  by_cases hrep : (l.find? (fun e => keyStr e.pkVal = keyStr item.pkVal)).isSome
  · -- replace: the unique entity with the same key sits exactly at idx
    obtain ⟨e₀, he₀⟩ := Option.isSome_iff_exists.mp hrep
    have he₀mem : e₀ ∈ l := List.mem_of_find?_eq_some he₀
    have he₀k : ekey e₀ = ekey item := by
      have := List.find?_some he₀
      simp at this
      exact (keyStr_eq_iff (hw.1 _ he₀mem) hitem).mp this
    obtain ⟨p, hp, hpe⟩ := List.mem_iff_getElem.mp he₀mem
    have hpidx : p = idx := by
      by_contra hne
      rcases Nat.lt_or_ge p idx with hlt | hge
      · have := hbeforeK p hp hlt
        rw [hpe, he₀k] at this
        omega
      · have hgt : idx < p := by omega
        have hidxlt : idx < l.length := by omega
        have h1 := hafterK idx hidxlt (le_refl _)
        have h2 := List.pairwise_iff_get.mp hw.2 ⟨idx, hidxlt⟩ ⟨p, hp⟩ hgt
        simp [List.get_eq_getElem] at h2
        rw [hpe, he₀k] at h2
        omega
    have hres : UIdx.addOne l item = l.take idx ++ item :: l.drop (idx + 1) := by
      simp [UIdx.addOne, hrep, ← hidx]
    rw [← hpidx] at hres hbeforeK hafterK
    constructor
    · intro x
      rw [hres, mem_replaceAt hp]
      constructor
      · rintro (⟨i, hi, hne, rfl⟩ | rfl)
        · refine Or.inl ⟨List.getElem_mem hi, ?_⟩
          rcases Nat.lt_or_ge i p with hlt | hge
          · have := hbeforeK i hi hlt
            omega
          · have hgt : p < i := by omega
            have h2 := List.pairwise_iff_get.mp hw.2 ⟨p, hp⟩ ⟨i, hi⟩ hgt
            simp [List.get_eq_getElem] at h2
            rw [hpe, he₀k] at h2
            omega
        · exact Or.inr rfl
      · rintro (⟨hmem, hne⟩ | rfl)
        · obtain ⟨i, hi, rfl⟩ := List.mem_iff_getElem.mp hmem
          refine Or.inl ⟨i, hi, ?_, rfl⟩
          intro hip
          apply hne
          have hie : (l[i]) = e₀ := by
            rw [← hpe]
            congr 1
          rw [hie, he₀k]
        · exact Or.inr rfl
    · constructor
      · intro e he
        rw [hres, mem_replaceAt hp] at he
        rcases he with ⟨i, hi, _, rfl⟩ | rfl
        · exact hw.1 _ (List.getElem_mem hi)
        · exact hitem
      · rw [hres]
        refine pairwise_replaceAt hp hw.2 ?_ ?_
        · intro i hi hip
          have := hbeforeK i hi hip
          omega
        · intro i hi hip
          have h2 := List.pairwise_iff_get.mp hw.2 ⟨p, hp⟩ ⟨i, hi⟩ hip
          simp [List.get_eq_getElem] at h2
          rw [hpe, he₀k] at h2
          omega
  · -- fresh insert at idx
    have hnokey : ∀ e ∈ l, ekey e ≠ ekey item := by
      intro e he hk
      exact hrep (List.find?_isSome.mpr
        ⟨e, he, by simp [(keyStr_eq_iff (hw.1 e he) hitem).mpr hk]⟩)
    have hres : UIdx.addOne l item = l.take idx ++ item :: l.drop idx := by
      simp [UIdx.addOne, hrep, ← hidx]
    constructor
    · intro x
      rw [hres, mem_insertAt]
      constructor
      · rintro (hx | rfl)
        · exact Or.inl ⟨hx, hnokey x hx⟩
        · exact Or.inr rfl
      · rintro (⟨hmem, _⟩ | rfl)
        · exact Or.inl hmem
        · exact Or.inr rfl
    · constructor
      · intro e he
        rw [hres, mem_insertAt] at he
        rcases he with he | rfl
        · exact hw.1 e he
        · exact hitem
      · rw [hres]
        refine pairwise_insertAt hw.2 ?_ ?_
        · intro i hi hip
          exact hbeforeK i hi hip
        · intro i hi hip
          have h1 := hafterK i hi hip
          have h2 := hnokey _ (List.getElem_mem hi)
          omega

/-- Specification of one `remove` step. -/
theorem removeOne_spec {l : List Entity} (hw : EntsWF l) {pk : Value}
    {n : Int} (hpk : pk = .vNum n) :
    (∀ x, x ∈ UIdx.removeOne l pk ↔ x ∈ l ∧ ekey x ≠ n) ∧
    EntsWF (UIdx.removeOne l pk) := by
  have hprobe : numPk { pkVal := pk, fields := [] } := ⟨n, hpk⟩
  have hekprobe : ekey { pkVal := pk, fields := [] } = n := by
    simp [ekey, hpk]
  by_cases hrep : (l.find? (fun e => keyStr e.pkVal = keyStr pk)).isSome
  · obtain ⟨e₀, he₀⟩ := Option.isSome_iff_exists.mp hrep
    have he₀mem : e₀ ∈ l := List.mem_of_find?_eq_some he₀
    have he₀k : ekey e₀ = n := by
      have hf := List.find?_some he₀
      simp at hf
      have : keyStr e₀.pkVal = keyStr ({ pkVal := pk, fields := [] } : Entity).pkVal := hf
      have := (keyStr_eq_iff (hw.1 _ he₀mem) hprobe).mp this
      rwa [hekprobe] at this
    obtain ⟨hidxlen, hbefore, hafter⟩ :=
      sortedIndex_spec pkCmpE l { pkVal := pk, fields := [] } (pkMono hw hprobe)
    set idx := sortedIndex pkCmpE l { pkVal := pk, fields := [] } with hidx
    have hbeforeK : ∀ i (h : i < l.length), i < idx → ekey (l[i]) < n := by
      intro i h hi
      have := hbefore i h hi
      rwa [pkCmpE_num (hw.1 _ (List.getElem_mem h)) hprobe, intCmp_neg_iff,
        hekprobe] at this
    have hafterK : ∀ i (h : i < l.length), idx ≤ i → n ≤ ekey (l[i]) := by
      intro i h hi
      have := hafter i h hi
      rwa [pkCmpE_num (hw.1 _ (List.getElem_mem h)) hprobe, intCmp_nonneg_iff,
        hekprobe] at this
    obtain ⟨p, hp, hpe⟩ := List.mem_iff_getElem.mp he₀mem
    have hpidx : p = idx := by
      by_contra hne
      rcases Nat.lt_or_ge p idx with hlt | hge
      · have := hbeforeK p hp hlt
        rw [hpe, he₀k] at this
        omega
      · have hgt : idx < p := by omega
        have hidxlt : idx < l.length := by omega
        have h1 := hafterK idx hidxlt (le_refl _)
        have h2 := List.pairwise_iff_get.mp hw.2 ⟨idx, hidxlt⟩ ⟨p, hp⟩ hgt
        simp [List.get_eq_getElem] at h2
        rw [hpe, he₀k] at h2
        omega
    have hres : UIdx.removeOne l pk = l.take idx ++ l.drop (idx + 1) := by
      simp [UIdx.removeOne, hrep, ← hidx]
    rw [← hpidx] at hres hbeforeK hafterK
    rw [hres, ← List.eraseIdx_eq_take_drop_succ]
    constructor
    · intro x
      constructor
      · intro hx
        have hsub : (l.eraseIdx p).Sublist l := List.eraseIdx_sublist l p
        refine ⟨hsub.mem hx, ?_⟩
        rw [List.eraseIdx_eq_take_drop_succ] at hx
        rcases List.mem_append.mp hx with hx | hx
        · obtain ⟨i, hi, hin, rfl⟩ := mem_take_iff_getElem.mp hx
          have := hbeforeK i hi hin
          omega
        · obtain ⟨i, hi, hin, rfl⟩ := mem_drop_iff_getElem.mp hx
          have hgt : p < i := by omega
          have h2 := List.pairwise_iff_get.mp hw.2 ⟨p, hp⟩ ⟨i, hi⟩ hgt
          simp [List.get_eq_getElem] at h2
          rw [hpe, he₀k] at h2
          omega
      · rintro ⟨hmem, hne⟩
        obtain ⟨i, hi, rfl⟩ := List.mem_iff_getElem.mp hmem
        rw [List.eraseIdx_eq_take_drop_succ]
        have hip : i ≠ p := by
          intro h
          apply hne
          have hie : (l[i]) = e₀ := by
            rw [← hpe]
            congr 1
          rw [hie, he₀k]
        rcases Nat.lt_or_ge i p with hlt | hge
        · exact List.mem_append.mpr (Or.inl (mem_take_iff_getElem.mpr ⟨i, hi, hlt, rfl⟩))
        · exact List.mem_append.mpr (Or.inr (mem_drop_iff_getElem.mpr
            ⟨i, hi, by omega, rfl⟩))
    · have hsub : (l.eraseIdx p).Sublist l := List.eraseIdx_sublist l p
      exact ⟨fun e he => hw.1 e (hsub.mem he), hw.2.sublist hsub⟩
  · have hfind : l.find? (fun e => keyStr e.pkVal = keyStr pk) = none := by
      rcases h : l.find? (fun e => keyStr e.pkVal = keyStr pk) with _ | e
      · exact h
      · exact absurd (by simp [h] : (l.find?
          (fun e => keyStr e.pkVal = keyStr pk)).isSome = true) hrep
    have hres : UIdx.removeOne l pk = l := by
      simp [UIdx.removeOne, hfind]
    rw [hres]
    have hnokey : ∀ e ∈ l, ekey e ≠ n := by
      intro e he hk
      rw [List.find?_eq_none] at hfind
      refine hfind e he ?_
      have hke : keyStr e.pkVal = keyStr pk := by
        rw [hpk]
        have hpe' : e.pkVal = .vNum (ekey e) := by
          obtain ⟨m, hm⟩ := hw.1 e he
          simp [ekey, hm]
        rw [hpe', hk]
      simp [hke]
    exact ⟨fun x => ⟨fun hx => ⟨hx, hnokey x hx⟩, fun h => h.1⟩, hw⟩

/-- `add` of a single item / `remove` of a single pk, on the index level. -/
theorem add_single_spec {u : UIdx} (hw : u.WFn) {item : Entity}
    (hitem : numPk item) :
    (∀ x, x ∈ (u.add [item]).items ↔
      (x ∈ u.items ∧ ekey x ≠ ekey item) ∨ x = item) ∧
    (u.add [item]).WFn ∧ (u.add [item]).frozen = u.frozen := by
  have h := addOne_spec hw hitem
  exact ⟨h.1, h.2, rfl⟩

theorem remove_single_spec {u : UIdx} (hw : u.WFn) {pk : Value} {n : Int}
    (hpk : pk = .vNum n) :
    (∀ x, x ∈ (u.remove [pk]).items ↔ x ∈ u.items ∧ ekey x ≠ n) ∧
    (u.remove [pk]).WFn ∧ (u.remove [pk]).frozen = u.frozen := by
  have h := removeOne_spec hw hpk
  exact ⟨h.1, h.2, rfl⟩

/-! ### Non-unique index association lists -/

theorem lookupNU_setNU (nui : NUIdx) (k : String) (b : UIdx) (k' : String) :
    lookupNU (setNU nui k b) k' = if k' = k then some b else lookupNU nui k' := by
  induction nui with
  | nil =>
      simp only [setNU, lookupNU]
      split_ifs <;> simp_all
  | cons p rest ih =>
      obtain ⟨kp, bp⟩ := p
      simp only [setNU]
      by_cases hk : kp = k
      · subst hk
        simp only [if_pos rfl, lookupNU]
        by_cases h : kp = k'
        · subst h
          simp
        · have h2 : ¬ k' = kp := fun hh => h hh.symm
          simp [h, h2]
      · simp only [if_neg hk, lookupNU, ih]
        by_cases h1 : kp = k' <;> by_cases h2 : k' = k
        · exact absurd (h1.trans h2) hk
        · subst h1
          simp [h2]
        · subst h2
          simp [h1]
        · simp [h1, h2]

theorem lookupNU_removeNU_ne (nui : NUIdx) (k k' : String) (h : k' ≠ k) :
    lookupNU (removeNU nui k) k' = lookupNU nui k' := by
  induction nui with
  | nil => simp [removeNU]
  | cons p rest ih =>
      obtain ⟨kp, bp⟩ := p
      simp only [removeNU]
      by_cases hk : kp = k
      · subst hk
        simp only [if_pos rfl, lookupNU]
        split_ifs <;> simp_all
      · simp only [if_neg hk, lookupNU, ih]

theorem lookupNU_eq_none_iff {nui : NUIdx} {k : String} :
    lookupNU nui k = none ↔ k ∉ nui.map Prod.fst := by
  induction nui with
  | nil => simp [lookupNU]
  | cons p rest ih =>
      obtain ⟨kp, bp⟩ := p
      simp only [lookupNU, List.map_cons, List.mem_cons]
      by_cases hk : kp = k
      · simp [hk]
      · simp only [if_neg hk, ih]
        constructor
        · intro h
          rintro (rfl | h2)
          · exact hk rfl
          · exact h h2
        · intro h h2
          exact h (Or.inr h2)

theorem keys_setNU (nui : NUIdx) (k : String) (b : UIdx) :
    (setNU nui k b).map Prod.fst =
      if k ∈ nui.map Prod.fst then nui.map Prod.fst
      else nui.map Prod.fst ++ [k] := by
  induction nui with
  | nil => simp [setNU]
  | cons p rest ih =>
      obtain ⟨kp, bp⟩ := p
      simp only [setNU]
      by_cases hk : kp = k
      · subst hk
        simp
      · simp only [if_neg hk, List.map_cons, ih, List.mem_cons]
        by_cases hmem : k ∈ rest.map Prod.fst
        · simp [hmem, Ne.symm hk]
        · simp [hmem, Ne.symm hk]

theorem setNU_keys_nodup {nui : NUIdx} (hnd : (nui.map Prod.fst).Nodup)
    (k : String) (b : UIdx) : ((setNU nui k b).map Prod.fst).Nodup := by
  rw [keys_setNU]
  by_cases hmem : k ∈ nui.map Prod.fst
  · simpa [hmem] using hnd
  · simp only [if_neg hmem]
    rw [List.nodup_append]
    refine ⟨hnd, List.nodup_singleton k, ?_⟩
    intro a ha hb
    simp at hb
    subst hb
    exact hmem ha

theorem keys_removeNU_sublist (nui : NUIdx) (k : String) :
    ((removeNU nui k).map Prod.fst).Sublist (nui.map Prod.fst) := by
  induction nui with
  | nil => simp [removeNU]
  | cons p rest ih =>
      obtain ⟨kp, bp⟩ := p
      simp only [removeNU]
      by_cases hk : kp = k
      · subst hk
        simp only [if_pos rfl, List.map_cons]
        exact (List.sublist_cons_self _ _)
      · simp only [if_neg hk, List.map_cons]
        exact ih.cons₂ kp

theorem removeNU_keys_nodup {nui : NUIdx} (hnd : (nui.map Prod.fst).Nodup)
    (k : String) : ((removeNU nui k).map Prod.fst).Nodup :=
  hnd.sublist (keys_removeNU_sublist nui k)

theorem key_not_mem_removeNU {nui : NUIdx} (hnd : (nui.map Prod.fst).Nodup)
    (k : String) : k ∉ (removeNU nui k).map Prod.fst := by
  induction nui with
  | nil => simp [removeNU]
  | cons p rest ih =>
      obtain ⟨kp, bp⟩ := p
      simp only [List.map_cons, List.nodup_cons] at hnd
      simp only [removeNU]
      by_cases hk : kp = k
      · subst hk
        simp only [if_pos rfl]
        exact hnd.1
      · simp only [if_neg hk, List.map_cons, List.mem_cons]
        rintro (rfl | h2)
        · exact hk rfl
        · exact ih hnd.2 h2

theorem lookupNU_removeNU_self {nui : NUIdx} (hnd : (nui.map Prod.fst).Nodup)
    (k : String) : lookupNU (removeNU nui k) k = none :=
  lookupNU_eq_none_iff.mpr (key_not_mem_removeNU hnd k)

/-! ### Collection invariants

`StateInv` packages the spec's structural invariants over a collection
state (with numeric primary keys): the main index is sorted and
duplicate-free; every secondary index is key-unique and coherent with the
main index in both directions; every cached query holds a mutable,
well-formed items index that contains exactly the cached entities matching
its criteria, and its criteria evaluates without error on every cached
entity. -/

namespace Collection

/-- Per-field coherence of one non-unique index with the cached entities
`idx`. -/
def NUWF (field : String) (idx : List Entity) (nui : NUIdx) : Prop :=
  (nui.map Prod.fst).Nodup ∧
  (∀ k b, lookupNU nui k = some b →
    EntsWF b.items ∧ ∀ e ∈ b.items,
      e ∈ idx ∧ isNullish (fkOf e field) = false ∧ keyStr (fkOf e field) = k) ∧
  (∀ e ∈ idx, isNullish (fkOf e field) = false →
    ∃ b, lookupNU nui (keyStr (fkOf e field)) = some b ∧ e ∈ b.items)

def QueryInv (idx : List Entity) (q : CachedQuery) : Prop :=
  q.items.frozen = false ∧ EntsWF q.items.items ∧
  (∀ e, e ∈ q.items.items ↔
    e ∈ idx ∧ Criteria.test e.asValue q.whereC = .ok true) ∧
  (∀ e ∈ idx, (Criteria.test e.asValue q.whereC).isOk = true)

def StateInv (s : CollState) : Prop :=
  s.index.WFn ∧
  (∀ fi ∈ s.indexes, NUWF fi.1 s.index.items fi.2) ∧
  (∀ q ∈ s.queries, QueryInv s.index.items q)

/-- Two cached entities with equal keys are the same entity. -/
theorem idx_unique {idx : List Entity} (hw : EntsWF idx) {a b : Entity}
    (ha : a ∈ idx) (hb : b ∈ idx) (hk : ekey a = ekey b) : a = b :=
  mem_unique_key hw ha hb hk

/-- `Collection.remove` on a cached entity: the entity leaves the main
index and its buckets, cached queries containing its pk are invalidated,
and every invariant is preserved. -/
theorem removeEnt_spec {s : CollState} {item : Entity} {notify : Bool}
    {s' : CollState} {ev : List Ev}
    (hinv : StateInv s) (hmem : item ∈ s.index.items)
    (hok : removeEnt s item notify = .ok (s', ev)) :
    ev = (if notify then [.removed item] else []) ∧
      StateInv s' ∧
      (∀ x, x ∈ s'.index.items ↔ x ∈ s.index.items ∧ ekey x ≠ ekey item) ∧
      s'.queries = s.queries.filter (fun q => ¬ q.items.has item.pkVal) ∧
      s'.indexes.map Prod.fst = s.indexes.map Prod.fst := by
  obtain ⟨n, hn⟩ := hinv.1.1 item hmem
  have hnotnull : isNullish item.pkVal = false := by rw [hn]; rfl
  have hekey : ekey item = n := by simp [ekey, hn]
  obtain ⟨hidxmem, hidxwf, -⟩ := remove_single_spec hinv.1 hn
  rw [removeEnt, hnotnull] at hok
  simp only [Bool.false_eq_true, if_false, Except.ok.injEq, Prod.mk.injEq] at hok
  obtain ⟨hs', hev⟩ := hok
  subst hs' hev
  refine ⟨rfl, ⟨?_, ?_, ?_⟩, ?_, ?_, ?_⟩
  · exact hidxwf
  · -- per-field secondary indexes stay coherent
    intro fi' hfi'
    obtain ⟨fi, hfi, rfl⟩ := List.mem_map.mp hfi'
    have hnu := hinv.2.1 fi hfi
    set fk := fkOf item fi.1 with hfk
    by_cases hnull : isNullish fk
    · -- the removed entity carries no key for this field
      simp only [← hfk, hnull, if_pos]
      have hitemnotin : ∀ k b, lookupNU fi.2 k = some b → item ∉ b.items := by
        intro k b hb hin
        have := (hnu.2.1 k b hb).2 item hin
        rw [← hfk, hnull] at this
        simp at this
      refine ⟨hnu.1, ?_, ?_⟩
      · intro k b hb
        refine ⟨(hnu.2.1 k b hb).1, ?_⟩
        intro e he
        obtain ⟨he1, he2, he3⟩ := (hnu.2.1 k b hb).2 e he
        refine ⟨(hidxmem e).mpr ⟨he1, ?_⟩, he2, he3⟩
        intro heq
        have heqi : e = item := idx_unique hinv.1 he1 hmem (by omega)
        subst heqi
        exact hitemnotin k b hb he
      · intro e he hnull'
        have he' := (hidxmem e).mp he
        exact hnu.2.2 e he'.1 hnull'
    · have hnull' : isNullish fk = false := by
        cases h : isNullish fk
        · rfl
        · exact absurd h hnull
      simp only [← hfk, hnull']
      simp only [Bool.false_eq_true, if_false]
      -- the bucket under the removed entity's key must exist
      obtain ⟨b₀, hb₀, hb₀mem⟩ := hnu.2.2 item hmem hnull'
      rw [hb₀]
      have hb₀wf := (hnu.2.1 _ _ hb₀).1
      obtain ⟨hbmem, hbwf, -⟩ := remove_single_spec hb₀wf hn
      set items' := b₀.remove [item.pkVal] with hitems'
      by_cases hempty : items'.length = 0
      · -- bucket pruned
        simp only [← hitems', hempty, if_pos]
        have hemptyl : items'.items = [] := List.length_eq_zero.mp hempty
        refine ⟨removeNU_keys_nodup hnu.1 _, ?_, ?_⟩
        · intro k b hb
          by_cases hk : k = keyStr fk
          · rw [hk, lookupNU_removeNU_self hnu.1] at hb
            exact absurd hb (by simp)
          · rw [lookupNU_removeNU_ne _ _ _ hk] at hb
            refine ⟨(hnu.2.1 k b hb).1, ?_⟩
            intro e he
            obtain ⟨he1, he2, he3⟩ := (hnu.2.1 k b hb).2 e he
            refine ⟨(hidxmem e).mpr ⟨he1, ?_⟩, he2, he3⟩
            intro heq
            have : e = item := idx_unique hinv.1 he1 hmem (by omega)
            subst this
            exact hk (he3 ▸ rfl)
        · intro e he hnulle
          have he' := (hidxmem e).mp he
          obtain ⟨b₁, hb₁, hb₁mem⟩ := hnu.2.2 e he'.1 hnulle
          by_cases hk : keyStr (fkOf e fi.1) = keyStr fk
          · -- e would be a surviving member of the pruned (empty) bucket
            exfalso
            rw [hk, hb₀] at hb₁
            have : e ∈ items'.items := by
              rw [hitems']
              refine (hbmem e).mpr ⟨by
                have hb1b0 : b₁ = b₀ := (Option.some.inj hb₁).symm
                exact hb1b0 ▸ hb₁mem, he'.2⟩
            rw [hemptyl] at this
            simp at this
          · refine ⟨b₁, ?_, hb₁mem⟩
            rw [lookupNU_removeNU_ne _ _ _ hk]
            exact hb₁
      · simp only [← hitems', hempty, if_neg, if_false]
        refine ⟨setNU_keys_nodup hnu.1 _ _, ?_, ?_⟩
        · intro k b hb
          rw [lookupNU_setNU] at hb
          by_cases hk : k = keyStr fk
          · rw [if_pos hk] at hb
            have hbeq : b = items' := (Option.some.inj hb).symm
            subst hbeq
            refine ⟨hbwf, ?_⟩
            intro e he
            have he2 := (hbmem e).mp he
            obtain ⟨he3, he4, he5⟩ := (hnu.2.1 _ _ hb₀).2 e he2.1
            refine ⟨(hidxmem e).mpr ⟨he3, by omega⟩, he4, hk ▸ he5⟩
          · rw [if_neg hk] at hb
            refine ⟨(hnu.2.1 k b hb).1, ?_⟩
            intro e he
            obtain ⟨he1, he2, he3⟩ := (hnu.2.1 k b hb).2 e he
            refine ⟨(hidxmem e).mpr ⟨he1, ?_⟩, he2, he3⟩
            intro heq
            have : e = item := idx_unique hinv.1 he1 hmem (by omega)
            subst this
            exact hk (he3 ▸ rfl)
        · intro e he hnulle
          have he' := (hidxmem e).mp he
          obtain ⟨b₁, hb₁, hb₁mem⟩ := hnu.2.2 e he'.1 hnulle
          rw [lookupNU_setNU]
          by_cases hk : keyStr (fkOf e fi.1) = keyStr fk
          · rw [if_pos hk]
            refine ⟨items', rfl, ?_⟩
            rw [hk, hb₀] at hb₁
            have hbeq : b₁ = b₀ := (Option.some.inj hb₁).symm
            exact (hbmem e).mpr ⟨hbeq ▸ hb₁mem, he'.2⟩
          · rw [if_neg hk]
            exact ⟨b₁, hb₁, hb₁mem⟩
  · -- cached queries: only entries not containing the pk survive, unchanged
    intro q hq
    rw [List.mem_filter] at hq
    obtain ⟨hqmem, hqsurv⟩ := hq
    obtain ⟨hfz, hqwf, hqiff, hqok⟩ := hinv.2.2 q hqmem
    have hnothas : ∀ e ∈ q.items.items, ekey e ≠ n := by
      intro e he hk
      have : q.items.has item.pkVal = true := by
        rw [UIdx.has, hasStr_iff]
        refine ⟨e, he, ?_⟩
        have hne := hqwf.1 e he
        rw [keyStr_eq_iff hne ⟨n, hn⟩]
        rw [hekey]
        exact hk
      simp [this] at hqsurv
    refine ⟨hfz, hqwf, ?_, ?_⟩
    · intro e
      rw [hqiff e]
      constructor
      · rintro ⟨he, ht⟩
        have he' := (hqiff e).mpr ⟨he, ht⟩
        exact ⟨(hidxmem e).mpr ⟨he, hnothas e he'⟩, ht⟩
      · rintro ⟨he, ht⟩
        exact ⟨((hidxmem e).mp he).1, ht⟩
    · intro e he
      exact hqok e ((hidxmem e).mp he).1
  · intro x
    rw [hekey]
    exact hidxmem x
  · rfl
  · simp only [List.map_map]
    simp
    intro a b _
    by_cases h : isNullish (fkOf item a) = true
    · simp [h]
    · simp only [if_neg h]
      rcases hl : lookupNU b (keyStr (fkOf item a)) with _ | bucket
      · rfl
      · by_cases h2 : (bucket.remove [item.pkVal]).length = 0 <;> simp [h2]

/-- The query-cache update loop of `insert`, entry-wise: every output entry
comes from the corresponding input entry, updated in place exactly when the
new item matches its criteria. -/
theorem updateQueries_spec {cacheItem : Entity} :
    ∀ {qs qs' : List CachedQuery}, updateQueries cacheItem qs = .ok qs' →
      ∀ q' ∈ qs', ∃ q ∈ qs, ∃ b,
        Criteria.test cacheItem.asValue q.whereC = .ok b ∧
        q' = (if b then { q with items := q.items.addInPlace cacheItem } else q) := by
  intro qs
  induction qs with
  | nil =>
      intro qs' h
      simp [updateQueries] at h
      subst h
      intro q' hq'
      simp at hq'
  | cons q rest ih =>
      intro qs' h
      rw [updateQueries] at h
      rcases ht : Criteria.test cacheItem.asValue q.whereC with e | b
      · rw [ht] at h
        exact absurd h (by simp)
      · rw [ht] at h
        rcases hrest : updateQueries cacheItem rest with e | rest'
        · rw [hrest] at h
          exact absurd h (by simp)
        · rw [hrest] at h
          simp only [Except.ok.injEq] at h
          subst h
          intro q' hq'
          rcases List.mem_cons.mp hq' with rfl | hq'
          · exact ⟨q, List.mem_cons_self _ _, b, ht, rfl⟩
          · obtain ⟨q₀, hq₀, b₀, ht₀, heq₀⟩ := ih hrest q' hq'
            exact ⟨q₀, List.mem_cons_of_mem _ hq₀, b₀, ht₀, heq₀⟩

/-- `insertNew`: the unconditional tail of `insert` establishes every
invariant on a state in which the new key is not yet cached. -/
theorem insertNew_spec {s : CollState} {cacheItem : Entity}
    {previous : Option Entity} {s' : CollState} {ent : Entity} {ev : List Ev}
    (hinv : StateInv s) (hnum : numPk cacheItem)
    (hfresh : ∀ x ∈ s.index.items, ekey x ≠ ekey cacheItem)
    (hok : insertNew s cacheItem previous = .ok (s', ent, ev)) :
    ent = cacheItem ∧ ev = [.inserted cacheItem previous] ∧
    StateInv s' ∧
    (∀ x, x ∈ s'.index.items ↔ x ∈ s.index.items ∨ x = cacheItem) := by
  rw [insertNew] at hok
  rcases hq : updateQueries cacheItem s.queries with e | queries'
  · rw [hq] at hok
    exact absurd hok (by simp)
  · rw [hq] at hok
    simp only [Except.ok.injEq, Prod.mk.injEq] at hok
    obtain ⟨hs', hent, hev⟩ := hok
    subst hs' hent hev
    obtain ⟨haddmem, haddwf, -⟩ := add_single_spec hinv.1 hnum
    have hidxmem : ∀ x, x ∈ (s.index.add [cacheItem]).items ↔
        x ∈ s.index.items ∨ x = cacheItem := by
      intro x
      rw [haddmem x]
      constructor
      · rintro (⟨hx, -⟩ | rfl)
        · exact Or.inl hx
        · exact Or.inr rfl
      · rintro (hx | rfl)
        · exact Or.inl ⟨hx, hfresh x hx⟩
        · exact Or.inr rfl
    refine ⟨rfl, rfl, ⟨haddwf, ?_, ?_⟩, hidxmem⟩
    · -- secondary indexes
      intro fi' hfi'
      obtain ⟨fi, hfi, rfl⟩ := List.mem_map.mp hfi'
      have hnu := hinv.2.1 fi hfi
      by_cases hnull : isNullish (fkOf cacheItem fi.1) = true
      · simp only [hnull, if_pos]
        refine ⟨hnu.1, ?_, ?_⟩
        · intro k b hb
          refine ⟨(hnu.2.1 k b hb).1, ?_⟩
          intro e he
          obtain ⟨he1, he2, he3⟩ := (hnu.2.1 k b hb).2 e he
          exact ⟨(hidxmem e).mpr (Or.inl he1), he2, he3⟩
        · intro e he hnulle
          rcases (hidxmem e).mp he with he' | rfl
          · exact hnu.2.2 e he' hnulle
          · rw [hnulle] at hnull
            simp at hnull
      · have hnull' : isNullish (fkOf cacheItem fi.1) = false := by
          cases h : isNullish (fkOf cacheItem fi.1)
          · rfl
          · exact absurd h hnull
        simp only [hnull', Bool.false_eq_true, if_false]
        set strFk := keyStr (fkOf cacheItem fi.1) with hstrFk
        set bucket₀ := (lookupNU fi.2 strFk).getD (UIdx.mkNew false) with hbucket₀
        have hbwf₀ : EntsWF bucket₀.items := by
          rcases hl : lookupNU fi.2 strFk with _ | b
          · rw [hbucket₀, hl]
            exact EntsWF.nil
          · rw [hbucket₀, hl]
            exact (hnu.2.1 _ _ hl).1
        have hbsub : ∀ x ∈ bucket₀.items,
            x ∈ s.index.items ∧ isNullish (fkOf x fi.1) = false ∧
              keyStr (fkOf x fi.1) = strFk := by
          intro x hx
          rcases hl : lookupNU fi.2 strFk with _ | b
          · rw [hbucket₀, hl] at hx
            simp [UIdx.mkNew] at hx
          · rw [hbucket₀, hl] at hx
            exact (hnu.2.1 _ _ hl).2 x hx
        obtain ⟨hbaddmem, hbaddwf, -⟩ := add_single_spec hbwf₀ hnum
        refine ⟨setNU_keys_nodup hnu.1 _ _, ?_, ?_⟩
        · intro k b hb
          rw [lookupNU_setNU] at hb
          by_cases hk : k = strFk
          · rw [if_pos hk] at hb
            have hbeq : b = bucket₀.add [cacheItem] := (Option.some.inj hb).symm
            subst hbeq
            refine ⟨hbaddwf, ?_⟩
            intro e he
            rcases (hbaddmem e).mp he with ⟨he', -⟩ | rfl
            · obtain ⟨h1, h2, h3⟩ := hbsub e he'
              exact ⟨(hidxmem e).mpr (Or.inl h1), h2, hk ▸ h3⟩
            · exact ⟨(hidxmem e).mpr (Or.inr rfl), hnull', hk ▸ rfl⟩
          · rw [if_neg hk] at hb
            refine ⟨(hnu.2.1 k b hb).1, ?_⟩
            intro e he
            obtain ⟨he1, he2, he3⟩ := (hnu.2.1 k b hb).2 e he
            exact ⟨(hidxmem e).mpr (Or.inl he1), he2, he3⟩
        · intro e he hnulle
          rw [lookupNU_setNU]
          rcases (hidxmem e).mp he with he' | heqe
          · obtain ⟨b₁, hb₁, hb₁mem⟩ := hnu.2.2 e he' hnulle
            by_cases hk : keyStr (fkOf e fi.1) = strFk
            · rw [if_pos hk]
              refine ⟨bucket₀.add [cacheItem], rfl, ?_⟩
              have hb₁' : lookupNU fi.2 strFk = some b₁ := by
                rw [← hk]
                exact hb₁
              have hb₀eq : bucket₀ = b₁ := by
                rw [hbucket₀, hb₁']
                rfl
              exact (hbaddmem e).mpr (Or.inl ⟨hb₀eq ▸ hb₁mem, hfresh e he'⟩)
            · rw [if_neg hk]
              exact ⟨b₁, hb₁, hb₁mem⟩
          · rw [heqe, ← hstrFk, if_pos rfl]
            exact ⟨bucket₀.add [cacheItem], rfl, (hbaddmem _).mpr (Or.inr rfl)⟩
    · -- cached queries
      intro q' hq'
      obtain ⟨q, hqmem, b, ht, heq⟩ := updateQueries_spec hq q' hq'
      obtain ⟨hfz, hqwf, hqiff, hqok⟩ := hinv.2.2 q hqmem
      have haddip : q.items.addInPlace cacheItem = q.items.add [cacheItem] := by
        rw [UIdx.addInPlace, hfz]
        simp
      obtain ⟨hqam, hqaw, hqaf⟩ := add_single_spec hqwf hnum
      rcases b with _ | _
      · -- non-matching: entry unchanged
        simp only [if_neg (by simp : ¬ (false = true))] at heq
        subst heq
        refine ⟨hfz, hqwf, ?_, ?_⟩
        · intro e
          rw [hqiff e]
          constructor
          · rintro ⟨he, hte⟩
            exact ⟨(hidxmem e).mpr (Or.inl he), hte⟩
          · rintro ⟨he, hte⟩
            rcases (hidxmem e).mp he with he' | heqe
            · exact ⟨he', hte⟩
            · rw [heqe, ht] at hte
              exact absurd (Except.ok.inj hte) (by simp)
        · intro e he
          rcases (hidxmem e).mp he with he' | heqe
          · exact hqok e he'
          · rw [heqe, ht]
            rfl
      · -- matching: the new item is added to the cached query in place
        simp only [if_pos rfl] at heq
        subst heq
        refine ⟨?_, ?_, ?_, ?_⟩
        · show (q.items.addInPlace cacheItem).frozen = false
          rw [haddip, hqaf]
          exact hfz
        · show EntsWF (q.items.addInPlace cacheItem).items
          rw [haddip]
          exact hqaw
        · intro e
          show e ∈ (q.items.addInPlace cacheItem).items ↔
            e ∈ (s.index.add [cacheItem]).items ∧
              Criteria.test e.asValue q.whereC = .ok true
          rw [haddip, hqam e]
          constructor
          · rintro (⟨he, -⟩ | heqe)
            · obtain ⟨he1, he2⟩ := (hqiff e).mp he
              exact ⟨(hidxmem e).mpr (Or.inl he1), he2⟩
            · rw [heqe]
              exact ⟨(hidxmem _).mpr (Or.inr rfl), ht⟩
          · rintro ⟨he, hte⟩
            rcases (hidxmem e).mp he with he' | heqe
            · exact Or.inl ⟨(hqiff e).mpr ⟨he', hte⟩, hfresh e he'⟩
            · exact Or.inr heqe
        · intro e he
          rcases (hidxmem e).mp he with he' | heqe
          · exact hqok e he'
          · rw [heqe]
            show (Criteria.test cacheItem.asValue q.whereC).isOk = true
            rw [ht]
            rfl

/-- `insertCore` (the body of `insert` after pk validation): the invariant is
preserved, the key of the returned entity is the key of the incoming item, the
index afterwards holds exactly the old entities with other keys plus the
returned entity, and either nothing changed (identity stability) or exactly
one `inserted` event fired. -/
theorem insertCore_spec {cfg : Config} {s : CollState}
    {fields : List (String × Value)} {pk : Value}
    {s' : CollState} {ent : Entity} {ev : List Ev}
    (hinv : StateInv s)
    (hnum : numPk (createInstance cfg fields))
    (hpk : (createInstance cfg fields).pkVal = pk)
    (hok : insertCore cfg s fields pk = .ok (s', ent, ev)) :
    StateInv s' ∧
    ekey ent = ekey (createInstance cfg fields) ∧
    (∀ x, x ∈ s'.index.items ↔
      (x ∈ s.index.items ∧ ekey x ≠ ekey (createInstance cfg fields)) ∨ x = ent) ∧
    ((s' = s ∧ ent ∈ s.index.items ∧ ev = []) ∨
      (ent = createInstance cfg fields ∧ ∃ p, ev = [.inserted ent p])) := by
  rcases hprev : s.index.getStr (keyStr pk) with _ | previous
  · simp only [insertCore, hprev] at hok
    have hfresh : ∀ x ∈ s.index.items,
        ekey x ≠ ekey (createInstance cfg fields) := by
      intro x hx hek
      apply getStr_none_iff.mp hprev x hx
      rw [← hpk]
      exact (keyStr_eq_iff (hinv.1.1 x hx) hnum).mpr hek
    obtain ⟨hent, hev, hinv', hmem⟩ := insertNew_spec hinv hnum hfresh hok
    refine ⟨hinv', by rw [hent], ?_,
      Or.inr ⟨hent, none, by rw [hev, hent]⟩⟩
    intro x
    rw [hmem x, hent]
    constructor
    · rintro (hx | h)
      · exact Or.inl ⟨hx, hfresh x hx⟩
      · exact Or.inr h
    · rintro (⟨hx, -⟩ | h)
      · exact Or.inl hx
      · exact Or.inr h
  · simp only [insertCore, hprev] at hok
    obtain ⟨hprevmem, hprevkey⟩ := (getStr_some_iff hinv.1).mp hprev
    have hnump : numPk previous := hinv.1.1 previous hprevmem
    have hekprev : ekey previous = ekey (createInstance cfg fields) := by
      apply (keyStr_eq_iff hnump hnum).mp
      rw [hprevkey, hpk]
    by_cases heq : entityEq previous (createInstance cfg fields) = true
    · rw [if_pos heq] at hok
      simp only [Except.ok.injEq, Prod.mk.injEq] at hok
      obtain ⟨hs, hent, hev⟩ := hok
      subst hs hent hev
      refine ⟨hinv, hekprev, ?_, Or.inl ⟨rfl, hprevmem, rfl⟩⟩
      intro x
      constructor
      · intro hx
        by_cases hek : ekey x = ekey (createInstance cfg fields)
        · exact Or.inr (mem_unique_key hinv.1 hx hprevmem
            (by rw [hek]; exact hekprev.symm))
        · exact Or.inl ⟨hx, hek⟩
      · rintro (⟨hx, -⟩ | h)
        · exact hx
        · rw [h]
          exact hprevmem
    · rw [if_neg heq] at hok
      rcases hrem : removeEnt s previous false with e | p
      · rw [hrem] at hok
        exact absurd hok (by simp)
      · obtain ⟨s₁, ev₁⟩ := p
        rw [hrem] at hok
        have hok' : insertNew s₁ (createInstance cfg fields) (some previous)
            = .ok (s', ent, ev) := hok
        obtain ⟨-, hinv₁, hmem₁, -, -⟩ := removeEnt_spec hinv hprevmem hrem
        have hfresh₁ : ∀ x ∈ s₁.index.items,
            ekey x ≠ ekey (createInstance cfg fields) := by
          intro x hx
          rw [← hekprev]
          exact ((hmem₁ x).mp hx).2
        obtain ⟨hent, hev, hinv', hmem'⟩ := insertNew_spec hinv₁ hnum hfresh₁ hok'
        refine ⟨hinv', by rw [hent], ?_,
          Or.inr ⟨hent, some previous, by rw [hev, hent]⟩⟩
        intro x
        rw [hmem' x, hent]
        constructor
        · rintro (hx | h)
          · obtain ⟨hxs, hxk⟩ := (hmem₁ x).mp hx
            refine Or.inl ⟨hxs, ?_⟩
            rw [← hekprev]
            exact hxk
          · exact Or.inr h
        · rintro (⟨hxs, hxk⟩ | h)
          · refine Or.inl ((hmem₁ x).mpr ⟨hxs, ?_⟩)
            rw [hekprev]
            exact hxk
          · exact Or.inr h

/-- The pk installed by `createInstance` is exactly the pk `insert` reads off
an object payload. -/
theorem createInstance_pk {cfg : Config} {fs : List (String × Value)} :
    (createInstance cfg (valueFields (.vObj fs))).pkVal
      = getPkOf cfg (.vObj fs) := rfl

/-- `insert` on an object payload: pk validation succeeded, the invariant is
preserved, and the index afterwards holds the old entities with other keys
plus the returned entity. -/
theorem insert_spec {cfg : Config} {s : CollState} {raw : Value}
    {fs : List (String × Value)}
    {s' : CollState} {ent : Entity} {ev : List Ev}
    (hinv : StateInv s)
    (hobj : cfg.beforeInsert raw = .vObj fs)
    (hnum : numPk (createInstance cfg (valueFields (.vObj fs))))
    (hok : insert cfg s raw = .ok (s', ent, ev)) :
    StateInv s' ∧
    ekey ent = ekey (createInstance cfg (valueFields (.vObj fs))) ∧
    (∀ x, x ∈ s'.index.items ↔
      (x ∈ s.index.items ∧
        ekey x ≠ ekey (createInstance cfg (valueFields (.vObj fs)))) ∨ x = ent) ∧
    ((s' = s ∧ ent ∈ s.index.items ∧ ev = []) ∨
      (ent = createInstance cfg (valueFields (.vObj fs)) ∧
        ∃ p, ev = [.inserted ent p])) := by
  rw [insert, hobj] at hok
  rcases hnull : isNullish (getPkOf cfg (.vObj fs)) with _ | _
  · rw [hnull] at hok
    simp only [Bool.false_eq_true, if_false] at hok
    obtain ⟨h1, h2, h3, h4⟩ := insertCore_spec hinv hnum createInstance_pk hok
    exact ⟨h1, h2, h3, h4⟩
  · rw [hnull] at hok
    simp only [if_true] at hok
    exact absurd hok (by simp)

/-! ### filter / scan equivalence -/

/-- `===` only succeeds on equal values. -/
theorem strictEq_eq : ∀ {a b : Value}, strictEq a b = true → a = b := by
  intro a b h
  cases a <;> cases b <;> simp_all [strictEq]

theorem isJsObject_false_of_objTy {v : Value} (h : isObjectType v = false) :
    isJsObject v = false := by
  cases v <;> simp_all [isObjectType, isJsObject]

theorem isNullish_false_of {v : Value} (h : isObjectType v = false)
    (hu : v ≠ .vUndef) : isNullish v = false := by
  cases v <;> simp_all [isObjectType, isNullish]

theorem lookupField_mem :
    ∀ {l : List (String × Value)} {k : String} {v : Value},
    lookupField l k = some v → (k, v) ∈ l := by
  intro l
  induction l with
  | nil => intro k v h; simp [lookupField] at h
  | cons p rest ih =>
      intro k v h
      obtain ⟨k₀, v₀⟩ := p
      rw [lookupField] at h
      by_cases hk : k₀ = k
      · rw [if_pos hk] at h
        have := (Option.some.inj h).symm
        subst this hk
        exact List.mem_cons_self _ _
      · rw [if_neg hk] at h
        exact List.mem_cons_of_mem _ (ih h)

/-- A dot-free field getter is a plain property read. -/
theorem fieldGetter_nodot {field : String} (h : splitOnDot field = [field])
    (fs : List (String × Value)) :
    fieldGetter field (.vObj fs) = jsGet (.vObj fs) field := by
  rw [fieldGetter, h, fieldGetterChain]
  simp [isNullish, fieldGetterChain]

theorem fieldGetter_asValue {field : String} (h : splitOnDot field = [field])
    (e : Entity) : fieldGetter field e.asValue = fkOf e field := by
  rw [fkOf]
  have hv : e.asValue = .vObj (("pk", e.pkVal) :: e.fields) := rfl
  rw [hv]
  exact fieldGetter_nodot h _

/-- If a conjunction of criteria entries passes, the entity agrees with every
defined, non-operator, non-object entry (the bare-equality terms). -/
theorem testEntriesF_bare : ∀ (fuel : Nat) {what : Value}
    {entries : List (String × Value)} {field : String} {v : Value},
    Criteria.testEntriesF fuel what entries = .ok true →
    (field, v) ∈ entries → v ≠ .vUndef → Criteria.isOpKey field = false →
    isJsObject v = false →
    strictEq (fieldGetter field what) v = true := by
  intro fuel
  induction fuel with
  | zero =>
      intro what entries field v h
      rw [Criteria.testEntriesF] at h
      exact absurd h (by simp)
  | succ n ih =>
      intro what entries field v h hmem hvu hop hobj
      rcases entries with _ | ⟨⟨k, val⟩, rest⟩
      · simp at hmem
      · simp only [Criteria.testEntriesF] at h
        by_cases h1 : val = .vUndef
        · rw [if_pos h1] at h
          rcases List.mem_cons.mp hmem with heq | hmem'
          · cases heq
            exact absurd h1 hvu
          · exact ih h hmem' hvu hop hobj
        · rw [if_neg h1] at h
          by_cases h2 : Criteria.isOpKey k = true
          · rw [if_pos h2] at h
            rcases hao : Criteria.applyOpF n k what val with er | b
            · rw [hao] at h
              exact absurd h (by simp)
            · rw [hao] at h
              rcases b with _ | _
              · exact absurd h (by simp)
              · rcases List.mem_cons.mp hmem with heq | hmem'
                · cases heq
                  rw [hop] at h2
                  exact absurd h2 (by simp)
                · exact ih h hmem' hvu hop hobj
          · rw [if_neg h2] at h
            by_cases h3 : isJsObject val = true
            · rw [if_pos h3] at h
              rcases htf : Criteria.testF n (fieldGetter k what) val with er | b
              · rw [htf] at h
                exact absurd h (by simp)
              · rw [htf] at h
                rcases b with _ | _
                · exact absurd h (by simp)
                · rcases List.mem_cons.mp hmem with heq | hmem'
                  · cases heq
                    rw [hobj] at h3
                    exact absurd h3 (by simp)
                  · exact ih h hmem' hvu hop hobj
            · rw [if_neg h3] at h
              by_cases h4 : strictEq (fieldGetter k what) val = true
              · rw [if_pos h4] at h
                rcases List.mem_cons.mp hmem with heq | hmem'
                · cases heq
                  exact h4
                · exact ih h hmem' hvu hop hobj
              · rw [if_neg h4] at h
                exact absurd h (by simp)

/-- `Criteria.test` against an object criteria, exposed as the entry loop. -/
theorem test_vObj (what : Value) (qf : List (String × Value)) :
    Criteria.test what (.vObj qf)
      = Criteria.testEntriesF (Criteria.testFuel what (.vObj qf) - 1) what qf := by
  rw [Criteria.test]
  rcases h : Criteria.testFuel what (.vObj qf) with _ | n
  · exfalso
    rw [Criteria.testFuel] at h
    have h1 : 0 < what.vsize + (Value.vObj qf).vsize + 2 := by omega
    have h2 : 0 < (Value.vObj qf).vsize + 2 := by omega
    have := Nat.mul_pos h1 h2
    omega
  · rfl

/-- An entity passing a criteria object agrees with every bare term on an
indexed field, so it lies in the bucket the fast path looks up. -/
theorem test_bare_term {e : Entity} {qf : List (String × Value)}
    {field : String} {v : Value}
    (ht : Criteria.test e.asValue (.vObj qf) = .ok true)
    (hlf : lookupField qf field = some v)
    (hot : isObjectType v = false) (hvu : v ≠ .vUndef)
    (hop : Criteria.isOpKey field = false)
    (hsd : splitOnDot field = [field]) :
    fkOf e field = v ∧ isNullish (fkOf e field) = false := by
  rw [test_vObj] at ht
  have hs := testEntriesF_bare _ ht (lookupField_mem hlf) hvu hop
    (isJsObject_false_of_objTy hot)
  have hfg : fieldGetter field e.asValue = v := strictEq_eq hs
  rw [fieldGetter_asValue hsd] at hfg
  rw [hfg]
  exact ⟨rfl, isNullish_false_of hot hvu⟩

/-- The candidate-selection loop of `filter`: given that the running `best`
candidate set is a subset of the index containing every matching entity, the
loop either proves no entity matches (absent bucket) or returns such a
candidate set. -/
theorem chooseBest_spec {qf : List (String × Value)} {idx : List Entity} :
    ∀ {idxs : List (String × NUIdx)},
    (∀ fi ∈ idxs, NUWF fi.1 idx fi.2) →
    (∀ fi ∈ idxs, ∀ v, lookupField qf fi.1 = some v → isObjectType v = false →
      v ≠ .vUndef ∧ Criteria.isOpKey fi.1 = false ∧
        splitOnDot fi.1 = [fi.1]) →
    ∀ {best : UIdx} {res : Option UIdx},
    (∀ x ∈ best.items, x ∈ idx) →
    (∀ e ∈ idx, Criteria.test e.asValue (.vObj qf) = .ok true →
      e ∈ best.items) →
    chooseBest (.vObj qf) idxs best = .ok res →
    ((res = none →
        ∀ e ∈ idx, ¬ Criteria.test e.asValue (.vObj qf) = .ok true) ∧
      (∀ b, res = some b → (∀ x ∈ b.items, x ∈ idx) ∧
        (∀ e ∈ idx, Criteria.test e.asValue (.vObj qf) = .ok true →
          e ∈ b.items))) := by
  intro idxs
  induction idxs with
  | nil =>
      intro _ _ best res hsub hmatch hcb
      rw [chooseBest] at hcb
      have hres : some best = res := Except.ok.inj hcb
      refine ⟨?_, ?_⟩
      · intro hn
        rw [hn] at hres
        exact absurd hres (by simp)
      · intro b hb
        rw [hb] at hres
        have : best = b := Option.some.inj hres
        subst this
        exact ⟨hsub, hmatch⟩
  | cons fi rest ih =>
      intro hnu hsafe best res hsub hmatch hcb
      obtain ⟨field, nui⟩ := fi
      simp only [chooseBest] at hcb
      rcases hlf : lookupField qf field with _ | v
      · simp only [hlf] at hcb
        exact ih (fun g hg => hnu g (List.mem_cons_of_mem _ hg))
          (fun g hg => hsafe g (List.mem_cons_of_mem _ hg)) hsub hmatch hcb
      · simp only [hlf] at hcb
        by_cases hot : isObjectType v = true
        · rw [if_pos hot] at hcb
          exact ih (fun g hg => hnu g (List.mem_cons_of_mem _ hg))
            (fun g hg => hsafe g (List.mem_cons_of_mem _ hg)) hsub hmatch hcb
        · have hot' : isObjectType v = false := by
            cases h : isObjectType v
            · rfl
            · exact absurd h hot
          rw [if_neg hot] at hcb
          obtain ⟨hvu, hop, hsd⟩ :=
            hsafe ⟨field, nui⟩ (List.mem_cons_self _ _) v hlf hot'
          have hnuf := hnu ⟨field, nui⟩ (List.mem_cons_self _ _)
          rcases hlnu : lookupNU nui (propKeyStr v) with _ | bucket
          · simp only [hlnu] at hcb
            have hres : res = none := (Except.ok.inj hcb).symm
            subst hres
            refine ⟨?_, ?_⟩
            · intro _ e he ht
              obtain ⟨hfk, hnn⟩ := test_bare_term ht hlf hot' hvu hop hsd
              obtain ⟨b, hb, -⟩ := hnuf.2.2 e he hnn
              rw [keyStr, hfk, hlnu] at hb
              exact absurd hb (by simp)
            · intro b hb
              exact absurd hb (by simp)
          · simp only [hlnu] at hcb
            have hbsub : ∀ x ∈ bucket.items, x ∈ idx := by
              intro x hx
              exact ((hnuf.2.1 _ _ hlnu).2 x hx).1
            have hbmatch : ∀ e ∈ idx,
                Criteria.test e.asValue (.vObj qf) = .ok true →
                  e ∈ bucket.items := by
              intro e he ht
              obtain ⟨hfk, hnn⟩ := test_bare_term ht hlf hot' hvu hop hsd
              obtain ⟨b, hb, hbm⟩ := hnuf.2.2 e he hnn
              rw [keyStr, hfk, hlnu] at hb
              have : bucket = b := Option.some.inj hb
              subst this
              exact hbm
            refine ih (fun g hg => hnu g (List.mem_cons_of_mem _ hg))
              (fun g hg => hsafe g (List.mem_cons_of_mem _ hg)) ?_ ?_ hcb
            · intro x hx
              by_cases hlen : bucket.length < best.length
              · rw [if_pos hlen] at hx
                exact hbsub x hx
              · rw [if_neg hlen] at hx
                exact hsub x hx
            · intro e he ht
              by_cases hlen : bucket.length < best.length
              · rw [if_pos hlen]
                exact hbmatch e he ht
              · rw [if_neg hlen]
                exact hmatch e he ht

/-- The candidate-evaluation loop keeps exactly the candidates passing the
criteria test. -/
theorem filterTest_spec {q : Value} :
    ∀ {l : List Entity} {out : List Entity},
    filterTest q l = .ok out →
    ∀ e, e ∈ out ↔ e ∈ l ∧ Criteria.test e.asValue q = .ok true := by
  intro l
  induction l with
  | nil =>
      intro out h e
      rw [filterTest] at h
      have : ([] : List Entity) = out := Except.ok.inj h
      subst this
      simp
  | cons x rest ih =>
      intro out h e
      simp only [filterTest] at h
      rcases ht : Criteria.test x.asValue q with er | b
      · simp only [ht] at h
        exact absurd h (by simp)
      · simp only [ht] at h
        rcases hrest : filterTest q rest with er | l'
        · simp only [hrest] at h
          exact absurd h (by simp)
        · simp only [hrest] at h
          have hout : (if b then x :: l' else l') = out := Except.ok.inj h
          subst hout
          rcases b with _ | _
          · simp only [Bool.false_eq_true, if_false]
            rw [ih hrest e]
            constructor
            · rintro ⟨hm, hte⟩
              exact ⟨List.mem_cons_of_mem _ hm, hte⟩
            · rintro ⟨hm, hte⟩
              rcases List.mem_cons.mp hm with heq | hm'
              · subst heq
                rw [ht] at hte
                exact absurd (Except.ok.inj hte) (by simp)
              · exact ⟨hm', hte⟩
          · simp only [if_true]
            constructor
            · intro hm
              rcases List.mem_cons.mp hm with heq | hm'
              · subst heq
                exact ⟨List.mem_cons_self _ _, ht⟩
              · obtain ⟨hm'', hte⟩ := (ih hrest e).mp hm'
                exact ⟨List.mem_cons_of_mem _ hm'', hte⟩
            · rintro ⟨hm, hte⟩
              rcases List.mem_cons.mp hm with heq | hm'
              · subst heq
                exact List.mem_cons_self _ _
              · exact List.mem_cons_of_mem _ ((ih hrest e).mpr ⟨hm', hte⟩)

end Collection

/-- `array.sort` (insertion model) permutes its input. -/
theorem insertSorted_perm {α : Type} (c : α → α → Int) (x : α) :
    ∀ l : List α, (insertSorted c x l).Perm (x :: l) := by
  intro l
  induction l with
  | nil => simp [insertSorted]
  | cons y ys ih =>
      rw [insertSorted]
      by_cases h : c y x ≤ 0
      · rw [if_pos h]
        exact (ih.cons y).trans (List.Perm.swap x y ys)
      · rw [if_neg h]

theorem sortByCmp_perm {α : Type} (c : α → α → Int) :
    ∀ l : List α, (sortByCmp c l).Perm l := by
  intro l
  induction l with
  | nil => simp [sortByCmp]
  | cons x xs ih =>
      rw [sortByCmp]
      exact (insertSorted_perm c x (sortByCmp c xs)).trans (ih.cons x)

theorem sortByCmp_mem {α : Type} {c : α → α → Int} {l : List α} {e : α} :
    e ∈ sortByCmp c l ↔ e ∈ l := (sortByCmp_perm c l).mem_iff

namespace Collection

/-- Filter/scan equivalence under safe bare terms: with no offset and no
limit, `filter` returns exactly the index entities passing the criteria
test, whichever candidate bucket the fast path picked. -/
theorem filter_scan_equiv {s : CollState} {qf : List (String × Value)}
    {ob : Option Ordering.OrderBy} {out : SliceArray}
    (hinv : StateInv s)
    (hsafe : ∀ fi ∈ s.indexes, ∀ v, lookupField qf fi.1 = some v →
      isObjectType v = false →
      v ≠ .vUndef ∧ Criteria.isOpKey fi.1 = false ∧
        splitOnDot fi.1 = [fi.1])
    (hok : filter s ⟨some (.vObj qf), ob, none, none⟩ = .ok out) :
    ∀ e, e ∈ out.items ↔
      e ∈ s.index.items ∧ Criteria.test e.asValue (.vObj qf) = .ok true := by
  intro e
  simp only [filter] at hok
  rcases hcb : chooseBest (.vObj qf) s.indexes s.index with er | ores
  · simp only [hcb] at hok
    exact absurd hok (by simp)
  · simp only [hcb] at hok
    have hspec := chooseBest_spec hinv.2.1 hsafe
      (fun x hx => hx) (fun e he ht => he) hcb
    rcases ores with _ | best
    · have hout : SliceArray.mk [] 0 = out := Except.ok.inj hok
      subst hout
      simp only [List.not_mem_nil, false_iff]
      rintro ⟨he, ht⟩
      exact hspec.1 rfl e he ht
    · obtain ⟨hbsub, hbmatch⟩ := hspec.2 best rfl
      rcases hft : filterTest (.vObj qf) best.items with er | l
      · simp only [hft] at hok
        exact absurd hok (by simp)
      · simp only [hft] at hok
        have hmem : ∀ x, x ∈ l ↔
            x ∈ best.items ∧ Criteria.test x.asValue (.vObj qf) = .ok true :=
          filterTest_spec hft
        have hfull : ∀ x, x ∈ l ↔
            x ∈ s.index.items ∧
              Criteria.test x.asValue (.vObj qf) = .ok true := by
          intro x
          rw [hmem x]
          constructor
          · rintro ⟨hx, ht⟩
            exact ⟨hbsub x hx, ht⟩
          · rintro ⟨hx, ht⟩
            exact ⟨hbmatch x hx ht, ht⟩
        rcases ob with _ | o
        · have hout : SliceArray.mk l l.length = out := Except.ok.inj hok
          subst hout
          exact hfull e
        · have hout : SliceArray.mk
              (sortByCmp (fun a b =>
                Ordering.comparator o a.asValue b.asValue) l) l.length = out :=
            Except.ok.inj hok
          subst hout
          show e ∈ sortByCmp _ l ↔ _
          rw [sortByCmp_mem]
          exact hfull e

end Collection

/-! ### Ordering laws -/

theorem charListLt_irrefl : ∀ l : List Char, charListLt l l = false := by
  intro l
  induction l with
  | nil => rfl
  | cons c cs ih =>
      rw [charListLt]
      simp [lt_irrefl, ih]

theorem charListLt_asymm :
    ∀ {a b : List Char}, charListLt a b = true → charListLt b a = false := by
  intro a
  induction a with
  | nil =>
      intro b h
      rcases b with _ | ⟨y, ys⟩
      · exact absurd h (by simp [charListLt])
      · rfl
  | cons x xs ih =>
      intro b h
      rcases b with _ | ⟨y, ys⟩
      · exact absurd h (by simp [charListLt])
      · rw [charListLt] at h ⊢
        by_cases h1 : x < y
        · rw [if_neg (asymm h1), if_neg ?_]
          intro he
          rw [he] at h1
          exact lt_irrefl _ h1
        · rw [if_neg h1] at h
          by_cases h2 : x = y
          · rw [if_pos h2] at h
            subst h2
            rw [if_neg h1, if_pos rfl]
            exact ih h
          · rw [if_neg h2] at h
            exact absurd h (by simp)

theorem numLtOpt_asymm {a b : Option Int} (h : numLtOpt a b = true) :
    numLtOpt b a = false := by
  rcases a with _ | m <;> rcases b with _ | n <;> simp_all [numLtOpt] <;> omega

theorem numLtOpt_irrefl (a : Option Int) : numLtOpt a a = false := by
  rcases a with _ | m <;> simp [numLtOpt]

theorem ltJs_irrefl (x : Value) : ltJs x x = false := by
  cases x <;> simp only [ltJs, strLt] <;>
    first
      | exact charListLt_irrefl _
      | exact numLtOpt_irrefl _

theorem ltJs_asymm : ∀ {x y : Value}, ltJs x y = true → ltJs y x = false := by
  intro x y h
  cases x <;> cases y <;> simp only [ltJs, strLt] at h ⊢ <;>
    first
      | exact charListLt_asymm h
      | exact numLtOpt_asymm h

/-- The three-way comparison negates under operand swap whenever the operands
are comparable (equal under `===` or related by `<` one way). -/
theorem cmp_neg {x y : Value}
    (h : ltJs x y = true ∨ strictEq x y = true ∨ ltJs y x = true) :
    Ordering.cmp x y = - Ordering.cmp y x := by
  rcases h with h | h | h
  · have hs : strictEq y x = false := by
      cases hse : strictEq y x
      · rfl
      · rw [Collection.strictEq_eq hse, ltJs_irrefl] at h
        exact absurd h (by simp)
    rw [Ordering.cmp, Ordering.cmp, if_pos h,
      if_neg (by simp [ltJs_asymm h]), if_neg (by simp [hs])]
  · have hxy : x = y := Collection.strictEq_eq h
    subst hxy
    rw [Ordering.cmp, if_neg (by simp [ltJs_irrefl]), if_pos h]
    rfl
  · have hs : strictEq x y = false := by
      cases hse : strictEq x y
      · rfl
      · rw [← Collection.strictEq_eq hse, ltJs_irrefl] at h
        exact absurd h (by simp)
    rw [Ordering.cmp, Ordering.cmp, if_pos h,
      if_neg (by simp [ltJs_asymm h]), if_neg (by simp [hs])]
    rfl

theorem parseOrderKey_plus (f : String) :
    Ordering.parseOrderKey (f ++ "+") = (f, false) := by
  obtain ⟨cs⟩ := f
  have h1 : (String.mk cs ++ "+").data.getLast? = some '+' := by
    show (cs ++ ['+']).getLast? = some '+'
    exact List.getLast?_concat _
  rw [Ordering.parseOrderKey, h1]
  show (String.mk (String.mk cs ++ "+").data.dropLast, false) = (String.mk cs, false)
  have h2 : (String.mk cs ++ "+").data.dropLast = cs := by
    show (cs ++ ['+']).dropLast = cs
    exact List.dropLast_concat
  rw [h2]

theorem parseOrderKey_minus (f : String) :
    Ordering.parseOrderKey (f ++ "-") = (f, true) := by
  obtain ⟨cs⟩ := f
  have h1 : (String.mk cs ++ "-").data.getLast? = some '-' := by
    show (cs ++ ['-']).getLast? = some '-'
    exact List.getLast?_concat _
  rw [Ordering.parseOrderKey, h1]
  show (String.mk (String.mk cs ++ "-").data.dropLast, true) = (String.mk cs, true)
  have h2 : (String.mk cs ++ "-").data.dropLast = cs := by
    show (cs ++ ['-']).dropLast = cs
    exact List.dropLast_concat
  rw [h2]

theorem fieldComparator_plus (f : String) (a b : Value) :
    Ordering.fieldComparator (f ++ "+") a b
      = Ordering.cmp (Ordering.calcField f a) (Ordering.calcField f b) := by
  simp only [Ordering.fieldComparator, parseOrderKey_plus]
  rfl

theorem fieldComparator_minus (f : String) (a b : Value) :
    Ordering.fieldComparator (f ++ "-") a b
      = Ordering.cmp (Ordering.calcField f b) (Ordering.calcField f a) := by
  simp only [Ordering.fieldComparator, parseOrderKey_minus]
  rfl

/-- The compound comparator is the first non-zero component result, else 0. -/
theorem compoundComparator_eq (cs : List (Value → Value → Int)) (a b : Value) :
    Ordering.compoundComparator cs a b
      = (((cs.map (fun c => c a b)).find? (fun r => decide (r ≠ 0))).getD 0) := by
  induction cs with
  | nil => rfl
  | cons c rest ih =>
      rw [Ordering.compoundComparator]
      by_cases h : c a b ≠ 0
      · rw [if_pos h]
        simp [List.find?, h]
      · rw [if_neg h]
        push_neg at h
        simp [List.find?, h, ih]

/-! ### Back-reference cascade -/

namespace Collection

/-- The main-index key under which an embedded payload element lands. -/
def newKey (cfg : Config) (x : Value) : Int :=
  ekey (createInstance cfg (valueFields (cfg.beforeInsert x)))

/-- The element loop of the back-ref block: inserts every element (its key
is present afterwards, other entities are untouched) and, on a mutable old
bucket, prunes every (re)inserted pk from it. -/
theorem insertEmbedded_spec {cfgA : Config} :
    ∀ {items : List Value} {sA : CollState} {old : UIdx}
      {sA' : CollState} {old' : UIdx} {ev : List Ev},
    StateInv sA →
    (∀ x ∈ items, ∃ fs, cfgA.beforeInsert x = .vObj fs ∧
      numPk (createInstance cfgA (valueFields (.vObj fs)))) →
    EntsWF old.items →
    insertEmbedded cfgA sA old items = .ok (sA', old', ev) →
    StateInv sA' ∧ EntsWF old'.items ∧ old'.frozen = old.frozen ∧
    (∀ k, ((∃ e ∈ sA.index.items, ekey e = k) ∨
        k ∈ items.map (newKey cfgA)) →
      ∃ e ∈ sA'.index.items, ekey e = k) ∧
    (∀ y ∈ sA.index.items, ekey y ∉ items.map (newKey cfgA) →
      y ∈ sA'.index.items) ∧
    (∀ e ∈ old'.items, e ∈ old.items ∧
      (old.frozen = false → ekey e ∉ items.map (newKey cfgA))) ∧
    (∀ e ∈ old.items, ekey e ∉ items.map (newKey cfgA) → e ∈ old'.items) := by
  intro items
  induction items with
  | nil =>
      intro sA old sA' old' ev hinv hwf hold hok
      rw [insertEmbedded] at hok
      simp only [Except.ok.injEq, Prod.mk.injEq] at hok
      obtain ⟨h1, h2, h3⟩ := hok
      subst h1 h2 h3
      refine ⟨hinv, hold, rfl, ?_, ?_, ?_, ?_⟩
      · intro k hk
        rcases hk with hk | hk
        · exact hk
        · simp at hk
      · intro y hy _
        exact hy
      · intro e he
        exact ⟨he, fun _ => by simp⟩
      · intro e he _
        exact he
  | cons x rest ih =>
      intro sA old sA' old' ev hinv hwf hold hok
      simp only [insertEmbedded] at hok
      rcases hins : insert cfgA sA x with e | p
      · simp only [hins] at hok
        exact absurd hok (by simp)
      · obtain ⟨s₁, ins, ev₁⟩ := p
        simp only [hins] at hok
        obtain ⟨fs, hobj, hnum⟩ := hwf x (List.mem_cons_self _ _)
        obtain ⟨hinv₁, hek, hmem, -⟩ := insert_spec hinv hobj hnum hins
        have hinsmem : ins ∈ s₁.index.items := (hmem ins).mpr (Or.inr rfl)
        have hnumins : numPk ins := hinv₁.1.1 ins hinsmem
        obtain ⟨m, hm⟩ := hnumins
        have hekins : ekey ins = m := by simp [ekey, hm]
        have hkc : newKey cfgA x
            = ekey (createInstance cfgA (valueFields (.vObj fs))) := by
          rw [newKey, hobj]
        have hkx : newKey cfgA x = ekey ins := by
          rw [hkc, ← hek]
        have hwold : old.WFn := hold
        have hold₁ : EntsWF (if old.frozen then old
              else old.remove [ins.pkVal]).items ∧
            (if old.frozen then old
              else old.remove [ins.pkVal]).frozen = old.frozen ∧
            (∀ y, y ∈ (if old.frozen then old
                else old.remove [ins.pkVal]).items ↔
              y ∈ old.items ∧
                (old.frozen = false → ekey y ≠ ekey ins)) := by
          by_cases hfz : old.frozen = true
          · simp only [if_pos hfz]
            refine ⟨hold, trivial, ?_⟩
            intro y
            constructor
            · intro hy
              refine ⟨hy, fun hc => ?_⟩
              rw [hc] at hfz
              exact absurd hfz (by simp)
            · rintro ⟨hy, -⟩
              exact hy
          · have hfz' : old.frozen = false := by
              cases h : old.frozen
              · rfl
              · exact absurd h hfz
            simp only [if_neg hfz]
            refine ⟨(remove_single_spec hwold hm).2.1,
              (remove_single_spec hwold hm).2.2, ?_⟩
            intro y
            rw [(remove_single_spec hwold hm).1 y]
            constructor
            · rintro ⟨hy, hne⟩
              refine ⟨hy, fun _ => ?_⟩
              rw [hekins]
              exact hne
            · rintro ⟨hy, hne⟩
              refine ⟨hy, ?_⟩
              rw [← hekins]
              exact hne hfz'
        rcases hrest : insertEmbedded cfgA s₁
            (if old.frozen then old else old.remove [ins.pkVal]) rest
          with e | q
        · simp only [hrest] at hok
          exact absurd hok (by simp)
        · obtain ⟨s₂, old₂, ev₂⟩ := q
          simp only [hrest] at hok
          simp only [Except.ok.injEq, Prod.mk.injEq] at hok
          obtain ⟨h1, h2, h3⟩ := hok
          subst h1 h2 h3
          obtain ⟨hinv', hold'wf, hfz', hpres, hmono, holdsub, holdmono⟩ :=
            ih hinv₁ (fun y hy => hwf y (List.mem_cons_of_mem _ hy))
              hold₁.1 hrest
          refine ⟨hinv', hold'wf, hfz'.trans hold₁.2.1, ?_, ?_, ?_, ?_⟩
          · intro k hk
            simp only [List.map_cons, List.mem_cons] at hk
            rcases hk with ⟨e₀, he₀, hke₀⟩ | hk | hk
            · by_cases hkk : k = ekey (createInstance cfgA
                  (valueFields (.vObj fs)))
              · refine hpres k (Or.inl ⟨ins, hinsmem, ?_⟩)
                rw [hek, hkk]
              · refine hpres k (Or.inl ⟨e₀, ?_, hke₀⟩)
                refine (hmem e₀).mpr (Or.inl ⟨he₀, ?_⟩)
                rw [hke₀]
                exact hkk
            · refine hpres k (Or.inl ⟨ins, hinsmem, ?_⟩)
              rw [← hkx, hk]
            · exact hpres k (Or.inr hk)
          · intro y hy hk
            simp only [List.map_cons, List.mem_cons] at hk
            push_neg at hk
            refine hmono y ((hmem y).mpr (Or.inl ⟨hy, ?_⟩)) (by simp [hk.2])
            rw [← hkc]
            exact hk.1
          · intro e he
            obtain ⟨he₁, hne₁⟩ := holdsub e he
            obtain ⟨he₀, hne₀⟩ := (hold₁.2.2 e).mp he₁
            refine ⟨he₀, fun hfr => ?_⟩
            simp only [List.map_cons, List.mem_cons]
            push_neg
            refine ⟨by rw [hkx]; exact hne₀ hfr, ?_⟩
            have := hne₁ (by rw [hold₁.2.1]; exact hfr)
            exact this
          · intro e he hk
            simp only [List.map_cons, List.mem_cons] at hk
            push_neg at hk
            refine holdmono e ((hold₁.2.2 e).mpr ⟨he, fun _ => ?_⟩)
              (by simp [hk.2])
            rw [← hkx]
            exact hk.1

/-- The cascade loop `for (missingItem of oldBackRef) remove(missingItem)`:
exactly the entities with the removed keys disappear. -/
theorem removeMissing_spec :
    ∀ {ms : List Entity} {sA sA' : CollState} {ev : List Ev},
    StateInv sA →
    (∀ m ∈ ms, m ∈ sA.index.items) →
    ms.Pairwise (fun a b => ekey a ≠ ekey b) →
    removeMissing sA ms = .ok (sA', ev) →
    StateInv sA' ∧
    (∀ y, y ∈ sA'.index.items ↔
      y ∈ sA.index.items ∧ ∀ m ∈ ms, ekey y ≠ ekey m) := by
  intro ms
  induction ms with
  | nil =>
      intro sA sA' ev hinv hmem hpair hok
      rw [removeMissing] at hok
      simp only [Except.ok.injEq, Prod.mk.injEq] at hok
      obtain ⟨h1, h2⟩ := hok
      subst h1 h2
      refine ⟨hinv, ?_⟩
      intro y
      constructor
      · intro hy
        exact ⟨hy, by simp⟩
      · rintro ⟨hy, -⟩
        exact hy
  | cons m rest ih =>
      intro sA sA' ev hinv hmem hpair hok
      simp only [removeMissing] at hok
      rcases hrm : removeEnt sA m true with e | p
      · simp only [hrm] at hok
        exact absurd hok (by simp)
      · obtain ⟨s₁, ev₁⟩ := p
        simp only [hrm] at hok
        rcases hrest : removeMissing s₁ rest with e | q
        · simp only [hrest] at hok
          exact absurd hok (by simp)
        · obtain ⟨s₂, ev₂⟩ := q
          simp only [hrest] at hok
          simp only [Except.ok.injEq, Prod.mk.injEq] at hok
          obtain ⟨h1, h2⟩ := hok
          subst h1 h2
          obtain ⟨-, hinv₁, hmem₁, -, -⟩ :=
            removeEnt_spec hinv (hmem m (List.mem_cons_self _ _)) hrm
          have hmemr : ∀ m₁ ∈ rest, m₁ ∈ s₁.index.items := by
            intro m₁ hm₁
            refine (hmem₁ m₁).mpr
              ⟨hmem m₁ (List.mem_cons_of_mem _ hm₁), ?_⟩
            exact fun hc =>
              (List.pairwise_cons.mp hpair).1 m₁ hm₁ hc.symm
          obtain ⟨hinv₂, hmem₂⟩ :=
            ih hinv₁ hmemr (List.pairwise_cons.mp hpair).2 hrest
          refine ⟨hinv₂, ?_⟩
          intro y
          rw [hmem₂ y, hmem₁ y]
          constructor
          · rintro ⟨⟨hy, hne⟩, hrestne⟩
            refine ⟨hy, ?_⟩
            intro m₁ hm₁
            rcases List.mem_cons.mp hm₁ with h | h
            · rw [h]
              exact hne
            · exact hrestne m₁ h
          · rintro ⟨hy, hall⟩
            exact ⟨⟨hy, hall m (List.mem_cons_self _ _)⟩,
              fun m₁ hm₁ => hall m₁ (List.mem_cons_of_mem _ hm₁)⟩

end Collection

/-! ### fetch-layer helpers -/

theorem has_false_getStr {u : UIdx} {pk : Value} (h : u.has pk = false) :
    u.getStr (keyStr pk) = none := by
  rw [UIdx.has, UIdx.hasStr] at h
  rcases hg : u.getStr (keyStr pk) with _ | e
  · rfl
  · rw [hg] at h
    exact absurd h (by simp)

/-- After the first caller registers the pending entry, every further
`fetchOne` call for the same uncached pk chains and changes nothing. -/
theorem fetchOneStartN_chained {sys : FetchSys} {pk : Value}
    (hnn : isNullish pk = false) (hmiss : sys.st.index.has pk = false)
    (hp : pk ∈ sys.pendingItem) :
    ∀ N, FetchSys.fetchOneStartN sys pk false N
      = .ok (sys, List.replicate N .chained) := by
  have hstep : FetchSys.fetchOneStart sys pk false = .ok (sys, .chained) := by
    rw [FetchSys.fetchOneStart]
    simp only [Bool.false_eq_true, if_false]
    rw [UIdx.get, if_neg (by simp [hnn]), has_false_getStr hmiss]
    simp only [if_pos hp]
  intro N
  induction N with
  | zero => rfl
  | succ n ih =>
      rw [FetchSys.fetchOneStartN, hstep]
      simp only [ih]
      rfl

/-! ### View invariant -/

namespace ViewState

/-- The view invariant: items sorted by the current comparator, `_pks` a
duplicate-free set equal to the pks of `items` (which are pairwise
distinct). -/
def ViewInv (v : ViewState) : Prop :=
  v.items.Pairwise (fun a b => v.orderingCmp a b ≤ 0) ∧
  v.pks.Nodup ∧
  (v.items.map (fun e => e.pkVal)).Nodup ∧
  (∀ pk, pk ∈ v.pks ↔ ∃ e ∈ v.items, e.pkVal = pk)

theorem mem_foldl_setAdd :
    ∀ (l : List Entity) (acc : List Value) (pk : Value),
    pk ∈ l.foldl (fun acc e => setAdd acc e.pkVal) acc ↔
      pk ∈ acc ∨ ∃ e ∈ l, e.pkVal = pk := by
  intro l
  induction l with
  | nil =>
      intro acc pk
      simp
  | cons a rest ih =>
      intro acc pk
      rw [List.foldl_cons, ih, setAdd]
      by_cases h : a.pkVal ∈ acc
      · rw [if_pos h]
        constructor
        · rintro (hp | ⟨e, he1, he2⟩)
          · exact Or.inl hp
          · exact Or.inr ⟨e, List.mem_cons_of_mem _ he1, he2⟩
        · rintro (hp | ⟨e, he1, he2⟩)
          · exact Or.inl hp
          · rcases List.mem_cons.mp he1 with heq | he1
            · subst heq
              exact Or.inl (he2 ▸ h)
            · exact Or.inr ⟨e, he1, he2⟩
      · rw [if_neg h]
        constructor
        · rintro (hp | ⟨e, he1, he2⟩)
          · rcases List.mem_append.mp hp with hp | hp
            · exact Or.inl hp
            · simp only [List.mem_singleton] at hp
              exact Or.inr ⟨a, List.mem_cons_self _ _, hp.symm⟩
          · exact Or.inr ⟨e, List.mem_cons_of_mem _ he1, he2⟩
        · rintro (hp | ⟨e, he1, he2⟩)
          · exact Or.inl (List.mem_append.mpr (Or.inl hp))
          · rcases List.mem_cons.mp he1 with heq | he1
            · subst heq
              exact Or.inl (List.mem_append.mpr (Or.inr (by simp [he2])))
            · exact Or.inr ⟨e, he1, he2⟩

theorem nodup_foldl_setAdd :
    ∀ (l : List Entity) (acc : List Value), acc.Nodup →
    (l.foldl (fun acc e => setAdd acc e.pkVal) acc).Nodup := by
  intro l
  induction l with
  | nil =>
      intro acc h
      simpa using h
  | cons a rest ih =>
      intro acc h
      rw [List.foldl_cons]
      apply ih
      rw [setAdd]
      by_cases hm : a.pkVal ∈ acc
      · rw [if_pos hm]
        exact h
      · rw [if_neg hm]
        rw [List.nodup_append]
        refine ⟨h, by simp, ?_⟩
        intro x hx hx2
        simp only [List.mem_singleton] at hx2
        subst hx2
        exact hm hx

theorem findIdx_of_mem {l : List Entity} {item : Entity} (h : item ∈ l) :
    ∃ i, l.findIdx? (fun e => e = item) = some i ∧
      ∃ (hi : i < l.length), l[i] = item := by
  induction l with
  | nil => simp at h
  | cons a rest ih =>
      by_cases ha : a = item
      · refine ⟨0, ?_, by simp, ha⟩
        simp [List.findIdx?_cons, ha]
      · rcases List.mem_cons.mp h with hcontra | h'
        · exact absurd hcontra.symm ha
        · obtain ⟨i, hfi, hi, hgi⟩ := ih h'
          refine ⟨i + 1, ?_, by simpa using hi, by simpa using hgi⟩
          simp [List.findIdx?_cons, ha, hfi]

end ViewState

/-! ## Claims -/

namespace Collection

/-- C3: identity stability of `insert` — when a cache entry with the pk of the
incoming payload exists and the entity built from the payload is structurally
equal to it (`isEqual` over enumerable fields), `insert` returns the
previously cached entity with the state untouched and no events; when it is
not structurally equal, the previous entity is replaced: the result entity is
the newly built one, exactly one `inserted` event fires (carrying the
previous entity), and the index afterwards holds the old entities except at
the shared key plus the new entity. -/
theorem claim_C3 {cfg : Config} {s : CollState}
    {fields : List (String × Value)} {pk : Value} {previous : Entity}
    (hinv : StateInv s) (hnum : numPk (createInstance cfg fields))
    (hpk : (createInstance cfg fields).pkVal = pk)
    (hprev : s.index.getStr (keyStr pk) = some previous) :
    (entityEq previous (createInstance cfg fields) = true →
      insertCore cfg s fields pk = .ok (s, previous, [])) ∧
    (∀ s' ent ev, entityEq previous (createInstance cfg fields) = false →
      insertCore cfg s fields pk = .ok (s', ent, ev) →
      ent = createInstance cfg fields ∧
      ev = [.inserted ent (some previous)] ∧
      ekey previous = ekey ent ∧
      (∀ x, x ∈ s'.index.items ↔
        (x ∈ s.index.items ∧ ekey x ≠ ekey ent) ∨ x = ent)) := by
  obtain ⟨hprevmem, hprevkey⟩ := (getStr_some_iff hinv.1).mp hprev
  have hnump : numPk previous := hinv.1.1 previous hprevmem
  have hekprev : ekey previous = ekey (createInstance cfg fields) := by
    apply (keyStr_eq_iff hnump hnum).mp
    rw [hprevkey, hpk]
  constructor
  · intro heq
    simp only [insertCore, hprev]
    rw [if_pos heq]
  · intro s' ent ev heq hok
    simp only [insertCore, hprev] at hok
    rw [if_neg (by simp [heq])] at hok
    rcases hrem : removeEnt s previous false with e | p
    · rw [hrem] at hok
      exact absurd hok (by simp)
    · obtain ⟨s₁, ev₁⟩ := p
      rw [hrem] at hok
      have hok' : insertNew s₁ (createInstance cfg fields) (some previous)
          = .ok (s', ent, ev) := hok
      obtain ⟨-, hinv₁, hmem₁, -, -⟩ := removeEnt_spec hinv hprevmem hrem
      have hfresh₁ : ∀ x ∈ s₁.index.items,
          ekey x ≠ ekey (createInstance cfg fields) := by
        intro x hx
        rw [← hekprev]
        exact ((hmem₁ x).mp hx).2
      obtain ⟨hent, hev, -, hmem'⟩ := insertNew_spec hinv₁ hnum hfresh₁ hok'
      refine ⟨hent, by rw [hev, hent], by rw [hekprev, hent], ?_⟩
      intro x
      rw [hmem' x, hent]
      constructor
      · rintro (hx | hxe)
        · obtain ⟨hxs, hxk⟩ := (hmem₁ x).mp hx
          refine Or.inl ⟨hxs, ?_⟩
          rw [← hekprev]
          exact hxk
        · exact Or.inr hxe
      · rintro (⟨hxs, hxk⟩ | hxe)
        · refine Or.inl ((hmem₁ x).mpr ⟨hxs, ?_⟩)
          rw [hekprev]
          exact hxk
        · exact Or.inr hxe

/-- Witness for C3: re-inserting an entity structurally equal to the cached
one returns the cached entity, the untouched state and no events. -/
theorem claim_C3_witness :
    insertCore { primaryKey := "id", beforeInsert := fun v => v }
        { index :=
            { frozen := false,
              items := [⟨.vNum 1, [("id", .vNum 1), ("f", .vNum 5)]⟩] },
          indexes := [], queries := [] }
        [("id", .vNum 1), ("f", .vNum 5)] (.vNum 1)
      = .ok (
          { index :=
              { frozen := false,
                items := [⟨.vNum 1, [("id", .vNum 1), ("f", .vNum 5)]⟩] },
            indexes := [], queries := [] },
          ⟨.vNum 1, [("id", .vNum 1), ("f", .vNum 5)]⟩,
          []) := by
  have hinv : StateInv
      { index :=
          { frozen := false,
            items := [⟨.vNum 1, [("id", .vNum 1), ("f", .vNum 5)]⟩] },
        indexes := [], queries := [] } := by
    refine ⟨⟨?_, ?_⟩, ?_, ?_⟩
    · intro e he
      simp only [List.mem_singleton] at he
      subst he
      exact ⟨1, rfl⟩
    · simp
    · intro fi hfi
      simp at hfi
    · intro q hq
      simp at hq
  refine (claim_C3 hinv ?_ ?_ ?_).1 ?_
  · exact ⟨1, rfl⟩
  · rfl
  · decide
  · decide

/-- C4 (corrected): the secondary-index fast path of `filter` is equivalent
to the full scan only when no bare term on an indexed field is `undefined`
(and indexed fields are plain non-operator keys): under that proviso, with
no offset and no limit, `filter` returns exactly the index entities passing
`Criteria.test`.  The unconditional claim is refuted by
`claim_C4_counterexample`: an `undefined` bare term is a pass for the scan
but a bucket lookup under `"undefined"` for the fast path. -/
theorem claim_C4 {s : CollState} {qf : List (String × Value)}
    {ob : Option Ordering.OrderBy} {out : SliceArray}
    (hinv : StateInv s)
    (hsafe : ∀ fi ∈ s.indexes, ∀ v, lookupField qf fi.1 = some v →
      isObjectType v = false →
      v ≠ .vUndef ∧ Criteria.isOpKey fi.1 = false ∧
        splitOnDot fi.1 = [fi.1])
    (hok : filter s ⟨some (.vObj qf), ob, none, none⟩ = .ok out) :
    ∀ e, e ∈ out.items ↔
      e ∈ s.index.items ∧ Criteria.test e.asValue (.vObj qf) = .ok true :=
  filter_scan_equiv hinv hsafe hok

/-- Witness for C4: a one-entity, one-index state where the fast path picks
the bucket and returns exactly the matching entity. -/
theorem claim_C4_witness :
    (⟨.vNum 1, [("id", .vNum 1), ("f", .vNum 5)]⟩ : Entity) ∈
      ({ items := [⟨.vNum 1, [("id", .vNum 1), ("f", .vNum 5)]⟩], total := 1 }
        : SliceArray).items ↔
      (⟨.vNum 1, [("id", .vNum 1), ("f", .vNum 5)]⟩ : Entity) ∈
        ({ frozen := false,
           items := [⟨.vNum 1, [("id", .vNum 1), ("f", .vNum 5)]⟩] }
          : UIdx).items ∧
      Criteria.test
        (⟨.vNum 1, [("id", .vNum 1), ("f", .vNum 5)]⟩ : Entity).asValue
        (.vObj [("f", .vNum 5)]) = .ok true := by
  have hinv : StateInv
      { index :=
          { frozen := false,
            items := [⟨.vNum 1, [("id", .vNum 1), ("f", .vNum 5)]⟩] },
        indexes := [("f",
          [(keyStr (.vNum 5),
            { frozen := false,
              items := [⟨.vNum 1, [("id", .vNum 1), ("f", .vNum 5)]⟩] })])],
        queries := [] } := by
    refine ⟨⟨?_, ?_⟩, ?_, ?_⟩
    · intro e he
      simp only [List.mem_singleton] at he
      subst he
      exact ⟨1, rfl⟩
    · simp
    · intro fi hfi
      simp only [List.mem_singleton] at hfi
      subst hfi
      refine ⟨by simp, ?_, ?_⟩
      · intro k b hb
        have hk : keyStr (.vNum 5) = k ∧
            ({ frozen := false,
               items := [⟨.vNum 1, [("id", .vNum 1), ("f", .vNum 5)]⟩] }
              : UIdx) = b := by
          rw [lookupNU] at hb
          by_cases h : keyStr (.vNum 5) = k
          · rw [if_pos h] at hb
            exact ⟨h, Option.some.inj hb⟩
          · rw [if_neg h] at hb
            rw [lookupNU] at hb
            exact absurd hb (by simp)
        obtain ⟨hk1, hk2⟩ := hk
        subst hk1 hk2
        refine ⟨⟨?_, ?_⟩, ?_⟩
        · intro e he
          simp only [List.mem_singleton] at he
          subst he
          exact ⟨1, rfl⟩
        · simp
        · intro e he
          simp only [List.mem_singleton] at he
          subst he
          exact ⟨by simp, by decide, rfl⟩
      · intro e he hn
        simp only [List.mem_singleton] at he
        subst he
        exact ⟨_, rfl, by simp⟩
    · intro q hq
      simp at hq
  have hsafe : ∀ fi ∈ ([("f",
        [(keyStr (.vNum 5),
          ({ frozen := false,
             items := [⟨.vNum 1, [("id", .vNum 1), ("f", .vNum 5)]⟩] }
            : UIdx))])] : List (String × NUIdx)),
      ∀ v, lookupField [("f", .vNum 5)] fi.1 = some v →
        isObjectType v = false →
        v ≠ .vUndef ∧ Criteria.isOpKey fi.1 = false ∧
          splitOnDot fi.1 = [fi.1] := by
    intro fi hfi v hv hot
    simp only [List.mem_singleton] at hfi
    subst hfi
    have hv' : Value.vNum 5 = v := by
      rw [lookupField] at hv
      rw [if_pos rfl] at hv
      exact Option.some.inj hv
    subst hv'
    exact ⟨by decide, by decide, by decide⟩
  have hok : filter
      { index :=
          { frozen := false,
            items := [⟨.vNum 1, [("id", .vNum 1), ("f", .vNum 5)]⟩] },
        indexes := [("f",
          [(keyStr (.vNum 5),
            { frozen := false,
              items := [⟨.vNum 1, [("id", .vNum 1), ("f", .vNum 5)]⟩] })])],
        queries := [] }
      { whereC := some (.vObj [("f", .vNum 5)]), orderBy := none,
        offset := none, limit := none }
      = .ok { items := [⟨.vNum 1, [("id", .vNum 1), ("f", .vNum 5)]⟩],
              total := 1 } := by decide
  exact claim_C4 hinv hsafe hok _

/-- Counterexample to the unconditional C4: with an index on `f` and a query
`{f: undefined}`, the scan passes every entity (undefined arguments are
skipped) while the fast path looks up the absent bucket `"undefined"` and
short-circuits to the empty result. -/
theorem claim_C4_counterexample :
    ¬ (∀ (s : CollState) (q : Value) (out : SliceArray),
        StateInv s →
        filter s ⟨some q, none, none, none⟩ = .ok out →
        ∀ e, e ∈ out.items ↔
          e ∈ s.index.items ∧ Criteria.test e.asValue q = .ok true) := by
  intro h
  have hinv : StateInv
      { index :=
          { frozen := false,
            items := [⟨.vNum 1, [("id", .vNum 1)]⟩] },
        indexes := [("f", [])], queries := [] } := by
    refine ⟨⟨?_, ?_⟩, ?_, ?_⟩
    · intro e he
      simp only [List.mem_singleton] at he
      subst he
      exact ⟨1, rfl⟩
    · simp
    · intro fi hfi
      simp only [List.mem_singleton] at hfi
      subst hfi
      refine ⟨by simp, ?_, ?_⟩
      · intro k b hb
        rw [lookupNU] at hb
        exact absurd hb (by simp)
      · intro e he hn
        simp only [List.mem_singleton] at he
        subst he
        exact absurd hn (by decide)
    · intro q hq
      simp at hq
  have hiff := h _ (.vObj [("f", .vUndef)]) { items := [], total := 0 } hinv
    (by decide) ⟨.vNum 1, [("id", .vNum 1)]⟩
  exact absurd (hiff.mpr ⟨by decide, by decide⟩) (by decide)

/-- C5 (corrected): the entry `fetch` promotes into the query cache holds a
MUTABLE `UniqueIndex` (`new UniqueIndex(true)` is never frozen), refuting
the frozen-entries claim (`claim_C5_counterexample`); the copy-on-mutate
behaviour holds of `add` return values in general: on a frozen index the
receiver is unchanged by a discarded `add`, on a mutable one the addition
lands in place. -/
theorem claim_C5 :
    (∀ (s : CollState) (w : Value) (items : List Entity),
      ∃ q, (promoteQuery s w items).queries = s.queries ++ [q] ∧
        q.whereC = w ∧ q.items.frozen = false) ∧
    (∀ (u : UIdx) (e : Entity), u.frozen = true → u.addInPlace e = u) ∧
    (∀ (u : UIdx) (e : Entity), u.frozen = false →
      u.addInPlace e = u.add [e]) := by
  refine ⟨?_, ?_, ?_⟩
  · intro s w items
    exact ⟨{ whereC := w, items := (UIdx.mkNew true).add items }, rfl, rfl, rfl⟩
  · intro u e h
    simp [UIdx.addInPlace, h]
  · intro u e h
    simp [UIdx.addInPlace, h]

/-- Witness for C5: the discarded-`add` behaviour on a concrete frozen and a
concrete mutable index. -/
theorem claim_C5_witness :
    ((UIdx.mkNew false).addInPlace { pkVal := .vNum 1, fields := [] }
        = UIdx.mkNew false) ∧
    ((UIdx.mkNew true).addInPlace { pkVal := .vNum 1, fields := [] }
        = (UIdx.mkNew true).add [{ pkVal := .vNum 1, fields := [] }]) :=
  ⟨claim_C5.2.1 _ _ rfl, claim_C5.2.2 _ _ rfl⟩

/-- Counterexample to C5 as stated: the promoted cache entry's items index
is not frozen. -/
theorem claim_C5_counterexample :
    ¬ (∀ (s : CollState) (w : Value) (items : List Entity),
        ∀ q ∈ (promoteQuery s w items).queries, q.items.frozen = true) := by
  intro h
  have h2 := h { index := UIdx.mkNew false, indexes := [], queries := [] }
      (.vObj []) []
      { whereC := .vObj [], items := (UIdx.mkNew true).add [] }
      (by decide)
  exact absurd h2 (by decide)

/-- C2: the back-reference cascade of `insert`.  Inserting into `B` a
payload whose back-ref slot `F` holds an array: every array element is
inserted into the back-referenced collection `A` (its key is present in
`A`'s index afterwards), and every entity of the previous back-ref bucket
for the inserted pk whose key is absent from the new array is removed from
`A` (cascade-delete on back-ref replacement). -/
theorem claim_C2 {cfgB cfgA : Config} {F fk : String} {sB sA : CollState}
    {raw : Value} {bfs : List (String × Value)}
    {embeddedItems : List Value} {fkname : String} {nui : NUIdx}
    {sB' sA'' : CollState} {ent : Entity} {evB evA : List Ev}
    (hinvA : StateInv sA)
    (hraw : cfgB.beforeInsert raw = .vObj bfs)
    (hF : lookupField bfs F = some (.vArr embeddedItems))
    (hfind : sA.indexes.find? (fun p => p.1 = fk) = some (fkname, nui))
    (hwf : ∀ x ∈ embeddedItems, ∃ fs, cfgA.beforeInsert x = .vObj fs ∧
      numPk (createInstance cfgA (valueFields (.vObj fs))))
    (hok : insertWithBackRef cfgB cfgA F fk sB sA raw
      = .ok (sB', sA'', ent, evB, evA)) :
    StateInv sA'' ∧
    (∀ x ∈ embeddedItems, ∃ e ∈ sA''.index.items, ekey e = newKey cfgA x) ∧
    (∀ b, lookupNU nui (keyStr (getPkOf cfgB (.vObj bfs))) = some b →
      ∀ e ∈ b.items, ekey e ∉ embeddedItems.map (newKey cfgA) →
        e ∉ sA''.index.items) := by
  simp only [insertWithBackRef, hraw] at hok
  by_cases hnull : isNullish (getPkOf cfgB (.vObj bfs)) = true
  · rw [if_pos hnull] at hok
    exact absurd hok (by simp)
  · rw [if_neg hnull] at hok
    simp only [valueFields, hF, isNullish, isJsArray, Bool.false_eq_true,
      if_false, not_true, not_false_iff, if_true, hfind] at hok
    rcases hlnu : lookupNU nui (keyStr (getPkOf cfgB (.vObj bfs)))
      with _ | b
    · -- no previous bucket: the old back-ref set is the frozen empty index
      simp only [hlnu] at hok
      rcases hie : insertEmbedded cfgA sA (UIdx.mkNew false) embeddedItems
        with e | t
      · simp only [hie] at hok
        exact absurd hok (by simp)
      · obtain ⟨sA₁, old', evA₁⟩ := t
        simp only [hie] at hok
        rcases hrmm : removeMissing sA₁ old'.items with e | q
        · simp only [hrmm] at hok
          exact absurd hok (by simp)
        · obtain ⟨sA₂, evA₂⟩ := q
          simp only [hrmm] at hok
          rcases hic : insertCore cfgB sB (deleteField bfs F)
              (getPkOf cfgB (.vObj bfs)) with e | r
          · simp only [hic] at hok
            exact absurd hok (by simp)
          · obtain ⟨sB₀, ent₀, evB₀⟩ := r
            simp only [hic, Except.ok.injEq, Prod.mk.injEq] at hok
            obtain ⟨-, h2, -, -, -⟩ := hok
            subst h2
            obtain ⟨hinv₁, -, -, hpres, -, holdsub, -⟩ :=
              insertEmbedded_spec hinvA hwf EntsWF.nil hie
            have holdempty : ∀ m ∈ old'.items, False := by
              intro m hm
              have := (holdsub m hm).1
              simp [UIdx.mkNew] at this
            obtain ⟨hinv₂, hmem₂⟩ := removeMissing_spec hinv₁
              (fun m hm => absurd hm (by simpa using holdempty m))
              (List.Pairwise.imp (fun h => ne_of_lt h)
                ((insertEmbedded_spec hinvA hwf EntsWF.nil hie).2.1.2))
              hrmm
            refine ⟨hinv₂, ?_, ?_⟩
            · intro x hx
              obtain ⟨e₀, he₀, hke₀⟩ := hpres (newKey cfgA x)
                (Or.inr (List.mem_map_of_mem _ hx))
              refine ⟨e₀, (hmem₂ e₀).mpr ⟨he₀, ?_⟩, hke₀⟩
              intro m hm
              exact absurd (holdempty m hm) (by simp)
            · intro b₀ hb₀
              exact absurd hb₀ (by simp)
    · -- previous bucket found: a mutable copy of it drives the cascade
      simp only [hlnu] at hok
      have hmemfi : (fkname, nui) ∈ sA.indexes :=
        List.mem_of_find?_eq_some hfind
      have hnu := hinvA.2.1 (fkname, nui) hmemfi
      have hbwf : EntsWF b.copy.items := (hnu.2.1 _ _ hlnu).1
      rcases hie : insertEmbedded cfgA sA b.copy embeddedItems
        with e | t
      · simp only [hie] at hok
        exact absurd hok (by simp)
      · obtain ⟨sA₁, old', evA₁⟩ := t
        simp only [hie] at hok
        rcases hrmm : removeMissing sA₁ old'.items with e | q
        · simp only [hrmm] at hok
          exact absurd hok (by simp)
        · obtain ⟨sA₂, evA₂⟩ := q
          simp only [hrmm] at hok
          rcases hic : insertCore cfgB sB (deleteField bfs F)
              (getPkOf cfgB (.vObj bfs)) with e | r
          · simp only [hic] at hok
            exact absurd hok (by simp)
          · obtain ⟨sB₀, ent₀, evB₀⟩ := r
            simp only [hic, Except.ok.injEq, Prod.mk.injEq] at hok
            obtain ⟨-, h2, -, -, -⟩ := hok
            subst h2
            obtain ⟨hinv₁, hold'wf, -, hpres, hmono, holdsub, holdmono⟩ :=
              insertEmbedded_spec hinvA hwf hbwf hie
            have hfrz : b.copy.frozen = false := rfl
            have holdkeys : ∀ m ∈ old'.items,
                ekey m ∉ embeddedItems.map (newKey cfgA) :=
              fun m hm => (holdsub m hm).2 hfrz
            have holdmem : ∀ m ∈ old'.items, m ∈ sA₁.index.items := by
              intro m hm
              have hmb : m ∈ b.copy.items := (holdsub m hm).1
              have hmidx : m ∈ sA.index.items :=
                ((hnu.2.1 _ _ hlnu).2 m hmb).1
              exact hmono m hmidx (holdkeys m hm)
            obtain ⟨hinv₂, hmem₂⟩ := removeMissing_spec hinv₁ holdmem
              (List.Pairwise.imp (fun h => ne_of_lt h) hold'wf.2) hrmm
            refine ⟨hinv₂, ?_, ?_⟩
            · intro x hx
              obtain ⟨e₀, he₀, hke₀⟩ := hpres (newKey cfgA x)
                (Or.inr (List.mem_map_of_mem _ hx))
              refine ⟨e₀, (hmem₂ e₀).mpr ⟨he₀, ?_⟩, hke₀⟩
              intro m hm hkeq
              apply holdkeys m hm
              rw [← hkeq, hke₀]
              exact List.mem_map_of_mem _ hx
            · intro b₀ hb₀ e₀ he₀ hk₀
              have hbeq : b = b₀ := Option.some.inj hb₀
              subst hbeq
              intro hcontra
              have := ((hmem₂ e₀).mp hcontra).2 e₀
                (holdmono e₀ he₀ hk₀)
              exact this rfl

/-- Witness for C2: inserting a parent with one embedded child (pk 5) into
a collection whose previous back-ref bucket for that parent held child 9
leaves child 5 present and child 9 cascade-deleted. -/
theorem claim_C2_witness :
    (∃ e ∈ ({ frozen := false,
              items := [⟨.vNum 5,
                [("id", .vNum 5), ("parentId", .vNum 1)]⟩] } : UIdx).items,
      ekey e = newKey { primaryKey := "id", beforeInsert := fun v => v }
        (.vObj [("id", .vNum 5), ("parentId", .vNum 1)])) ∧
    (⟨.vNum 9, [("id", .vNum 9), ("parentId", .vNum 1)]⟩ : Entity) ∉
      ({ frozen := false,
         items := [⟨.vNum 5,
           [("id", .vNum 5), ("parentId", .vNum 1)]⟩] } : UIdx).items := by
  have hinvA : StateInv
      { index :=
          { frozen := false,
            items := [⟨.vNum 9, [("id", .vNum 9), ("parentId", .vNum 1)]⟩] },
        indexes := [("parentId",
          [("1",
            { frozen := false,
              items := [⟨.vNum 9,
                [("id", .vNum 9), ("parentId", .vNum 1)]⟩] })])],
        queries := [] } := by
    refine ⟨⟨?_, ?_⟩, ?_, ?_⟩
    · intro e he
      simp only [List.mem_singleton] at he
      subst he
      exact ⟨9, rfl⟩
    · simp
    · intro fi hfi
      simp only [List.mem_singleton] at hfi
      subst hfi
      refine ⟨by simp, ?_, ?_⟩
      · intro k b hb
        have hk : ("1" : String) = k ∧
            ({ frozen := false,
               items := [⟨.vNum 9,
                 [("id", .vNum 9), ("parentId", .vNum 1)]⟩] } : UIdx) = b := by
          rw [lookupNU] at hb
          by_cases h : ("1" : String) = k
          · rw [if_pos h] at hb
            exact ⟨h, Option.some.inj hb⟩
          · rw [if_neg h] at hb
            rw [lookupNU] at hb
            exact absurd hb (by simp)
        obtain ⟨hk1, hk2⟩ := hk
        subst hk1 hk2
        refine ⟨⟨?_, ?_⟩, ?_⟩
        · intro e he
          simp only [List.mem_singleton] at he
          subst he
          exact ⟨9, rfl⟩
        · simp
        · intro e he
          simp only [List.mem_singleton] at he
          subst he
          exact ⟨by simp, by decide, by decide⟩
      · intro e he hn
        simp only [List.mem_singleton] at he
        subst he
        exact ⟨{ frozen := false,
                 items := [⟨.vNum 9,
                   [("id", .vNum 9), ("parentId", .vNum 1)]⟩] },
               by decide, by simp⟩
    · intro q hq
      simp at hq
  have hok : insertWithBackRef
      { primaryKey := "id", beforeInsert := fun v => v }
      { primaryKey := "id", beforeInsert := fun v => v }
      "items" "parentId"
      { index := UIdx.mkNew false, indexes := [], queries := [] }
      { index :=
          { frozen := false,
            items := [⟨.vNum 9, [("id", .vNum 9), ("parentId", .vNum 1)]⟩] },
        indexes := [("parentId",
          [("1",
            { frozen := false,
              items := [⟨.vNum 9,
                [("id", .vNum 9), ("parentId", .vNum 1)]⟩] })])],
        queries := [] }
      (.vObj [("id", .vNum 1),
        ("items", .vArr [.vObj [("id", .vNum 5), ("parentId", .vNum 1)]])])
      = .ok (
        { index :=
            { frozen := true, items := [⟨.vNum 1, [("id", .vNum 1)]⟩] },
          indexes := [], queries := [] },
        { index :=
            { frozen := false,
              items := [⟨.vNum 5, [("id", .vNum 5), ("parentId", .vNum 1)]⟩] },
          indexes := [("parentId",
            [("1",
              { frozen := false,
                items := [⟨.vNum 5,
                  [("id", .vNum 5), ("parentId", .vNum 1)]⟩] })])],
          queries := [] },
        ⟨.vNum 1, [("id", .vNum 1)]⟩,
        [.inserted ⟨.vNum 1, [("id", .vNum 1)]⟩ none],
        [.inserted ⟨.vNum 5, [("id", .vNum 5), ("parentId", .vNum 1)]⟩ none,
         .removed ⟨.vNum 9, [("id", .vNum 9), ("parentId", .vNum 1)]⟩]) := by
    decide
  have hF : lookupField
      [("id", Value.vNum 1), ("items", Value.vArr
        [Value.vObj [("id", Value.vNum 5), ("parentId", Value.vNum 1)]])]
      "items"
      = some (.vArr [.vObj [("id", .vNum 5), ("parentId", .vNum 1)]]) := by
    decide
  have hfind : List.find? (fun p => p.1 = "parentId")
      ({ index :=
           { frozen := false,
             items := [⟨.vNum 9, [("id", .vNum 9), ("parentId", .vNum 1)]⟩] },
         indexes := [("parentId",
           [("1",
             { frozen := false,
               items := [⟨.vNum 9,
                 [("id", .vNum 9), ("parentId", .vNum 1)]⟩] })])],
         queries := [] } : CollState).indexes
      = some ("parentId",
          [("1",
            { frozen := false,
              items := [⟨.vNum 9,
                [("id", .vNum 9), ("parentId", .vNum 1)]⟩] })]) := by
    decide
  have h := claim_C2 hinvA (by rfl) hF hfind
      (by
        intro x hx
        simp only [List.mem_singleton] at hx
        subst hx
        exact ⟨[("id", .vNum 5), ("parentId", .vNum 1)], rfl, ⟨5, rfl⟩⟩)
      hok
  exact ⟨h.2.1 (.vObj [("id", .vNum 5), ("parentId", .vNum 1)]) (by simp),
    h.2.2
      { frozen := false,
        items := [⟨.vNum 9, [("id", .vNum 9), ("parentId", .vNum 1)]⟩] }
      (by decide)
      ⟨.vNum 9, [("id", .vNum 9), ("parentId", .vNum 1)]⟩
      (by decide) (by decide)⟩

/-- C1 (corrected): query-cache soundness.  On any state satisfying the
collection invariant: (i) every entity of a cached query lies in the main
index and passes the query's criteria; (ii) `filter({where: Q.where})`
returns exactly the set `Q.items` — but only when no bare term of `Q.where`
on an indexed field is `undefined` (`claim_C1_counterexample` refutes the
unconditional form); (iii) `insert` preserves the invariant (adding each
newly matching entity to each cached query), and (iv) `remove` preserves it
and deletes exactly the cached queries whose items contained the removed
pk. -/
theorem claim_C1 {s : CollState} (hinv : StateInv s) :
    (∀ q ∈ s.queries, ∀ e ∈ q.items.items,
      e ∈ s.index.items ∧ Criteria.test e.asValue q.whereC = .ok true) ∧
    (∀ q ∈ s.queries, ∀ qf, q.whereC = .vObj qf →
      (∀ fi ∈ s.indexes, ∀ v, lookupField qf fi.1 = some v →
        isObjectType v = false →
        v ≠ .vUndef ∧ Criteria.isOpKey fi.1 = false ∧
          splitOnDot fi.1 = [fi.1]) →
      ∀ out, filter s ⟨some (.vObj qf), none, none, none⟩ = .ok out →
        ∀ e, e ∈ out.items ↔ e ∈ q.items.items) ∧
    (∀ cfg raw fs s' ent ev, cfg.beforeInsert raw = .vObj fs →
      numPk (createInstance cfg (valueFields (.vObj fs))) →
      insert cfg s raw = .ok (s', ent, ev) → StateInv s') ∧
    (∀ item notify s' ev, item ∈ s.index.items →
      removeEnt s item notify = .ok (s', ev) →
      StateInv s' ∧
      s'.queries = s.queries.filter (fun q => ¬ q.items.has item.pkVal)) := by
  refine ⟨?_, ?_, ?_, ?_⟩
  · intro q hq e he
    exact ((hinv.2.2 q hq).2.2.1 e).mp he
  · intro q hq qf hqf hsafe out hok e
    rw [filter_scan_equiv hinv hsafe hok e, ← hqf]
    exact ((hinv.2.2 q hq).2.2.1 e).symm
  · intro cfg raw fs s' ent ev hobj hnum hok
    exact (insert_spec hinv hobj hnum hok).1
  · intro item notify s' ev hmem hok
    obtain ⟨-, hinv', -, hq, -⟩ := removeEnt_spec hinv hmem hok
    exact ⟨hinv', hq⟩

/-- Witness for C1: a cached entity of a concrete one-query state lies in
the index and passes its query's criteria. -/
theorem claim_C1_witness :
    (⟨.vNum 1, [("id", .vNum 1), ("f", .vNum 5)]⟩ : Entity) ∈
        ({ frozen := false,
           items := [⟨.vNum 1, [("id", .vNum 1), ("f", .vNum 5)]⟩] }
          : UIdx).items ∧
      Criteria.test
        (⟨.vNum 1, [("id", .vNum 1), ("f", .vNum 5)]⟩ : Entity).asValue
        (.vObj [("f", .vNum 5)]) = .ok true := by
  have hinv : StateInv
      { index :=
          { frozen := false,
            items := [⟨.vNum 1, [("id", .vNum 1), ("f", .vNum 5)]⟩] },
        indexes := [],
        queries := [
          { whereC := .vObj [("f", .vNum 5)],
            items :=
              { frozen := false,
                items := [⟨.vNum 1, [("id", .vNum 1), ("f", .vNum 5)]⟩] } }] } := by
    refine ⟨⟨?_, ?_⟩, ?_, ?_⟩
    · intro e he
      simp only [List.mem_singleton] at he
      subst he
      exact ⟨1, rfl⟩
    · simp
    · intro fi hfi
      simp at hfi
    · intro q hq
      simp only [List.mem_singleton] at hq
      subst hq
      refine ⟨rfl, ⟨?_, by simp⟩, ?_, ?_⟩
      · intro e he
        simp only [List.mem_singleton] at he
        subst he
        exact ⟨1, rfl⟩
      · intro e
        constructor
        · intro he
          simp only [List.mem_singleton] at he
          subst he
          exact ⟨by simp, by decide⟩
        · rintro ⟨he, -⟩
          exact he
      · intro e he
        simp only [List.mem_singleton] at he
        subst he
        decide
  refine (claim_C1 hinv).1
      { whereC := .vObj [("f", .vNum 5)],
        items :=
          { frozen := false,
            items := [⟨.vNum 1, [("id", .vNum 1), ("f", .vNum 5)]⟩] } }
      (by simp) ⟨.vNum 1, [("id", .vNum 1), ("f", .vNum 5)]⟩ (by simp)

/-- Counterexample to the unconditional C1: a cached query
`{where: {f: undefined}}` (on a state with a secondary index on `f`)
contains a matching entity, yet `filter` on the same `where` short-circuits
on the absent `"undefined"` bucket and returns the empty set. -/
theorem claim_C1_counterexample :
    ¬ (∀ (s : CollState) (q : CachedQuery) (out : SliceArray),
        StateInv s → q ∈ s.queries →
        filter s ⟨some q.whereC, none, none, none⟩ = .ok out →
        ∀ e, e ∈ out.items ↔ e ∈ q.items.items) := by
  intro h
  have hinv : StateInv
      { index :=
          { frozen := false,
            items := [⟨.vNum 1, [("id", .vNum 1)]⟩] },
        indexes := [("f", [])],
        queries := [
          { whereC := .vObj [("f", .vUndef)],
            items :=
              { frozen := false,
                items := [⟨.vNum 1, [("id", .vNum 1)]⟩] } }] } := by
    refine ⟨⟨?_, ?_⟩, ?_, ?_⟩
    · intro e he
      simp only [List.mem_singleton] at he
      subst he
      exact ⟨1, rfl⟩
    · simp
    · intro fi hfi
      simp only [List.mem_singleton] at hfi
      subst hfi
      refine ⟨by simp, ?_, ?_⟩
      · intro k b hb
        rw [lookupNU] at hb
        exact absurd hb (by simp)
      · intro e he hn
        simp only [List.mem_singleton] at he
        subst he
        exact absurd hn (by decide)
    · intro q hq
      simp only [List.mem_singleton] at hq
      subst hq
      refine ⟨rfl, ⟨?_, by simp⟩, ?_, ?_⟩
      · intro e he
        simp only [List.mem_singleton] at he
        subst he
        exact ⟨1, rfl⟩
      · intro e
        constructor
        · intro he
          simp only [List.mem_singleton] at he
          subst he
          exact ⟨by simp, by decide⟩
        · rintro ⟨he, -⟩
          exact he
      · intro e he
        simp only [List.mem_singleton] at he
        subst he
        decide
  have hiff := h _
      { whereC := .vObj [("f", .vUndef)],
        items :=
          { frozen := false,
            items := [⟨.vNum 1, [("id", .vNum 1)]⟩] } }
      { items := [], total := 0 } hinv (by simp) (by decide)
      ⟨.vNum 1, [("id", .vNum 1)]⟩
  exact absurd (hiff.mpr (by simp)) (by decide)

end Collection

/-- C9 (corrected): `comparator(f + "+")` negates `comparator(f + "-")` only
on comparable resolved field values (equal under `===` or related by JS `<`
one way); two incomparable values — e.g. an absent field against a number —
compare `1` under both directions, refuting the unconditional negation law
(`claim_C9_counterexample`).  The compound comparator is lexicographic: it
returns the first non-zero component result, else 0. -/
theorem claim_C9 :
    (∀ (f : String) (a b : Value),
      ltJs (Ordering.calcField f a) (Ordering.calcField f b) = true ∨
        strictEq (Ordering.calcField f a) (Ordering.calcField f b) = true ∨
        ltJs (Ordering.calcField f b) (Ordering.calcField f a) = true →
      Ordering.comparator (.single (f ++ "+")) a b
        = - Ordering.comparator (.single (f ++ "-")) a b) ∧
    (∀ (l : List String) (a b : Value),
      Ordering.comparator (.multi l) a b
        = ((((l.map Ordering.fieldComparator).map (fun c => c a b)).find?
            (fun r => decide (r ≠ 0))).getD 0)) := by
  constructor
  · intro f a b h
    show Ordering.fieldComparator (f ++ "+") a b
      = - Ordering.fieldComparator (f ++ "-") a b
    rw [fieldComparator_plus, fieldComparator_minus]
    exact cmp_neg h
  · intro l a b
    exact compoundComparator_eq _ a b

/-- Witness for C9: the negation law at two numeric field values. -/
theorem claim_C9_witness :
    Ordering.comparator (.single ("f" ++ "+")) (.vObj [("f", .vNum 1)])
        (.vObj [("f", .vNum 2)])
      = - Ordering.comparator (.single ("f" ++ "-")) (.vObj [("f", .vNum 1)])
        (.vObj [("f", .vNum 2)]) :=
  claim_C9.1 "f" _ _ (Or.inl (by decide))

/-- Counterexample to the unconditional C9 negation law: comparing an object
without the field against one with a numeric field yields 1 under both
`f+` and `f-` (NaN comparisons are false both ways and `===` fails), so the
two comparators are not negations of each other. -/
theorem claim_C9_counterexample :
    ¬ (∀ (f : String) (a b : Value),
        Ordering.comparator (.single (f ++ "+")) a b
          = - Ordering.comparator (.single (f ++ "-")) a b) := by
  intro h
  have h5 := h "f" (.vObj []) (.vObj [("f", .vNum 5)])
  revert h5
  decide

namespace FetchSys

/-- C7 (corrected): a pk registered in `pendingItemRequests` by a
`forceLoad = false` call (the default) is not in the main index at
registration time — both for `fetchOne` and for every pk a `fetchAll` batch
registers.  The unconditional claim over "any option flags" is refuted by
`claim_C7_counterexample`: `forceLoad: true` skips the cache probe and
registers a pending request for a pk that is in the index. -/
theorem claim_C7 :
    (∀ (sys : FetchSys) (pk : Value) (sys' : FetchSys),
      fetchOneStart sys pk false = .ok (sys', .issued) →
      sys.st.index.getStr (keyStr pk) = none ∧
      sys'.pendingItem = pk :: sys.pendingItem) ∧
    (∀ (sys : FetchSys) (pks : List Value) (sys' : FetchSys)
        (loaded : List Value),
      fetchAllStart sys pks false = (sys', loaded) →
      ∀ pk ∈ loaded, sys.st.index.has pk = false ∧ pk ∉ sys.pendingItem) := by
  constructor
  · intro sys pk sys' hok
    rw [fetchOneStart] at hok
    simp only [Bool.false_eq_true, if_false] at hok
    rcases hget : sys.st.index.get pk with e | oe
    · rw [hget] at hok
      exact absurd hok (by simp)
    · rw [hget] at hok
      rcases oe with _ | e
      · by_cases hp : pk ∈ sys.pendingItem
        · rw [if_pos hp] at hok
          simp only [Except.ok.injEq, Prod.mk.injEq] at hok
          exact absurd hok.2 (by simp)
        · rw [if_neg hp] at hok
          simp only [Except.ok.injEq, Prod.mk.injEq] at hok
          obtain ⟨hs', -⟩ := hok
          subst hs'
          refine ⟨?_, rfl⟩
          rw [UIdx.get] at hget
          by_cases hn : isNullish pk = true
          · rw [if_pos hn] at hget
            exact absurd hget (by simp)
          · rw [if_neg hn] at hget
            exact Except.ok.inj hget
      · simp only [Except.ok.injEq, Prod.mk.injEq] at hok
        exact absurd hok.2 (by simp)
  · intro sys pks sys' loaded hok pk hpk
    rw [fetchAllStart] at hok
    by_cases he : (pks.filter (fun pk =>
        ¬ (¬ false = true ∧ sys.st.index.has pk = true) ∧
          pk ∉ sys.pendingItem)).isEmpty = true
    · rw [if_pos he] at hok
      obtain ⟨-, hl⟩ := Prod.mk.injEq .. ▸ hok
      subst hl
      simp at hpk
    · rw [if_neg he] at hok
      obtain ⟨-, hl⟩ := Prod.mk.injEq .. ▸ hok
      subst hl
      have := List.of_mem_filter hpk
      simp only [decide_eq_true_eq] at this
      constructor
      · rcases hh : sys.st.index.has pk with _ | _
        · rfl
        · exact absurd ⟨by simp, hh⟩ this.1
      · exact this.2

/-- Witness for C7: a default-options `fetchOne` for an uncached pk
registers exactly that pending entry, and the pk is absent from the index. -/
theorem claim_C7_witness :
    ({ index := UIdx.mkNew false, indexes := [], queries := [] }
        : CollState).index.getStr (keyStr (.vNum 1)) = none ∧
    ({ st := { index := UIdx.mkNew false, indexes := [], queries := [] },
       pendingItem := [.vNum 1], sourceFindOneCalls := 1,
       sourceFindAllCalls := 0 } : FetchSys).pendingItem
      = .vNum 1 :: ([] : List Value) :=
  claim_C7.1
    { st := { index := UIdx.mkNew false, indexes := [], queries := [] },
      pendingItem := [], sourceFindOneCalls := 0, sourceFindAllCalls := 0 }
    (.vNum 1) _ (by decide)

/-- Counterexample to C7 over all option flags: `forceLoad: true` registers
a pending request for a pk that is present in the index. -/
theorem claim_C7_counterexample :
    ¬ (∀ (sys : FetchSys) (pk : Value) (forceLoad : Bool) (sys' : FetchSys),
        fetchOneStart sys pk forceLoad = .ok (sys', .issued) →
        sys.st.index.has pk = false) := by
  intro h
  have := h
    { st := { index := { frozen := false, items := [⟨.vNum 1, []⟩] },
              indexes := [], queries := [] },
      pendingItem := [], sourceFindOneCalls := 0, sourceFindAllCalls := 0 }
    (.vNum 1) true
    { st := { index := { frozen := false, items := [⟨.vNum 1, []⟩] },
              indexes := [], queries := [] },
      pendingItem := [.vNum 1], sourceFindOneCalls := 1,
      sourceFindAllCalls := 0 }
    (by decide)
  exact absurd this (by decide)

/-- C10 (implicit behaviour, confirmed): a chained `fetchOne` re-reads its
result via `Collection.get` after the pending request settles, so when the
settled state still lacks the pk the chained caller gets the "Could not
find" rejection rather than `undefined`; a `fetchAll` batch resolution whose
response omits every item indeed clears the batch's pending entries while
adding nothing to the index. -/
theorem claim_C10 :
    (∀ (name : String) (sys : FetchSys) (pk : Value),
      isNullish pk = false →
      sys.st.index.has pk = false →
      chainedResult name sys pk
        = .error ("Could not find " ++ name ++ " item with pk="
            ++ propKeyStr pk)) ∧
    (∀ (cfg : Config) (sys : FetchSys) (pksLoaded : List Value),
      fetchAllResolve cfg sys pksLoaded []
        = .ok { sys with
            pendingItem :=
              sys.pendingItem.filter (fun pk => pk ∉ pksLoaded) }) := by
  constructor
  · intro name sys pk hnn hmiss
    rw [chainedResult, Collection.get, UIdx.get, if_neg (by simp [hnn]),
      has_false_getStr hmiss]
  · intro cfg sys pksLoaded
    rfl

/-- Witness for C10: a chained caller whose batch response omitted the pk
is rejected with the "Could not find" error. -/
theorem claim_C10_witness :
    chainedResult "user"
      { st := { index := UIdx.mkNew false, indexes := [], queries := [] },
        pendingItem := [], sourceFindOneCalls := 0, sourceFindAllCalls := 0 }
      (.vNum 7)
      = .error ("Could not find " ++ "user" ++ " item with pk="
          ++ propKeyStr (.vNum 7)) :=
  claim_C10.1 "user" _ _ (by decide) (by decide)

/-- C6: `fetchOne` deduplication — for an uncached, non-pending pk, N+1
concurrent `fetchOne(pk)` calls entering before any response arrives issue
exactly one `source.findOne` (the first call; every later one chains onto
the pending request), and when the request resolves, the snapshot the
issuing caller gets from the insert is exactly what every chained caller
re-reads from the collection. -/
theorem claim_C6 {sys : FetchSys} {pk : Value} {N : Nat}
    (hnn : isNullish pk = false)
    (hmiss : sys.st.index.has pk = false)
    (hnp : pk ∉ sys.pendingItem) :
    (∃ sys', FetchSys.fetchOneStartN sys pk false (N + 1)
        = .ok (sys', .issued :: List.replicate N .chained) ∧
      sys'.sourceFindOneCalls = sys.sourceFindOneCalls + 1 ∧
      sys'.st = sys.st ∧ sys'.pendingItem = pk :: sys.pendingItem) ∧
    (∀ (name : String) (cfg : Config) (respItem : Value)
        (fs : List (String × Value)) (n : Int) (sys₁ sysR : FetchSys)
        (ent : Entity),
      Collection.StateInv sys₁.st →
      cfg.beforeInsert respItem = .vObj fs →
      (Collection.createInstance cfg
        (Collection.valueFields (.vObj fs))).pkVal = .vNum n →
      pk = .vNum n →
      FetchSys.fetchOneResolve cfg sys₁ pk respItem = .ok (sysR, ent) →
      FetchSys.chainedResult name sysR pk = .ok ent) := by
  constructor
  · have hstep : FetchSys.fetchOneStart sys pk false
        = .ok ({ sys with
                 pendingItem := pk :: sys.pendingItem
                 sourceFindOneCalls := sys.sourceFindOneCalls + 1 },
               .issued) := by
      rw [FetchSys.fetchOneStart]
      simp only [Bool.false_eq_true, if_false]
      rw [UIdx.get, if_neg (by simp [hnn]), has_false_getStr hmiss]
      simp only [if_neg hnp]
    have hrest := @fetchOneStartN_chained
        { sys with
          pendingItem := pk :: sys.pendingItem
          sourceFindOneCalls := sys.sourceFindOneCalls + 1 } pk hnn hmiss
        (List.mem_cons_self pk sys.pendingItem) N
    refine ⟨{ sys with
        pendingItem := pk :: sys.pendingItem
        sourceFindOneCalls := sys.sourceFindOneCalls + 1 }, ?_, rfl, rfl, rfl⟩
    rw [FetchSys.fetchOneStartN]
    simp only [hstep, hrest]
  · intro name cfg respItem fs n sys₁ sysR ent hinv hobj hpkv hpkn hok
    rw [FetchSys.fetchOneResolve] at hok
    rcases hins : Collection.insert cfg sys₁.st respItem with e | p
    · rw [hins] at hok
      exact absurd hok (by simp)
    · obtain ⟨s₂, ent₂, ev₂⟩ := p
      rw [hins] at hok
      simp only [Except.ok.injEq, Prod.mk.injEq] at hok
      obtain ⟨hsysR, hent⟩ := hok
      subst hent
      subst hsysR
      have hnum : numPk (Collection.createInstance cfg
          (Collection.valueFields (.vObj fs))) := ⟨n, hpkv⟩
      obtain ⟨hinv₂, hek, hmem, -⟩ := Collection.insert_spec hinv hobj hnum hins
      have hentmem : ent₂ ∈ s₂.index.items := (hmem ent₂).mpr (Or.inr rfl)
      have hnument : numPk ent₂ := hinv₂.1.1 ent₂ hentmem
      have heknum : ekey (Collection.createInstance cfg
          (Collection.valueFields (.vObj fs))) = n := by
        simp [ekey, hpkv]
      have hkey : keyStr ent₂.pkVal = keyStr pk := by
        rw [hpkn]
        show keyStr ent₂.pkVal = keyStr (⟨.vNum n, []⟩ : Entity).pkVal
        apply (keyStr_eq_iff hnument ⟨n, rfl⟩).mpr
        rw [hek, heknum]
        rfl
      rw [FetchSys.chainedResult, Collection.get, UIdx.get,
        if_neg (by simp [hpkn, isNullish]),
        (getStr_some_iff hinv₂.1).mpr ⟨hentmem, hkey⟩]

/-- Witness for C6: two concurrent `fetchOne(1)` calls on an empty system
issue one `source.findOne`; the second chains. -/
theorem claim_C6_witness :
    ∃ sys', FetchSys.fetchOneStartN
        { st := { index := UIdx.mkNew false, indexes := [], queries := [] },
          pendingItem := [], sourceFindOneCalls := 0, sourceFindAllCalls := 0 }
        (.vNum 1) false (1 + 1)
      = .ok (sys', .issued :: List.replicate 1 .chained) ∧
      sys'.sourceFindOneCalls = 0 + 1 ∧
      sys'.st = { index := UIdx.mkNew false, indexes := [], queries := [] } ∧
      sys'.pendingItem = .vNum 1 :: [] :=
  (claim_C6 (by decide) (by decide) (by decide)).1

end FetchSys

namespace ViewState

/-- C8 (corrected): the view invariant — items sorted by the current
comparator and `_pks` equal to the set of pks of `items` — is established
by `onFetched` on a sorted duplicate-free result, and preserved by
`addItem` (when the comparator behaves as an ordering on the affected
entities) and by `removeItem` for a removal of an entity the view actually
holds.  It is NOT preserved by `removeItem` for an untracked snapshot whose
pk is tracked (`claim_C8_counterexample`): the `indexOf` miss splices out
the LAST element while the pk set drops the argument's pk. -/
theorem claim_C8 :
    (∀ (v : ViewState) (fetched : List Entity),
      fetched.Pairwise (fun a b => v.orderingCmp a b ≤ 0) →
      (fetched.map (fun e => e.pkVal)).Nodup →
      ViewInv (v.onFetched fetched)) ∧
    (∀ (v : ViewState) (item : Entity) (v' : ViewState),
      ViewInv v →
      (∀ a ∈ v.items, ∀ b ∈ v.items, v.orderingCmp a b ≤ 0 →
        0 ≤ v.orderingCmp a item → 0 ≤ v.orderingCmp b item) →
      (∀ a ∈ v.items, 0 ≤ v.orderingCmp a item → v.orderingCmp item a ≤ 0) →
      v.addItem item = .ok v' →
      ViewInv v' ∧ (∀ x, x ∈ v'.items ↔ x ∈ v.items ∨ x = item)) ∧
    (∀ (v : ViewState) (item : Entity),
      ViewInv v → (item ∈ v.items ∨ item.pkVal ∉ v.pks) →
      ViewInv (v.removeItem item) ∧
      (∀ x, x ∈ (v.removeItem item).items ↔ x ∈ v.items ∧ x ≠ item)) := by
  refine ⟨?_, ?_, ?_⟩
  · -- onFetched
    intro v fetched hsorted hnodup
    refine ⟨?_, ?_, ?_, ?_⟩
    · show fetched.Pairwise (fun a b => v.orderingCmp a b ≤ 0)
      exact hsorted
    · show (fetched.foldl (fun acc e => setAdd acc e.pkVal) []).Nodup
      exact nodup_foldl_setAdd _ _ (by simp)
    · show (fetched.map (fun e => e.pkVal)).Nodup
      exact hnodup
    · intro pk
      show pk ∈ fetched.foldl (fun acc e => setAdd acc e.pkVal) [] ↔
        ∃ e ∈ fetched, e.pkVal = pk
      rw [mem_foldl_setAdd]
      simp
  · -- addItem
    intro v item v' hinv htrans hswap hok
    rw [addItem] at hok
    by_cases hpk : item.pkVal ∈ v.pks
    · rw [if_pos hpk] at hok
      exact absurd hok (by simp)
    · rw [if_neg hpk] at hok
      simp only [Except.ok.injEq] at hok
      subst hok
      have hmono : ∀ i j (_ : i < v.items.length) (hj : j < v.items.length),
          i ≤ j → 0 ≤ v.orderingCmp (v.items[i]) item →
          0 ≤ v.orderingCmp (v.items[j]) item := by
        intro i j hi hj hij hle
        rcases Nat.eq_or_lt_of_le hij with heq | hlt
        · subst heq
          exact hle
        · refine htrans _ (List.getElem_mem _) _ (List.getElem_mem _)
            ?_ hle
          have := List.pairwise_iff_get.mp hinv.1 ⟨i, hi⟩ ⟨j, hj⟩ hlt
          simpa using this
      obtain ⟨hlen, hbefore, hafter⟩ :=
        sortedIndex_spec v.orderingCmp v.items item hmono
      have hipknotmem : item.pkVal ∉ v.items.map (fun e => e.pkVal) := by
        intro hm
        obtain ⟨e, he, hpe⟩ := List.mem_map.mp hm
        exact hpk ((hinv.2.2.2 item.pkVal).mpr ⟨e, he, hpe⟩)
      refine ⟨⟨?_, ?_, ?_, ?_⟩, ?_⟩
      · show (v.items.take (sortedIndex v.orderingCmp v.items item) ++
          item :: v.items.drop (sortedIndex v.orderingCmp v.items item)).Pairwise
            (fun a b => v.orderingCmp a b ≤ 0)
        refine pairwise_insertAt hinv.1 ?_ ?_
        · intro i h hi
          exact le_of_lt (hbefore i h hi)
        · intro i h hi
          exact hswap _ (List.getElem_mem _) (hafter i h hi)
      · show (v.pks ++ [item.pkVal]).Nodup
        rw [List.nodup_append]
        refine ⟨hinv.2.1, by simp, ?_⟩
        intro a ha ha2
        simp only [List.mem_singleton] at ha2
        subst ha2
        exact hpk ha
      · show ((v.items.take (sortedIndex v.orderingCmp v.items item) ++
          item :: v.items.drop (sortedIndex v.orderingCmp v.items item)).map
            (fun e => e.pkVal)).Nodup
        have hperm : (v.items.take (sortedIndex v.orderingCmp v.items item) ++
            item :: v.items.drop (sortedIndex v.orderingCmp v.items item)).Perm
              (item :: v.items) := by
          refine List.perm_middle.trans ?_
          rw [List.take_append_drop]
        refine ((hperm.map (fun e => e.pkVal)).nodup_iff).mpr ?_
        simp only [List.map_cons, List.nodup_cons]
        exact ⟨hipknotmem, hinv.2.2.1⟩
      · intro pk
        show pk ∈ v.pks ++ [item.pkVal] ↔
          ∃ e ∈ v.items.take (sortedIndex v.orderingCmp v.items item) ++
            item :: v.items.drop (sortedIndex v.orderingCmp v.items item),
            e.pkVal = pk
        constructor
        · intro hp
          rcases List.mem_append.mp hp with hp | hp
          · obtain ⟨e, he, hpe⟩ := (hinv.2.2.2 pk).mp hp
            exact ⟨e, mem_insertAt.mpr (Or.inl he), hpe⟩
          · simp only [List.mem_singleton] at hp
            subst hp
            exact ⟨item, mem_insertAt.mpr (Or.inr rfl), rfl⟩
        · rintro ⟨e, he, hpe⟩
          rcases mem_insertAt.mp he with he | heq
          · exact List.mem_append.mpr
              (Or.inl ((hinv.2.2.2 pk).mpr ⟨e, he, hpe⟩))
          · subst heq
            subst hpe
            exact List.mem_append.mpr (Or.inr (by simp))
      · intro x
        exact mem_insertAt
  · -- removeItem
    intro v item hinv hcase
    by_cases hpk : item.pkVal ∈ v.pks
    · have hitem : item ∈ v.items := by
        rcases hcase with h | h
        · exact h
        · exact absurd hpk h
      obtain ⟨i, hfi, hi, hgi⟩ := findIdx_of_mem hitem
      simp only [removeItem, if_pos hpk, hfi]
      have hnodup : v.items.Nodup := List.Nodup.of_map _ hinv.2.2.1
      have hmemchar : ∀ x, x ∈ v.items.take i ++ v.items.drop (i + 1) ↔
          x ∈ v.items ∧ x ≠ item := by
        intro x
        constructor
        · intro hx
          rcases List.mem_append.mp hx with hx | hx
          · obtain ⟨j, hj, hjn, rfl⟩ := mem_take_iff_getElem.mp hx
            refine ⟨List.getElem_mem _, ?_⟩
            intro heq
            rw [← hgi] at heq
            have := (List.Nodup.getElem_inj_iff hnodup).mp heq
            omega
          · obtain ⟨j, hj, hjn, rfl⟩ := mem_drop_iff_getElem.mp hx
            refine ⟨List.getElem_mem _, ?_⟩
            intro heq
            rw [← hgi] at heq
            have := (List.Nodup.getElem_inj_iff hnodup).mp heq
            omega
        · rintro ⟨hx, hne⟩
          obtain ⟨j, hj, rfl⟩ := List.mem_iff_getElem.mp hx
          have hji : j ≠ i := by
            intro h
            subst h
            exact hne hgi
          rcases Nat.lt_or_ge j i with h | h
          · exact List.mem_append.mpr
              (Or.inl (mem_take_iff_getElem.mpr ⟨j, hj, h, rfl⟩))
          · have hge : i + 1 ≤ j := by omega
            exact List.mem_append.mpr
              (Or.inr (mem_drop_iff_getElem.mpr ⟨j, hj, hge, rfl⟩))
      have hsub : (v.items.take i ++ v.items.drop (i + 1)).Sublist v.items := by
        have h1 : (v.items.drop (i + 1)).Sublist (v.items.drop i) := by
          have h2 : v.items.drop (i + 1) = (v.items.drop i).drop 1 := by
            rw [List.drop_drop]
          rw [h2]
          exact List.drop_sublist _ _
        have h3 := h1.append_left (v.items.take i)
        rw [List.take_append_drop] at h3
        exact h3
      refine ⟨⟨?_, ?_, ?_, ?_⟩, fun x => hmemchar x⟩
      · exact hinv.1.sublist hsub
      · exact hinv.2.1.erase _
      · exact hinv.2.2.1.sublist (hsub.map _)
      · intro pk
        show pk ∈ v.pks.erase item.pkVal ↔ _
        rw [List.Nodup.mem_erase_iff hinv.2.1]
        constructor
        · rintro ⟨hne, hp⟩
          obtain ⟨e, he, hpe⟩ := (hinv.2.2.2 pk).mp hp
          refine ⟨e, (hmemchar e).mpr ⟨he, ?_⟩, hpe⟩
          intro heq
          subst heq
          exact hne hpe.symm
        · rintro ⟨e, he, hpe⟩
          obtain ⟨he', hne⟩ := (hmemchar e).mp he
          refine ⟨?_, (hinv.2.2.2 pk).mpr ⟨e, he', hpe⟩⟩
          intro heq
          apply hne
          refine List.inj_on_of_nodup_map hinv.2.2.1 he' hitem ?_
          rw [hpe, heq]
    · have hnomem : item ∉ v.items := by
        intro hm
        exact hpk ((hinv.2.2.2 item.pkVal).mpr ⟨item, hm, rfl⟩)
      simp only [removeItem, if_neg hpk]
      refine ⟨hinv, ?_⟩
      intro x
      constructor
      · intro hx
        refine ⟨hx, ?_⟩
        intro h
        subst h
        exact hnomem hx
      · rintro ⟨hx, -⟩
        exact hx

/-- Witness for C8: a completed load of a two-entity sorted result
establishes the view invariant. -/
theorem claim_C8_witness :
    ViewInv (ViewState.onFetched
      { query := .vObj [], orderBy := .single "pk", items := [], pks := [] }
      [⟨.vNum 1, []⟩, ⟨.vNum 2, []⟩]) :=
  claim_C8.1 _ _ (by decide) (by decide)

/-- Counterexample to the unconditional C8: `removeItem` on a snapshot the
view does not hold, but whose pk it tracks, splices out the LAST element
(the `indexOf` miss turns into `splice(-1, 1)`) while erasing the
argument's pk — afterwards `_pks` is not the set of pks of `items`. -/
theorem claim_C8_counterexample :
    ¬ (∀ (v : ViewState) (item : Entity),
        ViewInv v →
        ∀ pk, pk ∈ (v.removeItem item).pks ↔
          ∃ e ∈ (v.removeItem item).items, e.pkVal = pk) := by
  intro h
  have hinv : ViewInv
      { query := .vObj [], orderBy := .single "pk",
        items := [⟨.vNum 1, []⟩, ⟨.vNum 2, []⟩],
        pks := [.vNum 1, .vNum 2] } := by
    refine ⟨by decide, by decide, by decide, ?_⟩
    intro pk
    constructor
    · intro hp
      rcases List.mem_cons.mp hp with heq | hp
      · exact ⟨⟨.vNum 1, []⟩, by simp, heq.symm⟩
      · rcases List.mem_cons.mp hp with heq | hp
        · exact ⟨⟨.vNum 2, []⟩, by simp, heq.symm⟩
        · simp at hp
    · rintro ⟨e, he, hpe⟩
      rcases List.mem_cons.mp he with heq | he
      · subst heq
        subst hpe
        simp
      · rcases List.mem_cons.mp he with heq | he
        · subst heq
          subst hpe
          simp
        · simp at he
  have hitems : ({ query := .vObj [], orderBy := .single "pk",
                   items := [⟨.vNum 1, []⟩, ⟨.vNum 2, []⟩],
                   pks := [.vNum 1, .vNum 2] } : ViewState).removeItem
          ⟨.vNum 1, [("x", .vNum 0)]⟩
      = { query := .vObj [], orderBy := .single "pk",
          items := [⟨.vNum 1, []⟩],
          pks := [.vNum 2] } := by decide
  have hiff := h _ ⟨.vNum 1, [("x", .vNum 0)]⟩ hinv (.vNum 2)
  rw [hitems] at hiff
  obtain ⟨e, he, hpe⟩ := hiff.mp (by decide)
  simp only [List.mem_singleton] at he
  subst he
  exact absurd hpe (by decide)

end ViewState

end Keyper
